import Mathlib

/-!
# Optimal domino placement: bitmask profile DP

A shallow embedding of `main.cpp` (the vertical and horizontal mask enumerators, the
column-pair weight table and the column sweep) together with the combinatorial
specification it is checked against.  Masks are `Nat`.  The program is embedded twice:
`main` and its parts compute with exact integers (`Int`), `mainW` and its parts take every
`int` sum modulo `2^32` and every `long long` sum modulo `2^64`, as the code does.
-/


namespace DominoDP

/-! ## Tables -/

/-- The board entry `board[i][j]` of a `vector<vector<int>>`. -/
def cell (board : List (List Int)) (i j : Nat) : Int :=
  (board.getD i []).getD j 0

/-- The table entry `t[i][j]`. -/
def get2 (t : List (List Int)) (i j : Nat) : Int :=
  (t.getD i []).getD j 0

/-- The assignment `t[i][j] = v`. -/
def set2 (t : List (List Int)) (i j : Nat) (v : Int) : List (List Int) :=
  t.set i ((t.getD i []).set j v)

/-- A table with `m` rows, each of length `n`. -/
def Dims (t : List (List Int)) (m n : Nat) : Prop :=
  t.length = m ∧ ∀ r ∈ t, r.length = n

/-! ## The program -/

/-- `generateVerticalBlocks` (main.cpp 18-41): the vector `results` is threaded through and
returned; `push_back` appends at the end. -/
def generateVerticalBlocks (baseMask currentMask : Nat) (results : List Nat)
    (index numRows : Nat) : List Nat :=
  if (index : Int) ≥ (numRows : Int) - 1 then
    results ++ [currentMask]
  else
    let currentFree := (baseMask &&& (1 <<< (numRows - index - 1))) = 0
    let nextFree := (baseMask &&& (1 <<< (numRows - index - 2))) = 0
    if currentFree ∧ nextFree then
      let results := generateVerticalBlocks baseMask currentMask results (index + 1) numRows
      let newMask := currentMask
      let newMask := newMask ||| (1 <<< (numRows - index - 1))
      let newMask := newMask ||| (1 <<< (numRows - index - 2))
      generateVerticalBlocks baseMask newMask results (index + 2) numRows
    else
      generateVerticalBlocks baseMask currentMask results (index + 1) numRows
termination_by numRows - index
decreasing_by all_goals (simp_wf; omega)

/-- `computeHorizontalBlockSum` (main.cpp 58-77) with exact additions; the `int` additions of
the code are those of `computeHorizontalBlockSumW`.  The inner vectors are allocated with
`numColumns - 1` entries; a negative size makes the allocation fail, which is `none`. -/
def computeHorizontalBlockSum (board : List (List Int)) (numRows numColumns : Nat) :
    Option (List (List Int)) :=
  let totalMasks := 1 <<< numRows
  if (numColumns : Int) - 1 < 0 then none
  else
    let horizontalBlockSum :=
      List.replicate totalMasks (List.replicate (numColumns - 1) (0 : Int))
    some <|
      (List.range (numColumns - 1)).foldl (fun hbs col =>
        (List.range numRows).foldl (fun hbs row =>
          let maskBit := 1 <<< row
          (List.range totalMasks).foldl (fun hbs mask =>
            if mask &&& maskBit ≠ 0 then
              set2 hbs mask col (get2 hbs mask col
                + (cell board (numRows - row - 1) col
                    + cell board (numRows - row - 1) (col + 1)))
            else hbs) hbs) hbs) horizontalBlockSum

/-- `generateMatchingHorizontalMasks` (main.cpp 81-106). -/
def generateMatchingHorizontalMasks (numRows : Nat) : List (List Nat) :=
  let totalMasks := 1 <<< numRows
  (List.range totalMasks).map fun baseMask =>
    let positionsFree := (List.range numRows).foldl (fun pf row =>
      if baseMask &&& (1 <<< row) = 0 then pf ++ [row] else pf) []
    let freeCount := positionsFree.length
    (List.range (1 <<< freeCount)).foldl (fun out assign =>
      let newMask := (List.range freeCount).foldl (fun newMask bit =>
        if assign &&& (1 <<< bit) ≠ 0 then newMask ||| (1 <<< positionsFree.getD bit 0)
        else newMask) 0
      out ++ [newMask]) []

/-- `generateMatchingVerticalMasks` (main.cpp 109-117). -/
def generateMatchingVerticalMasks (numRows : Nat) : List (List Nat) :=
  let totalMasks := 1 <<< numRows
  (List.range totalMasks).map fun baseMask =>
    generateVerticalBlocks baseMask 0 [] 0 numRows

/-- The local `verticalBlockSum` of `main` (main.cpp 151-158) for one vertical mask, with
exact additions; the `int` additions of the code are those of `verticalBlockSumW`. -/
def verticalBlockSum (board : List (List Int)) (numRows col verticalMask : Nat) : Int :=
  (List.range numRows).foldl (fun s row =>
    if verticalMask &&& (1 <<< row) ≠ 0 then s + cell board (numRows - row - 1) col
    else s) 0

/-- The vertical phase of column `col` (main.cpp 148-165).  The `break` at `col == 0` leaves
the loop after its first iteration, so only the first mask of the range is processed. -/
def verticalPhase (board : List (List Int)) (numRows : Nat)
    (matchingVerticalMasks : List (List Nat)) (col : Nat) (dp : List (List Int)) :
    List (List Int) :=
  let totalMasks := 1 <<< numRows
  (if col = 0 then (List.range totalMasks).take 1 else List.range totalMasks).foldl
    (fun dp horizontalMask =>
      (matchingVerticalMasks.getD horizontalMask []).foldl (fun dp verticalMask =>
        let combinedMask := horizontalMask ||| verticalMask
        set2 dp combinedMask col
          (max (get2 dp combinedMask col)
            (get2 dp horizontalMask col + verticalBlockSum board numRows col verticalMask)))
        dp) dp

/-- The horizontal phase of column `col` (main.cpp 168-175), run when `col < numColumns - 1`. -/
def horizontalPhase (numRows : Nat) (horizontalBlockSum : List (List Int))
    (matchingHorizontalMasks : List (List Nat)) (col : Nat) (dp : List (List Int)) :
    List (List Int) :=
  let totalMasks := 1 <<< numRows
  (List.range totalMasks).foldl (fun dp horizontalMask =>
    (matchingHorizontalMasks.getD horizontalMask []).foldl (fun dp newMask =>
      let addValue := if get2 horizontalBlockSum newMask col ≥ 0
        then get2 horizontalBlockSum newMask col else 0
      set2 dp newMask (col + 1)
        (max (get2 dp newMask (col + 1)) (get2 dp horizontalMask col + addValue))) dp) dp

/-- One iteration of the column loop of `main` (main.cpp 146-177). -/
def sweepStep (board : List (List Int)) (numRows numColumns : Nat)
    (horizontalBlockSum : List (List Int))
    (matchingVerticalMasks matchingHorizontalMasks : List (List Nat))
    (dp : List (List Int)) (col : Nat) : List (List Int) :=
  let dp := verticalPhase board numRows matchingVerticalMasks col dp
  if col < numColumns - 1 then
    horizontalPhase numRows horizontalBlockSum matchingHorizontalMasks col dp
  else dp

/-- The engine `main` (main.cpp 119-186) as a function of the values read from the input:
the two dimensions and the board, computed with exact integers; `mainW` is the same engine
with the machine widths of the code.  The result is the printed `overallMax`; it is `none`
when the weight table cannot be allocated. -/
def main (numColumns numRows : Nat) (board : List (List Int)) : Option Int :=
  let totalMasks := 1 <<< numRows
  match computeHorizontalBlockSum board numRows numColumns with
  | none => none
  | some horizontalBlockSum =>
    let matchingVerticalMasks := generateMatchingVerticalMasks numRows
    let matchingHorizontalMasks := generateMatchingHorizontalMasks numRows
    let dp := List.replicate totalMasks (List.replicate numColumns (0 : Int))
    let overallMax : Int := 0
    let dp := (List.range numColumns).foldl
      (sweepStep board numRows numColumns horizontalBlockSum
        matchingVerticalMasks matchingHorizontalMasks) dp
    some ((List.range totalMasks).foldl (fun overallMax mask =>
      max overallMax (get2 dp mask (numColumns - 1))) overallMax)

/-! ## Specification side -/

/-- A board with `rows` rows of `cols` entries each. -/
def IsGrid (board : List (List Int)) (rows cols : Nat) : Prop :=
  board.length = rows ∧ ∀ r ∈ board, r.length = cols

/-- A 1x2 domino: its upper-left cell and its orientation. -/
structure Domino where
  row : Nat
  col : Nat
  horizontal : Bool
deriving DecidableEq, Repr

/-- The two cells a domino covers. -/
def Domino.cells (d : Domino) : List (Nat × Nat) :=
  if d.horizontal then [(d.row, d.col), (d.row, d.col + 1)]
  else [(d.row, d.col), (d.row + 1, d.col)]

/-- The domino lies inside the `rows × cols` grid. -/
def Domino.InGrid (rows cols : Nat) (d : Domino) : Prop :=
  ∀ x ∈ d.cells, x.1 < rows ∧ x.2 < cols

/-- A set of dominoes inside the grid, no two of which share a cell. -/
def Valid (rows cols : Nat) (P : Finset Domino) : Prop :=
  (∀ d ∈ P, d.InGrid rows cols) ∧
  (∀ d ∈ P, ∀ e ∈ P, d ≠ e → ∀ x ∈ d.cells, x ∉ e.cells)

/-- The sum of the values of the two cells of a domino, for a value function on cells. -/
def dominoValue (val : Nat → Nat → Int) (d : Domino) : Int :=
  (d.cells.map fun x => val x.1 x.2).sum

/-- The sum of the values of the cells covered by a set of dominoes. -/
def weight (val : Nat → Nat → Int) (P : Finset Domino) : Int :=
  ∑ d in P, dominoValue val d

/-- Every domino that fits in the grid: the horizontal ones, then the vertical ones. -/
def allDominoes (rows cols : Nat) : List Domino :=
  ((List.range rows).flatMap fun r => (List.range (cols - 1)).map fun c => ⟨r, c, true⟩) ++
  ((List.range (rows - 1)).flatMap fun r => (List.range cols).map fun c => ⟨r, c, false⟩)

/-- Exhaustive search: the best covered sum over all sub-lists of `allDominoes` whose cells
are pairwise distinct (the empty list gives 0). -/
def bruteForce (board : List (List Int)) (rows cols : Nat) : Int :=
  let candidates := (allDominoes rows cols).sublists.filter
    fun P => (P.flatMap Domino.cells).Nodup
  (candidates.map fun P => (P.map (dominoValue (cell board))).sum).foldl max 0

/-- The 1-D selection recurrence over a row `a`: `f 0 = f 1 = 0` and
`f k = max (f (k-1)) (f (k-2) + a[k-2] + a[k-1])`. -/
def pairRecurrence (a : Nat → Int) : Nat → Int
  | 0 => 0
  | 1 => 0
  | k + 2 => max (pairRecurrence a (k + 1)) (pairRecurrence a k + a k + a (k + 1))

/-- The number of one bits of a mask. -/
def popcount (m : Nat) : Nat := (Nat.bits m).count true

/-! ## Auxiliary notions used in the proofs -/

/-- A set `S` of lower bit positions of adjacent bit pairs `{b, b+1}` that start at recursion
index `idx` or later, are free in `base`, and do not overlap. -/
def PairSet (n base idx : Nat) (S : Finset Nat) : Prop :=
  (∀ b ∈ S, b + 2 + idx ≤ n ∧ base.testBit b = false ∧ base.testBit (b + 1) = false) ∧
  (∀ b ∈ S, b + 1 ∉ S)

/-- Bit `i` lies in one of the pairs `{b, b+1}`, `b ∈ S`. -/
def Covers (S : Finset Nat) (i : Nat) : Prop := ∃ b ∈ S, i = b ∨ i = b + 1

/-- The mask below `2 ^ k` whose bit `i` is `p i`. -/
def maskOf (p : Nat → Bool) : Nat → Nat
  | 0 => 0
  | k + 1 => maskOf p k ||| (if p k then 1 <<< k else 0)

/-- The list `positionsFree` built by `generateMatchingHorizontalMasks` for `baseMask`. -/
def freePositions (numRows baseMask : Nat) : List Nat :=
  (List.range numRows).filter fun row => baseMask &&& (1 <<< row) = 0

/-- The mask `newMask` built by `generateMatchingHorizontalMasks` for one value of `assign`. -/
def assignMask (positionsFree : List Nat) (assign : Nat) : Nat :=
  (List.range positionsFree.length).foldl (fun newMask bit =>
    if assign &&& (1 <<< bit) ≠ 0 then newMask ||| (1 <<< positionsFree.getD bit 0)
    else newMask) 0

/-- The board value the program reads for mask bit `b` in column `c`:
`board[numRows - b - 1][c]`. -/
def bitValue (board : List (List Int)) (numRows b c : Nat) : Int :=
  cell board (numRows - b - 1) c

/-- The sum of `f` over the bits of `mask` below `n`. -/
def bitSum (n mask : Nat) (f : Nat → Int) : Int :=
  ∑ b in (Finset.range n).filter (fun b => mask.testBit b = true), f b

/-- One DP update `dp[tgt][ct] = max(dp[tgt][ct], dp[src][cs] + w)`. -/
structure Step where
  tgt : Nat
  ct : Nat
  src : Nat
  cs : Nat
  w : Int

/-- Perform one update. -/
def relax (t : List (List Int)) (s : Step) : List (List Int) :=
  set2 t s.tgt s.ct (max (get2 t s.tgt s.ct) (get2 t s.src s.cs + s.w))

/-- Perform a list of updates in order. -/
def relaxAll (t : List (List Int)) (steps : List Step) : List (List Int) :=
  steps.foldl relax t

/-- The updates of the vertical phase of column `col`, in program order. -/
def verticalSteps (board : List (List Int)) (numRows : Nat)
    (matchingVerticalMasks : List (List Nat)) (col : Nat) : List Step :=
  (if col = 0 then (List.range (1 <<< numRows)).take 1
    else List.range (1 <<< numRows)).flatMap fun h =>
      (matchingVerticalMasks.getD h []).map fun v =>
        ⟨h ||| v, col, h, col, verticalBlockSum board numRows col v⟩

/-- The updates of the horizontal phase of column `col`, in program order. -/
def horizontalSteps (numRows : Nat) (horizontalBlockSum : List (List Int))
    (matchingHorizontalMasks : List (List Nat)) (col : Nat) : List Step :=
  (List.range (1 <<< numRows)).flatMap fun h =>
    (matchingHorizontalMasks.getD h []).map fun m =>
      ⟨m, col + 1, h, col,
        if get2 horizontalBlockSum m col ≥ 0 then get2 horizontalBlockSum m col else 0⟩

/-- The vertical dominoes of column `c` whose lower coordinates are the elements of `S`. -/
def verticalDominoes (S : Finset Nat) (c : Nat) : Finset Domino :=
  S.image fun b => ⟨b, c, false⟩

/-- The horizontal dominoes leaving column `c` at the rows flagged in `m`. -/
def horizontalDominoes (n m c : Nat) : Finset Domino :=
  ((Finset.range n).filter fun b => m.testBit b = true).image fun b => ⟨b, c, true⟩

/-- A placement that uses only columns `0..j` and whose cells in column `j` are flagged
in the mask `i`. -/
def Good (n C : Nat) (P : Finset Domino) (i j : Nat) : Prop :=
  Valid n C P ∧ ∀ d ∈ P, ∀ x ∈ d.cells, x.2 ≤ j ∧ (x.2 = j → i.testBit x.1 = true)

/-- The value `v` is the weight of a placement that is `Good` for mask `a` and column `b`. -/
def Reach (n C : Nat) (val : Nat → Nat → Int) (a b : Nat) (v : Int) : Prop :=
  a < 2 ^ n → b < C → ∃ P, Good n C P a b ∧ weight val P = v

/-- The rows at which a horizontal domino of `P` leaves column `c`. -/
def outMask (n : Nat) (P : Finset Domino) (c : Nat) : Nat :=
  maskOf (fun b => decide ((⟨b, c, true⟩ : Domino) ∈ P)) n

/-- The rows of column `c` covered by a horizontal domino of `P` coming from column `c - 1`. -/
def inMask (n : Nat) (P : Finset Domino) (c : Nat) : Nat :=
  if c = 0 then 0 else outMask n P (c - 1)

/-- The lower coordinates of the vertical dominoes of `P` in column `c`. -/
def vertSet (n : Nat) (P : Finset Domino) (c : Nat) : Finset Nat :=
  (Finset.range n).filter fun b => (⟨b, c, false⟩ : Domino) ∈ P

/-- The rows of column `c` covered by a vertical domino of `P`. -/
def vertMask (n : Nat) (P : Finset Domino) (c : Nat) : Nat :=
  maskOf (fun b => decide ((⟨b, c, false⟩ : Domino) ∈ P ∨
    (1 ≤ b ∧ (⟨b - 1, c, false⟩ : Domino) ∈ P))) n

/-- The weight of the dominoes of `P` whose first column is before `c`. -/
def preWeight (val : Nat → Nat → Int) (P : Finset Domino) (c : Nat) : Int :=
  weight val (P.filter fun d => d.col < c)

/-- The weight of the vertical dominoes of `P` in column `c`. -/
def vertWeight (val : Nat → Nat → Int) (P : Finset Domino) (c : Nat) : Int :=
  weight val (P.filter fun d => d.col = c ∧ d.horizontal = false)

/-- The weight of the horizontal dominoes of `P` leaving column `c`. -/
def horizWeight (val : Nat → Nat → Int) (P : Finset Domino) (c : Nat) : Int :=
  weight val (P.filter fun d => d.col = c ∧ d.horizontal = true)

/-- The same domino after reversing the order of the `n` rows. -/
def flipDomino (n : Nat) (d : Domino) : Domino :=
  if d.horizontal then ⟨n - 1 - d.row, d.col, true⟩ else ⟨n - 2 - d.row, d.col, false⟩

/-! ## States of the column sweep -/

/-- The DP table of `main` after the first `k` iterations of its column loop
(main.cpp 146-177), started from the all-zero table of line 142. -/
def sweepTable (board : List (List Int)) (numRows numColumns : Nat)
    (horizontalBlockSum : List (List Int)) (k : Nat) : List (List Int) :=
  (List.range k).foldl
    (sweepStep board numRows numColumns horizontalBlockSum
      (generateMatchingVerticalMasks numRows) (generateMatchingHorizontalMasks numRows))
    (List.replicate (1 <<< numRows) (List.replicate numColumns (0 : Int)))

/-- All updates `dp[..][..] = max(..)` of the column sweep of `main`, in program order. -/
def sweepSteps (board : List (List Int)) (numRows numColumns : Nat)
    (horizontalBlockSum : List (List Int)) : List Step :=
  (List.range numColumns).flatMap fun col =>
    verticalSteps board numRows (generateMatchingVerticalMasks numRows) col ++
      (if col < numColumns - 1 then
        horizontalSteps numRows horizontalBlockSum (generateMatchingHorizontalMasks numRows) col
      else [])

/-- The DP table of `main` after the first `k` updates of the column sweep. -/
def tableAfter (board : List (List Int)) (numRows numColumns : Nat)
    (horizontalBlockSum : List (List Int)) (k : Nat) : List (List Int) :=
  relaxAll (List.replicate (1 <<< numRows) (List.replicate numColumns (0 : Int)))
    ((sweepSteps board numRows numColumns horizontalBlockSum).take k)

/-! ## The engine without the clamp -/

/-- The horizontal phase with the clamp removed: `addValue` is taken to be
`horizontalBlockSum[newMask][col]` unconditionally. -/
def horizontalPhaseNoClamp (numRows : Nat) (horizontalBlockSum : List (List Int))
    (matchingHorizontalMasks : List (List Nat)) (col : Nat) (dp : List (List Int)) :
    List (List Int) :=
  let totalMasks := 1 <<< numRows
  (List.range totalMasks).foldl (fun dp horizontalMask =>
    (matchingHorizontalMasks.getD horizontalMask []).foldl (fun dp newMask =>
      let addValue := get2 horizontalBlockSum newMask col
      set2 dp newMask (col + 1)
        (max (get2 dp newMask (col + 1)) (get2 dp horizontalMask col + addValue))) dp) dp

/-- One iteration of the column loop, with `horizontalPhaseNoClamp`. -/
def sweepStepNoClamp (board : List (List Int)) (numRows numColumns : Nat)
    (horizontalBlockSum : List (List Int))
    (matchingVerticalMasks matchingHorizontalMasks : List (List Nat))
    (dp : List (List Int)) (col : Nat) : List (List Int) :=
  let dp := verticalPhase board numRows matchingVerticalMasks col dp
  if col < numColumns - 1 then
    horizontalPhaseNoClamp numRows horizontalBlockSum matchingHorizontalMasks col dp
  else dp

/-- The engine `main` with the clamp of the horizontal gain removed. -/
def mainNoClamp (numColumns numRows : Nat) (board : List (List Int)) : Option Int :=
  let totalMasks := 1 <<< numRows
  match computeHorizontalBlockSum board numRows numColumns with
  | none => none
  | some horizontalBlockSum =>
    let matchingVerticalMasks := generateMatchingVerticalMasks numRows
    let matchingHorizontalMasks := generateMatchingHorizontalMasks numRows
    let dp := List.replicate totalMasks (List.replicate numColumns (0 : Int))
    let overallMax : Int := 0
    let dp := (List.range numColumns).foldl
      (sweepStepNoClamp board numRows numColumns horizontalBlockSum
        matchingVerticalMasks matchingHorizontalMasks) dp
    some ((List.range totalMasks).foldl (fun overallMax mask =>
      max overallMax (get2 dp mask (numColumns - 1))) overallMax)

/-- The updates of `horizontalPhaseNoClamp` for column `col`, in program order. -/
def horizontalStepsNoClamp (numRows : Nat) (horizontalBlockSum : List (List Int))
    (matchingHorizontalMasks : List (List Nat)) (col : Nat) : List Step :=
  (List.range (1 <<< numRows)).flatMap fun h =>
    (matchingHorizontalMasks.getD h []).map fun m =>
      ⟨m, col + 1, h, col, get2 horizontalBlockSum m col⟩

/-! ## The engine with the mapping bit = row -/

/-- The weight table built with the mapping bit = row: `computeHorizontalBlockSum` reading
`board[row][..]` instead of `board[numRows - row - 1][..]`. -/
def computeHorizontalBlockSumNatural (board : List (List Int)) (numRows numColumns : Nat) :
    Option (List (List Int)) :=
  let totalMasks := 1 <<< numRows
  if (numColumns : Int) - 1 < 0 then none
  else
    let horizontalBlockSum :=
      List.replicate totalMasks (List.replicate (numColumns - 1) (0 : Int))
    some <|
      (List.range (numColumns - 1)).foldl (fun hbs col =>
        (List.range numRows).foldl (fun hbs row =>
          let maskBit := 1 <<< row
          (List.range totalMasks).foldl (fun hbs mask =>
            if mask &&& maskBit ≠ 0 then
              set2 hbs mask col (get2 hbs mask col
                + (cell board row col + cell board row (col + 1)))
            else hbs) hbs) hbs) horizontalBlockSum

/-- The vertical sum with the mapping bit = row: reads `board[row][col]`. -/
def verticalBlockSumNatural (board : List (List Int)) (numRows col verticalMask : Nat) : Int :=
  (List.range numRows).foldl (fun s row =>
    if verticalMask &&& (1 <<< row) ≠ 0 then s + cell board row col
    else s) 0

/-- The vertical phase with `verticalBlockSumNatural`. -/
def verticalPhaseNatural (board : List (List Int)) (numRows : Nat)
    (matchingVerticalMasks : List (List Nat)) (col : Nat) (dp : List (List Int)) :
    List (List Int) :=
  let totalMasks := 1 <<< numRows
  (if col = 0 then (List.range totalMasks).take 1 else List.range totalMasks).foldl
    (fun dp horizontalMask =>
      (matchingVerticalMasks.getD horizontalMask []).foldl (fun dp verticalMask =>
        let combinedMask := horizontalMask ||| verticalMask
        set2 dp combinedMask col
          (max (get2 dp combinedMask col)
            (get2 dp horizontalMask col
              + verticalBlockSumNatural board numRows col verticalMask)))
        dp) dp

/-- One iteration of the column loop with the mapping bit = row. -/
def sweepStepNatural (board : List (List Int)) (numRows numColumns : Nat)
    (horizontalBlockSum : List (List Int))
    (matchingVerticalMasks matchingHorizontalMasks : List (List Nat))
    (dp : List (List Int)) (col : Nat) : List (List Int) :=
  let dp := verticalPhaseNatural board numRows matchingVerticalMasks col dp
  if col < numColumns - 1 then
    horizontalPhase numRows horizontalBlockSum matchingHorizontalMasks col dp
  else dp

/-- The engine that uses the mapping bit = row consistently. -/
def mainNatural (numColumns numRows : Nat) (board : List (List Int)) : Option Int :=
  let totalMasks := 1 <<< numRows
  match computeHorizontalBlockSumNatural board numRows numColumns with
  | none => none
  | some horizontalBlockSum =>
    let matchingVerticalMasks := generateMatchingVerticalMasks numRows
    let matchingHorizontalMasks := generateMatchingHorizontalMasks numRows
    let dp := List.replicate totalMasks (List.replicate numColumns (0 : Int))
    let overallMax : Int := 0
    let dp := (List.range numColumns).foldl
      (sweepStepNatural board numRows numColumns horizontalBlockSum
        matchingVerticalMasks matchingHorizontalMasks) dp
    some ((List.range totalMasks).foldl (fun overallMax mask =>
      max overallMax (get2 dp mask (numColumns - 1))) overallMax)

/-! ## The meaning of a table entry -/

/-- The DP table of `main` once the vertical phase of column `col` has finished. -/
def tableAfterVertical (board : List (List Int)) (numRows numColumns : Nat)
    (horizontalBlockSum : List (List Int)) (col : Nat) : List (List Int) :=
  verticalPhase board numRows (generateMatchingVerticalMasks numRows) col
    (sweepTable board numRows numColumns horizontalBlockSum col)

/-- All dominoes of `P` lie inside columns `0..col`. -/
def InColumns (P : Finset Domino) (col : Nat) : Prop :=
  ∀ d ∈ P, ∀ x ∈ d.cells, x.2 ≤ col

/-- The cell `(r, c)` is covered by a domino of `P`. -/
def CoveredCell (P : Finset Domino) (r c : Nat) : Prop :=
  ∃ d ∈ P, (r, c) ∈ d.cells

/-- The cells of column `col` covered by `P` are among the cells flagged in `mask`
(bit `b` stands for row `rows - 1 - b`). -/
def WithinColumn (rows : Nat) (P : Finset Domino) (mask col : Nat) : Prop :=
  ∀ r, r < rows → CoveredCell P r col → mask.testBit (rows - 1 - r) = true

/-- The cells of column `col` covered by `P` are exactly the cells flagged in `mask`
(bit `b` stands for row `rows - 1 - b`). -/
def ExactColumn (rows : Nat) (P : Finset Domino) (mask col : Nat) : Prop :=
  ∀ r, r < rows → (CoveredCell P r col ↔ mask.testBit (rows - 1 - r) = true)

/-! ## The engine with the machine widths of the code -/

/-- The value stored in a C++ `int` for the arithmetic result `x`: `x` modulo `2^32`, read as
a signed 32-bit value. -/
def wrap32 (x : Int) : Int :=
  (x + 2147483648) % 4294967296 - 2147483648

/-- The value stored in a C++ `long long` for the arithmetic result `x`: `x` modulo `2^64`,
read as a signed 64-bit value. -/
def wrap64 (x : Int) : Int :=
  (x + 9223372036854775808) % 18446744073709551616 - 9223372036854775808

/-- `computeHorizontalBlockSum` (main.cpp 58-77) with its `int` arithmetic: the sum
`board[..][col] + board[..][col + 1]` and the `+=` are both taken in 32 bits. -/
def computeHorizontalBlockSumW (board : List (List Int)) (numRows numColumns : Nat) :
    Option (List (List Int)) :=
  let totalMasks := 1 <<< numRows
  if (numColumns : Int) - 1 < 0 then none
  else
    let horizontalBlockSum :=
      List.replicate totalMasks (List.replicate (numColumns - 1) (0 : Int))
    some <|
      (List.range (numColumns - 1)).foldl (fun hbs col =>
        (List.range numRows).foldl (fun hbs row =>
          let maskBit := 1 <<< row
          (List.range totalMasks).foldl (fun hbs mask =>
            if mask &&& maskBit ≠ 0 then
              set2 hbs mask col (wrap32 (get2 hbs mask col
                + wrap32 (cell board (numRows - row - 1) col
                    + cell board (numRows - row - 1) (col + 1))))
            else hbs) hbs) hbs) horizontalBlockSum

/-- The local `int verticalBlockSum` of `main` (main.cpp 151-158) with 32-bit additions. -/
def verticalBlockSumW (board : List (List Int)) (numRows col verticalMask : Nat) : Int :=
  (List.range numRows).foldl (fun s row =>
    if verticalMask &&& (1 <<< row) ≠ 0 then wrap32 (s + cell board (numRows - row - 1) col)
    else s) 0

/-- The vertical phase (main.cpp 148-165) with the `long long` addition taken in 64 bits. -/
def verticalPhaseW (board : List (List Int)) (numRows : Nat)
    (matchingVerticalMasks : List (List Nat)) (col : Nat) (dp : List (List Int)) :
    List (List Int) :=
  let totalMasks := 1 <<< numRows
  (if col = 0 then (List.range totalMasks).take 1 else List.range totalMasks).foldl
    (fun dp horizontalMask =>
      (matchingVerticalMasks.getD horizontalMask []).foldl (fun dp verticalMask =>
        let combinedMask := horizontalMask ||| verticalMask
        set2 dp combinedMask col
          (max (get2 dp combinedMask col)
            (wrap64 (get2 dp horizontalMask col
              + verticalBlockSumW board numRows col verticalMask))))
        dp) dp

/-- The horizontal phase (main.cpp 168-175) with the `long long` addition taken in 64 bits. -/
def horizontalPhaseW (numRows : Nat) (horizontalBlockSum : List (List Int))
    (matchingHorizontalMasks : List (List Nat)) (col : Nat) (dp : List (List Int)) :
    List (List Int) :=
  let totalMasks := 1 <<< numRows
  (List.range totalMasks).foldl (fun dp horizontalMask =>
    (matchingHorizontalMasks.getD horizontalMask []).foldl (fun dp newMask =>
      let addValue := if get2 horizontalBlockSum newMask col ≥ 0
        then get2 horizontalBlockSum newMask col else 0
      set2 dp newMask (col + 1)
        (max (get2 dp newMask (col + 1))
          (wrap64 (get2 dp horizontalMask col + addValue)))) dp) dp

/-- One iteration of the column loop of `main` with the machine widths. -/
def sweepStepW (board : List (List Int)) (numRows numColumns : Nat)
    (horizontalBlockSum : List (List Int))
    (matchingVerticalMasks matchingHorizontalMasks : List (List Nat))
    (dp : List (List Int)) (col : Nat) : List (List Int) :=
  let dp := verticalPhaseW board numRows matchingVerticalMasks col dp
  if col < numColumns - 1 then
    horizontalPhaseW numRows horizontalBlockSum matchingHorizontalMasks col dp
  else dp

/-- The engine `main` with the machine widths of the code: `int` sums in 32 bits, the `dp`
accumulator and `overallMax` in 64 bits. -/
def mainW (numColumns numRows : Nat) (board : List (List Int)) : Option Int :=
  let totalMasks := 1 <<< numRows
  match computeHorizontalBlockSumW board numRows numColumns with
  | none => none
  | some horizontalBlockSum =>
    let matchingVerticalMasks := generateMatchingVerticalMasks numRows
    let matchingHorizontalMasks := generateMatchingHorizontalMasks numRows
    let dp := List.replicate totalMasks (List.replicate numColumns (0 : Int))
    let overallMax : Int := 0
    let dp := (List.range numColumns).foldl
      (sweepStepW board numRows numColumns horizontalBlockSum
        matchingVerticalMasks matchingHorizontalMasks) dp
    some ((List.range totalMasks).foldl (fun overallMax mask =>
      max overallMax (get2 dp mask (numColumns - 1))) overallMax)

/-! ## The engine with checked vector accesses -/

/-- The read `t[i][j]` with both indices checked: `none` when one of them is out of range. -/
def get2Checked (t : List (List Int)) (i j : Nat) : Option Int :=
  (t[i]?).bind fun r => r[j]?

/-- The write `t[i][j] = v` with both indices checked: `none` when one is out of range. -/
def set2Checked (t : List (List Int)) (i j : Nat) (v : Int) : Option (List (List Int)) :=
  (t[i]?).bind fun r => if j < r.length then some (t.set i (r.set j v)) else none

/-- `computeHorizontalBlockSum` (main.cpp 58-77) with every access to `board` and to
`horizontalBlockSum` checked. -/
def computeHorizontalBlockSumChecked (board : List (List Int)) (numRows numColumns : Nat) :
    Option (List (List Int)) :=
  let totalMasks := 1 <<< numRows
  if (numColumns : Int) - 1 < 0 then none
  else
    let horizontalBlockSum :=
      List.replicate totalMasks (List.replicate (numColumns - 1) (0 : Int))
    (List.range (numColumns - 1)).foldlM (fun hbs col =>
      (List.range numRows).foldlM (fun hbs row =>
        let maskBit := 1 <<< row
        (List.range totalMasks).foldlM (fun hbs mask =>
          if mask &&& maskBit ≠ 0 then
            (get2Checked board (numRows - row - 1) col).bind fun a =>
            (get2Checked board (numRows - row - 1) (col + 1)).bind fun b =>
            (get2Checked hbs mask col).bind fun old =>
            set2Checked hbs mask col (old + (a + b))
          else some hbs) hbs) hbs) horizontalBlockSum

/-- `generateMatchingHorizontalMasks` (main.cpp 81-106) with the access `positionsFree[bit]`
checked. -/
def generateMatchingHorizontalMasksChecked (numRows : Nat) : Option (List (List Nat)) :=
  let totalMasks := 1 <<< numRows
  (List.range totalMasks).foldlM (fun all baseMask =>
    let positionsFree := (List.range numRows).foldl (fun pf row =>
      if baseMask &&& (1 <<< row) = 0 then pf ++ [row] else pf) []
    let freeCount := positionsFree.length
    ((List.range (1 <<< freeCount)).foldlM (fun out assign =>
      ((List.range freeCount).foldlM (fun newMask bit =>
        if assign &&& (1 <<< bit) ≠ 0 then
          (positionsFree[bit]?).bind fun p => some (newMask ||| (1 <<< p))
        else some newMask) 0).bind fun newMask =>
      some (out ++ [newMask])) []).bind fun masks =>
    some (all ++ [masks])) []

/-- The local `verticalBlockSum` of `main` (main.cpp 151-158) with the access to `board`
checked. -/
def verticalBlockSumChecked (board : List (List Int)) (numRows col verticalMask : Nat) :
    Option Int :=
  (List.range numRows).foldlM (fun s row =>
    if verticalMask &&& (1 <<< row) ≠ 0 then
      (get2Checked board (numRows - row - 1) col).bind fun a => some (s + a)
    else some s) 0

/-- The vertical phase (main.cpp 148-165) with every vector access checked. -/
def verticalPhaseChecked (board : List (List Int)) (numRows : Nat)
    (matchingVerticalMasks : List (List Nat)) (col : Nat) (dp : List (List Int)) :
    Option (List (List Int)) :=
  let totalMasks := 1 <<< numRows
  (if col = 0 then (List.range totalMasks).take 1 else List.range totalMasks).foldlM
    (fun dp horizontalMask =>
      (matchingVerticalMasks[horizontalMask]?).bind fun masks =>
      masks.foldlM (fun dp verticalMask =>
        (verticalBlockSumChecked board numRows col verticalMask).bind fun verticalBlockSum =>
        let combinedMask := horizontalMask ||| verticalMask
        (get2Checked dp combinedMask col).bind fun a =>
        (get2Checked dp horizontalMask col).bind fun b =>
        set2Checked dp combinedMask col (max a (b + verticalBlockSum))) dp) dp

/-- The horizontal phase (main.cpp 168-175) with every vector access checked. -/
def horizontalPhaseChecked (numRows : Nat) (horizontalBlockSum : List (List Int))
    (matchingHorizontalMasks : List (List Nat)) (col : Nat) (dp : List (List Int)) :
    Option (List (List Int)) :=
  let totalMasks := 1 <<< numRows
  (List.range totalMasks).foldlM (fun dp horizontalMask =>
    (matchingHorizontalMasks[horizontalMask]?).bind fun masks =>
    masks.foldlM (fun dp newMask =>
      (get2Checked horizontalBlockSum newMask col).bind fun gain =>
      let addValue := if gain ≥ 0 then gain else 0
      (get2Checked dp newMask (col + 1)).bind fun a =>
      (get2Checked dp horizontalMask col).bind fun b =>
      set2Checked dp newMask (col + 1) (max a (b + addValue))) dp) dp

/-- One iteration of the column loop of `main` with every vector access checked. -/
def sweepStepChecked (board : List (List Int)) (numRows numColumns : Nat)
    (horizontalBlockSum : List (List Int))
    (matchingVerticalMasks matchingHorizontalMasks : List (List Nat))
    (dp : List (List Int)) (col : Nat) : Option (List (List Int)) :=
  (verticalPhaseChecked board numRows matchingVerticalMasks col dp).bind fun dp =>
  if col < numColumns - 1 then
    horizontalPhaseChecked numRows horizontalBlockSum matchingHorizontalMasks col dp
  else some dp

/-- The engine `main` (main.cpp 119-186) with every vector access and every allocation size
checked: `none` as soon as an index is out of range or a size is negative. -/
def mainChecked (numColumns numRows : Nat) (board : List (List Int)) : Option Int :=
  let totalMasks := 1 <<< numRows
  (computeHorizontalBlockSumChecked board numRows numColumns).bind fun horizontalBlockSum =>
  let matchingVerticalMasks := generateMatchingVerticalMasks numRows
  (generateMatchingHorizontalMasksChecked numRows).bind fun matchingHorizontalMasks =>
  let dp := List.replicate totalMasks (List.replicate numColumns (0 : Int))
  let overallMax : Int := 0
  ((List.range numColumns).foldlM
    (sweepStepChecked board numRows numColumns horizontalBlockSum
      matchingVerticalMasks matchingHorizontalMasks) dp).bind fun dp =>
  (List.range totalMasks).foldlM (fun overallMax mask =>
    (get2Checked dp mask (numColumns - 1)).bind fun x => some (max overallMax x)) overallMax

/-! ## Updates and tables of the engine with the machine widths -/

/-- Perform one update `dp[tgt][ct] = max(dp[tgt][ct], dp[src][cs] + w)` with the `long long`
addition taken in 64 bits. -/
def relaxW (t : List (List Int)) (s : Step) : List (List Int) :=
  set2 t s.tgt s.ct (max (get2 t s.tgt s.ct) (wrap64 (get2 t s.src s.cs + s.w)))

/-- Perform a list of updates in order, each with the 64-bit addition. -/
def relaxAllW (t : List (List Int)) (steps : List Step) : List (List Int) :=
  steps.foldl relaxW t

/-- The updates of `verticalPhaseW` for column `col`, in program order: the weight of an
update is the 32-bit `verticalBlockSumW`. -/
def verticalStepsW (board : List (List Int)) (numRows : Nat)
    (matchingVerticalMasks : List (List Nat)) (col : Nat) : List Step :=
  (if col = 0 then (List.range (1 <<< numRows)).take 1
    else List.range (1 <<< numRows)).flatMap fun h =>
      (matchingVerticalMasks.getD h []).map fun v =>
        ⟨h ||| v, col, h, col, verticalBlockSumW board numRows col v⟩

/-- The updates of the inner loop of the vertical phase (main.cpp 150-162) for the source mask
`h`, in program order, with the weight `w v` for the vertical mask `v`. -/
def verticalStepsAt (w : Nat → Int) (matchingVerticalMasks : List (List Nat)) (col h : Nat) :
    List Step :=
  (matchingVerticalMasks.getD h []).map fun v => ⟨h ||| v, col, h, col, w v⟩

/-- The table after the vertical phase has processed the source masks `0 .. k - 1`. -/
def verticalUpTo (w : Nat → Int) (matchingVerticalMasks : List (List Nat)) (col : Nat)
    (t : List (List Int)) (k : Nat) : List (List Int) :=
  relaxAllW t ((List.range k).flatMap (verticalStepsAt w matchingVerticalMasks col))

/-- The DP table of `mainW` after the first `k` iterations of its column loop
(main.cpp 146-177), started from the all-zero table of line 142. -/
def sweepTableW (board : List (List Int)) (numRows numColumns : Nat)
    (horizontalBlockSum : List (List Int)) (k : Nat) : List (List Int) :=
  (List.range k).foldl
    (sweepStepW board numRows numColumns horizontalBlockSum
      (generateMatchingVerticalMasks numRows) (generateMatchingHorizontalMasks numRows))
    (List.replicate (1 <<< numRows) (List.replicate numColumns (0 : Int)))

/-- `computeHorizontalBlockSumW` reading `board[row][..]` instead of
`board[numRows - row - 1][..]`. -/
def computeHorizontalBlockSumNaturalW (board : List (List Int)) (numRows numColumns : Nat) :
    Option (List (List Int)) :=
  let totalMasks := 1 <<< numRows
  if (numColumns : Int) - 1 < 0 then none
  else
    let horizontalBlockSum :=
      List.replicate totalMasks (List.replicate (numColumns - 1) (0 : Int))
    some <|
      (List.range (numColumns - 1)).foldl (fun hbs col =>
        (List.range numRows).foldl (fun hbs row =>
          let maskBit := 1 <<< row
          (List.range totalMasks).foldl (fun hbs mask =>
            if mask &&& maskBit ≠ 0 then
              set2 hbs mask col (wrap32 (get2 hbs mask col
                + wrap32 (cell board row col + cell board row (col + 1))))
            else hbs) hbs) hbs) horizontalBlockSum

/-- `verticalBlockSumW` reading `board[row][col]` instead of `board[numRows - row - 1][col]`. -/
def verticalBlockSumNaturalW (board : List (List Int)) (numRows col verticalMask : Nat) : Int :=
  (List.range numRows).foldl (fun s row =>
    if verticalMask &&& (1 <<< row) ≠ 0 then wrap32 (s + cell board row col)
    else s) 0

/-- The vertical phase of `mainW` with `verticalBlockSumNaturalW`. -/
def verticalPhaseNaturalW (board : List (List Int)) (numRows : Nat)
    (matchingVerticalMasks : List (List Nat)) (col : Nat) (dp : List (List Int)) :
    List (List Int) :=
  let totalMasks := 1 <<< numRows
  (if col = 0 then (List.range totalMasks).take 1 else List.range totalMasks).foldl
    (fun dp horizontalMask =>
      (matchingVerticalMasks.getD horizontalMask []).foldl (fun dp verticalMask =>
        let combinedMask := horizontalMask ||| verticalMask
        set2 dp combinedMask col
          (max (get2 dp combinedMask col)
            (wrap64 (get2 dp horizontalMask col
              + verticalBlockSumNaturalW board numRows col verticalMask))))
        dp) dp

/-- One iteration of the column loop of `mainW` with the mapping bit = row. -/
def sweepStepNaturalW (board : List (List Int)) (numRows numColumns : Nat)
    (horizontalBlockSum : List (List Int))
    (matchingVerticalMasks matchingHorizontalMasks : List (List Nat))
    (dp : List (List Int)) (col : Nat) : List (List Int) :=
  let dp := verticalPhaseNaturalW board numRows matchingVerticalMasks col dp
  if col < numColumns - 1 then
    horizontalPhaseW numRows horizontalBlockSum matchingHorizontalMasks col dp
  else dp

/-- The engine with the machine widths that uses the mapping bit = row consistently. -/
def mainNaturalW (numColumns numRows : Nat) (board : List (List Int)) : Option Int :=
  let totalMasks := 1 <<< numRows
  match computeHorizontalBlockSumNaturalW board numRows numColumns with
  | none => none
  | some horizontalBlockSum =>
    let matchingVerticalMasks := generateMatchingVerticalMasks numRows
    let matchingHorizontalMasks := generateMatchingHorizontalMasks numRows
    let dp := List.replicate totalMasks (List.replicate numColumns (0 : Int))
    let overallMax : Int := 0
    let dp := (List.range numColumns).foldl
      (sweepStepNaturalW board numRows numColumns horizontalBlockSum
        matchingVerticalMasks matchingHorizontalMasks) dp
    some ((List.range totalMasks).foldl (fun overallMax mask =>
      max overallMax (get2 dp mask (numColumns - 1))) overallMax)

/-- The mask below `2 ^ n` whose bit `i` is bit `n - 1 - i` of `m`: the same set of rows
after reversing the order of the `n` rows. -/
def revMask (n m : Nat) : Nat :=
  maskOf (fun i => m.testBit (n - 1 - i)) n

/-- The sum of the absolute values of all cells of the grid. -/
def absTotal (board : List (List Int)) (rows cols : Nat) : Int :=
  ∑ r in Finset.range rows, ∑ c in Finset.range cols, |cell board r c|

/-! ## Bit-level facts -/


theorem and_one_shiftLeft_eq_zero (m k : Nat) :
    m &&& (1 <<< k) = 0 ↔ m.testBit k = false := by
  rw [Nat.one_shiftLeft]
  constructor
  · intro h
    have h1 : (m &&& 2 ^ k).testBit k = false := by rw [h]; simp
    simpa [Nat.testBit_two_pow_self] using h1
  · intro h
    apply Nat.eq_of_testBit_eq
    intro i
    by_cases hik : k = i
    · subst hik; simp [h]
    · simp [Nat.testBit_two_pow, hik]

theorem testBit_or_one_shiftLeft (m k i : Nat) :
    (m ||| (1 <<< k)).testBit i = (m.testBit i || decide (k = i)) := by
  rw [Nat.one_shiftLeft, Nat.testBit_or, Nat.testBit_two_pow]

theorem and_eq_zero_iff_testBit (m b : Nat) :
    m &&& b = 0 ↔ ∀ i, ¬ (m.testBit i = true ∧ b.testBit i = true) := by
  constructor
  · intro h i hi
    have : (m &&& b).testBit i = true := by simp [hi.1, hi.2]
    rw [h] at this; simp at this
  · intro h
    apply Nat.eq_of_testBit_eq
    intro i
    have := h i
    simp only [Nat.testBit_and, Nat.zero_testBit]
    cases h1 : m.testBit i <;> cases h2 : b.testBit i <;> simp_all

theorem lt_two_pow_iff_testBit (m n : Nat) :
    m < 2 ^ n ↔ ∀ i, n ≤ i → m.testBit i = false := by
  constructor
  · intro h i hi
    apply Nat.testBit_lt_two_pow
    exact lt_of_lt_of_le h (Nat.pow_le_pow_right (by decide) hi)
  · intro h
    exact Nat.lt_pow_two_of_testBit m h


theorem one_shiftLeft_eq (n : Nat) : 1 <<< n = 2 ^ n := Nat.one_shiftLeft n

theorem and_one_shiftLeft_ne_zero (m k : Nat) :
    m &&& (1 <<< k) ≠ 0 ↔ m.testBit k = true := by
  rw [Ne, and_one_shiftLeft_eq_zero]
  cases m.testBit k <;> simp

theorem testBit_maskOf (p : Nat → Bool) (k i : Nat) :
    (maskOf p k).testBit i = (decide (i < k) && p i) := by
  induction k with
  | zero => simp [maskOf]
  | succ k ih =>
    have hbit : (if p k then 1 <<< k else 0).testBit i = (decide (k = i) && p k) := by
      by_cases hp : p k
      · simp [hp, one_shiftLeft_eq, Nat.testBit_two_pow]
      · simp [hp]
    rw [maskOf, Nat.testBit_or, ih, hbit]
    rcases Nat.lt_trichotomy i k with h | h | h
    · have h1 : i < k + 1 := by omega
      have h2 : ¬ k = i := by omega
      simp [h, h1, h2]
    · subst h
      simp
    · have h1 : ¬ i < k + 1 := by omega
      have h2 : ¬ k = i := by omega
      have h3 : ¬ i < k := by omega
      simp [h1, h2, h3]

theorem maskOf_lt (p : Nat → Bool) (k : Nat) : maskOf p k < 2 ^ k := by
  apply Nat.lt_pow_two_of_testBit
  intro i hi
  rw [testBit_maskOf]
  have : ¬ i < k := by omega
  simp [this]

/-! ## The vertical enumerator -/

theorem generateVerticalBlocks_append (base n : Nat) :
    ∀ (k cur : Nat) (res : List Nat) (idx : Nat), n - idx ≤ k →
      generateVerticalBlocks base cur res idx n
        = res ++ generateVerticalBlocks base cur [] idx n := by
  intro k
  induction k with
  | zero =>
    intro cur res idx hk
    rw [generateVerticalBlocks, generateVerticalBlocks.eq_1 base cur []]
    have h : (idx : Int) ≥ (n : Int) - 1 := by omega
    simp [h]
  | succ k ih =>
    intro cur res idx hk
    rw [generateVerticalBlocks, generateVerticalBlocks.eq_1 base cur []]
    by_cases h : (idx : Int) ≥ (n : Int) - 1
    · simp [h]
    · simp only [h, if_false]
      split
      · rw [ih _ _ (idx + 2) (by omega), ih cur res (idx + 1) (by omega),
          ih _ (generateVerticalBlocks base cur [] (idx + 1) n) (idx + 2) (by omega)]
        simp
      · rw [ih cur res (idx + 1) (by omega)]

theorem pairSet_mono {n base idx : Nat} {S : Finset Nat}
    (h : PairSet n base (idx + 1) S) : PairSet n base idx S :=
  ⟨fun b hb => ⟨by have := (h.1 b hb).1; omega, (h.1 b hb).2⟩, h.2⟩

theorem pairSet_skip {n base idx : Nat} {S : Finset Nat}
    (h : PairSet n base idx S) (h0 : n - idx - 2 ∉ S) : PairSet n base (idx + 1) S := by
  refine ⟨fun b hb => ⟨?_, (h.1 b hb).2⟩, h.2⟩
  have h1 := (h.1 b hb).1
  have h2 : b ≠ n - idx - 2 := fun e => h0 (e ▸ hb)
  omega

theorem pairSet_insert {n base idx : Nat} {S : Finset Nat} (hidx : idx + 2 ≤ n)
    (h : PairSet n base (idx + 2) S) (f0 : base.testBit (n - idx - 2) = false)
    (f1 : base.testBit (n - idx - 1) = false) :
    PairSet n base idx (insert (n - idx - 2) S) := by
  constructor
  · intro b hb
    rcases Finset.mem_insert.1 hb with rfl | hb
    · refine ⟨by omega, f0, ?_⟩
      have : n - idx - 2 + 1 = n - idx - 1 := by omega
      rw [this]; exact f1
    · exact ⟨by have := (h.1 b hb).1; omega, (h.1 b hb).2⟩
  · intro b hb hb1
    rcases Finset.mem_insert.1 hb with rfl | hb
    · rcases Finset.mem_insert.1 hb1 with e | hb1
      · omega
      · have := (h.1 _ hb1).1; omega
    · rcases Finset.mem_insert.1 hb1 with e | hb1
      · have := (h.1 _ hb).1; omega
      · exact h.2 b hb hb1

theorem pairSet_erase {n base idx : Nat} {S : Finset Nat}
    (h : PairSet n base idx S) (h0 : n - idx - 2 ∈ S) :
    PairSet n base (idx + 2) (S.erase (n - idx - 2)) := by
  constructor
  · intro b hb
    have hbS := Finset.mem_of_mem_erase hb
    have hne := Finset.ne_of_mem_erase hb
    refine ⟨?_, (h.1 b hbS).2⟩
    have h1 := (h.1 b hbS).1
    have h2 : b + 1 ≠ n - idx - 2 := fun e => h.2 b hbS (e ▸ h0)
    omega
  · intro b hb hb1
    exact h.2 b (Finset.mem_of_mem_erase hb) (Finset.mem_of_mem_erase hb1)

theorem covers_insert (S : Finset Nat) (b0 i : Nat) :
    Covers (insert b0 S) i ↔ (i = b0 ∨ i = b0 + 1) ∨ Covers S i := by
  simp only [Covers, Finset.mem_insert]
  constructor
  · rintro ⟨b, rfl | hb, h⟩
    · exact Or.inl h
    · exact Or.inr ⟨b, hb, h⟩
  · rintro (h | ⟨b, hb, h⟩)
    · exact ⟨b0, Or.inl rfl, h⟩
    · exact ⟨b, Or.inr hb, h⟩

theorem covers_erase (S : Finset Nat) (b0 i : Nat) (h0 : b0 ∈ S) :
    Covers S i ↔ (i = b0 ∨ i = b0 + 1) ∨ Covers (S.erase b0) i := by
  conv_lhs => rw [← Finset.insert_erase h0]
  exact covers_insert _ _ _

theorem generateVerticalBlocks_mem_last (base n cur idx m : Nat)
    (h : (idx : Int) ≥ (n : Int) - 1) :
    m ∈ generateVerticalBlocks base cur [] idx n ↔
      ∃ S, PairSet n base idx S ∧
        ∀ i, m.testBit i = true ↔ (cur.testBit i = true ∨ Covers S i) := by
  rw [generateVerticalBlocks]
  simp only [h, if_true, List.nil_append, List.mem_singleton]
  constructor
  · rintro rfl
    refine ⟨∅, ⟨by simp, by simp⟩, fun i => by simp [Covers]⟩
  · rintro ⟨S, hS, hbits⟩
    have hS0 : S = ∅ := by
      apply Finset.eq_empty_of_forall_not_mem
      intro b hb
      have := (hS.1 b hb).1
      omega
    subst hS0
    apply Nat.eq_of_testBit_eq
    intro i
    have := hbits i
    simp only [Covers, Finset.not_mem_empty, false_and, exists_false, or_false] at this
    cases h1 : m.testBit i <;> cases h2 : cur.testBit i <;> simp_all

theorem generateVerticalBlocks_mem (base n : Nat) :
    ∀ (k cur idx m : Nat), n - idx ≤ k →
      (m ∈ generateVerticalBlocks base cur [] idx n ↔
        ∃ S, PairSet n base idx S ∧
          ∀ i, m.testBit i = true ↔ (cur.testBit i = true ∨ Covers S i)) := by
  intro k
  induction k with
  | zero =>
    intro cur idx m hk
    exact generateVerticalBlocks_mem_last base n cur idx m (by omega)
  | succ k ih =>
    intro cur idx m hk
    by_cases h : (idx : Int) ≥ (n : Int) - 1
    · exact generateVerticalBlocks_mem_last base n cur idx m h
    · have hidx : idx + 2 ≤ n := by omega
      have e1 : n - idx - 2 + 1 = n - idx - 1 := by omega
      rw [generateVerticalBlocks]
      simp only [h, if_false]
      by_cases hfree : base &&& 1 <<< (n - idx - 1) = 0 ∧ base &&& 1 <<< (n - idx - 2) = 0
      · simp only [hfree, and_self, if_true]
        rw [generateVerticalBlocks_append base n (n - (idx + 2)) _ _ _ (le_refl _),
          List.mem_append, ih cur (idx + 1) m (by omega), ih _ (idx + 2) m (by omega)]
        have f1 := (and_one_shiftLeft_eq_zero _ _).1 hfree.1
        have f0 := (and_one_shiftLeft_eq_zero _ _).1 hfree.2
        constructor
        · rintro (⟨S, hS, hbits⟩ | ⟨S, hS, hbits⟩)
          · exact ⟨S, pairSet_mono hS, hbits⟩
          · refine ⟨insert (n - idx - 2) S, pairSet_insert hidx hS f0 f1, fun i => ?_⟩
            rw [hbits i, covers_insert, testBit_or_one_shiftLeft, testBit_or_one_shiftLeft]
            simp only [Bool.or_eq_true, decide_eq_true_eq]
            constructor
            · rintro (((h1 | h1) | h1) | h1)
              · exact Or.inl h1
              · exact Or.inr (Or.inl (Or.inr (by omega)))
              · exact Or.inr (Or.inl (Or.inl h1.symm))
              · exact Or.inr (Or.inr h1)
            · rintro (h1 | (h1 | h1) | h1)
              · exact Or.inl (Or.inl (Or.inl h1))
              · exact Or.inl (Or.inr h1.symm)
              · exact Or.inl (Or.inl (Or.inr (by omega)))
              · exact Or.inr h1
        · rintro ⟨S, hS, hbits⟩
          by_cases h0 : n - idx - 2 ∈ S
          · refine Or.inr ⟨S.erase (n - idx - 2), pairSet_erase hS h0, fun i => ?_⟩
            rw [hbits i, covers_erase S _ i h0, testBit_or_one_shiftLeft,
              testBit_or_one_shiftLeft]
            simp only [Bool.or_eq_true, decide_eq_true_eq]
            constructor
            · rintro (h1 | (h1 | h1) | h1)
              · exact Or.inl (Or.inl (Or.inl h1))
              · exact Or.inl (Or.inr h1.symm)
              · exact Or.inl (Or.inl (Or.inr (by omega)))
              · exact Or.inr h1
            · rintro (((h1 | h1) | h1) | h1)
              · exact Or.inl h1
              · exact Or.inr (Or.inl (Or.inr (by omega)))
              · exact Or.inr (Or.inl (Or.inl h1.symm))
              · exact Or.inr (Or.inr h1)
          · exact Or.inl ⟨S, pairSet_skip hS h0, hbits⟩
      · simp only [hfree, if_false]
        rw [ih cur (idx + 1) m (by omega)]
        constructor
        · rintro ⟨S, hS, hbits⟩
          exact ⟨S, pairSet_mono hS, hbits⟩
        · rintro ⟨S, hS, hbits⟩
          have h0 : n - idx - 2 ∉ S := by
            intro h0
            apply hfree
            have := (hS.1 _ h0).2
            rw [e1] at this
            exact ⟨(and_one_shiftLeft_eq_zero _ _).2 this.2,
              (and_one_shiftLeft_eq_zero _ _).2 this.1⟩
          exact ⟨S, pairSet_skip hS h0, hbits⟩

theorem getD_map_range {α : Type} (f : Nat → α) (n i : Nat) (d : α) (h : i < n) :
    ((List.range n).map f).getD i d = f i := by
  simp [List.getD_eq_getElem?_getD, List.getElem?_map, List.getElem?_range, h]

theorem matchingVerticalMasks_getD (rows baseMask : Nat) (hb : baseMask < 2 ^ rows) :
    (generateMatchingVerticalMasks rows).getD baseMask []
      = generateVerticalBlocks baseMask 0 [] 0 rows := by
  unfold generateMatchingVerticalMasks
  simp only [one_shiftLeft_eq]
  exact getD_map_range _ _ _ _ hb

/-- Membership in the vertical list of `baseMask`, through `PairSet`. -/
theorem mem_verticalBlocks_iff (rows baseMask m : Nat) :
    m ∈ generateVerticalBlocks baseMask 0 [] 0 rows ↔
      ∃ S, PairSet rows baseMask 0 S ∧ ∀ i, m.testBit i = true ↔ Covers S i := by
  rw [generateVerticalBlocks_mem baseMask rows (rows - 0) 0 0 m (le_refl _)]
  simp

theorem pairSet_zero_iff (rows baseMask : Nat) (S : Finset Nat) :
    PairSet rows baseMask 0 S ↔
      (∀ b ∈ S, b + 1 < rows ∧ baseMask.testBit b = false ∧ baseMask.testBit (b + 1) = false) ∧
      (∀ b ∈ S, ∀ c ∈ S, b ≠ c → Disjoint ({b, b + 1} : Finset Nat) {c, c + 1}) := by
  unfold PairSet
  constructor
  · rintro ⟨h1, h2⟩
    refine ⟨fun b hb => ⟨by have := (h1 b hb).1; omega, (h1 b hb).2⟩, ?_⟩
    intro b hb c hc hbc
    rw [Finset.disjoint_left]
    intro x hx hx2
    simp only [Finset.mem_insert, Finset.mem_singleton] at hx hx2
    have e1 : b + 1 ≠ c := fun e => h2 b hb (e ▸ hc)
    have e2 : c + 1 ≠ b := fun e => h2 c hc (e ▸ hb)
    omega
  · rintro ⟨h1, h2⟩
    refine ⟨fun b hb => ⟨by have := (h1 b hb).1; omega, (h1 b hb).2⟩, ?_⟩
    intro b hb hb1
    have := h2 b hb (b + 1) hb1 (by omega)
    rw [Finset.disjoint_left] at this
    exact this (a := b + 1) (by simp) (by simp)

/-- C2: for `baseMask < 2^rows`, the list `generateMatchingVerticalMasks(rows)[baseMask]` is the
result of `generateVerticalBlocks(baseMask, 0, results, 0, rows)`; a mask occurs in it exactly
when it is the union of pairwise disjoint adjacent bit pairs `{b, b+1}`, `b + 1 < rows`, both
bits clear in `baseMask`; `0` is always listed, every listed mask is disjoint from `baseMask`,
and for `rows = 0` and `rows = 1` the list is `[0]`. -/
theorem generateVerticalBlocks_spec (rows baseMask : Nat) (hb : baseMask < 2 ^ rows) :
    (generateMatchingVerticalMasks rows).getD baseMask []
        = generateVerticalBlocks baseMask 0 [] 0 rows ∧
    (∀ m, m ∈ generateVerticalBlocks baseMask 0 [] 0 rows ↔
      ∃ S : Finset Nat,
        (∀ b ∈ S, b + 1 < rows ∧ baseMask.testBit b = false
          ∧ baseMask.testBit (b + 1) = false) ∧
        (∀ b ∈ S, ∀ c ∈ S, b ≠ c → Disjoint ({b, b + 1} : Finset Nat) {c, c + 1}) ∧
        (∀ i, m.testBit i = true ↔ ∃ b ∈ S, i = b ∨ i = b + 1)) ∧
    0 ∈ generateVerticalBlocks baseMask 0 [] 0 rows ∧
    (∀ m ∈ generateVerticalBlocks baseMask 0 [] 0 rows, m &&& baseMask = 0) ∧
    (rows ≤ 1 → generateVerticalBlocks baseMask 0 [] 0 rows = [0]) := by
  refine ⟨matchingVerticalMasks_getD rows baseMask hb, fun m => ?_, ?_, ?_, ?_⟩
  · rw [mem_verticalBlocks_iff]
    constructor
    · rintro ⟨S, hS, hbits⟩
      exact ⟨S, ((pairSet_zero_iff _ _ _).1 hS).1, ((pairSet_zero_iff _ _ _).1 hS).2, hbits⟩
    · rintro ⟨S, h1, h2, hbits⟩
      exact ⟨S, (pairSet_zero_iff _ _ _).2 ⟨h1, h2⟩, hbits⟩
  · rw [mem_verticalBlocks_iff]
    exact ⟨∅, ⟨by simp, by simp⟩, fun i => by simp [Covers]⟩
  · intro m hm
    rw [mem_verticalBlocks_iff] at hm
    obtain ⟨S, hS, hbits⟩ := hm
    rw [and_eq_zero_iff_testBit]
    rintro i ⟨hi1, hi2⟩
    obtain ⟨b, hbS, rfl | rfl⟩ := (hbits i).1 hi1
    · rw [(hS.1 _ hbS).2.1] at hi2; exact Bool.false_ne_true hi2
    · rw [(hS.1 _ hbS).2.2] at hi2; exact Bool.false_ne_true hi2
  · intro hrows
    rw [generateVerticalBlocks]
    have h : (0 : Int) ≥ (rows : Int) - 1 := by omega
    simp [h]

/-- A witness for `generateVerticalBlocks_spec` with three rows and base mask `4`. -/
theorem generateVerticalBlocks_spec_witness :
    (generateMatchingVerticalMasks 3).getD 4 [] = generateVerticalBlocks 4 0 [] 0 3 ∧
    (∀ m, m ∈ generateVerticalBlocks 4 0 [] 0 3 ↔
      ∃ S : Finset Nat,
        (∀ b ∈ S, b + 1 < 3 ∧ Nat.testBit 4 b = false ∧ Nat.testBit 4 (b + 1) = false) ∧
        (∀ b ∈ S, ∀ c ∈ S, b ≠ c → Disjoint ({b, b + 1} : Finset Nat) {c, c + 1}) ∧
        (∀ i, m.testBit i = true ↔ ∃ b ∈ S, i = b ∨ i = b + 1)) ∧
    0 ∈ generateVerticalBlocks 4 0 [] 0 3 ∧
    (∀ m ∈ generateVerticalBlocks 4 0 [] 0 3, m &&& 4 = 0) ∧
    (3 ≤ 1 → generateVerticalBlocks 4 0 [] 0 3 = [0]) :=
  generateVerticalBlocks_spec 3 4 (by decide)

/-! ## The horizontal enumerator -/

theorem foldl_push_filter {α : Type} (p : α → Prop) [DecidablePred p] (l : List α) :
    ∀ acc : List α,
      l.foldl (fun pf x => if p x then pf ++ [x] else pf) acc = acc ++ l.filter p := by
  induction l with
  | nil => intro acc; simp
  | cons x l ih =>
    intro acc
    rw [List.foldl_cons, ih]
    by_cases hx : p x
    · simp [hx, List.filter_cons]
    · simp [hx, List.filter_cons]

theorem foldl_push_map {α β : Type} (f : α → β) (l : List α) :
    ∀ acc : List β, l.foldl (fun out a => out ++ [f a]) acc = acc ++ l.map f := by
  induction l with
  | nil => intro acc; simp
  | cons x l ih =>
    intro acc
    rw [List.foldl_cons, ih]
    simp

theorem matchingHorizontalMasks_getD (rows baseMask : Nat) (hb : baseMask < 2 ^ rows) :
    (generateMatchingHorizontalMasks rows).getD baseMask []
      = (List.range (2 ^ (freePositions rows baseMask).length)).map
          (assignMask (freePositions rows baseMask)) := by
  unfold generateMatchingHorizontalMasks
  have hb1 : baseMask < 1 <<< rows := by rw [one_shiftLeft_eq]; exact hb
  rw [getD_map_range _ _ _ _ hb1, ← one_shiftLeft_eq (freePositions rows baseMask).length]
  simp only [foldl_push_filter, List.nil_append]
  exact (foldl_push_map (assignMask (freePositions rows baseMask)) _ []).trans
    (List.nil_append _)

theorem mem_freePositions (rows baseMask i : Nat) :
    i ∈ freePositions rows baseMask ↔ i < rows ∧ baseMask.testBit i = false := by
  simp [freePositions, and_one_shiftLeft_eq_zero]

theorem freePositions_nodup (rows baseMask : Nat) : (freePositions rows baseMask).Nodup :=
  (List.nodup_range rows).filter _

theorem foldl_range_succ {α : Type} (f : α → Nat → α) (a : α) (k : Nat) :
    (List.range (k + 1)).foldl f a = f ((List.range k).foldl f a) k := by
  rw [List.range_succ, List.foldl_append]
  rfl

theorem testBit_assignMask_aux (pf : List Nat) (a i : Nat) :
    ∀ k, ((List.range k).foldl (fun newMask bit =>
        if a &&& (1 <<< bit) ≠ 0 then newMask ||| (1 <<< pf.getD bit 0) else newMask) 0).testBit i
        = true ↔ ∃ j, j < k ∧ a.testBit j = true ∧ pf.getD j 0 = i := by
  intro k
  induction k with
  | zero => simp
  | succ k ih =>
    rw [foldl_range_succ]
    by_cases hk : a &&& (1 <<< k) ≠ 0
    · rw [if_pos hk]
      simp only [testBit_or_one_shiftLeft, Bool.or_eq_true, decide_eq_true_eq, ih]
      have hk1 := (and_one_shiftLeft_ne_zero _ _).1 hk
      constructor
      · rintro (⟨j, hj, h1, h2⟩ | h)
        · exact ⟨j, by omega, h1, h2⟩
        · exact ⟨k, by omega, hk1, h⟩
      · rintro ⟨j, hj, h1, h2⟩
        by_cases hjk : j = k
        · subst hjk; exact Or.inr h2
        · exact Or.inl ⟨j, by omega, h1, h2⟩
    · rw [if_neg hk, ih]
      have hk1 : a.testBit k = false := by
        rw [← and_one_shiftLeft_eq_zero]
        exact not_not.1 hk
      constructor
      · rintro ⟨j, hj, h1, h2⟩
        exact ⟨j, by omega, h1, h2⟩
      · rintro ⟨j, hj, h1, h2⟩
        by_cases hjk : j = k
        · subst hjk; rw [hk1] at h1; exact absurd h1 Bool.false_ne_true
        · exact ⟨j, by omega, h1, h2⟩

theorem testBit_assignMask (pf : List Nat) (a i : Nat) :
    (assignMask pf a).testBit i = true ↔
      ∃ j, j < pf.length ∧ a.testBit j = true ∧ pf.getD j 0 = i :=
  testBit_assignMask_aux pf a i pf.length

theorem mem_iff_getD (pf : List Nat) (i : Nat) :
    i ∈ pf ↔ ∃ j, j < pf.length ∧ pf.getD j 0 = i := by
  rw [List.mem_iff_getElem]
  constructor
  · rintro ⟨j, hj, h⟩
    exact ⟨j, hj, by simp [List.getD_eq_getElem?_getD, List.getElem?_eq_getElem hj, h]⟩
  · rintro ⟨j, hj, h⟩
    refine ⟨j, hj, ?_⟩
    simpa [List.getD_eq_getElem?_getD, List.getElem?_eq_getElem hj] using h

theorem getD_inj_of_nodup (pf : List Nat) (hnd : pf.Nodup) (j k : Nat)
    (hj : j < pf.length) (hk : k < pf.length) (h : pf.getD j 0 = pf.getD k 0) : j = k := by
  simp only [List.getD_eq_getElem?_getD, List.getElem?_eq_getElem hj,
    List.getElem?_eq_getElem hk, Option.getD_some] at h
  exact (List.Nodup.getElem_inj_iff hnd).1 h

/-- Membership in the horizontal list of `baseMask`. -/
theorem mem_matchingHorizontalMasks_iff (rows baseMask m : Nat) (hb : baseMask < 2 ^ rows) :
    m ∈ (generateMatchingHorizontalMasks rows).getD baseMask [] ↔
      m < 2 ^ rows ∧ m &&& baseMask = 0 := by
  rw [matchingHorizontalMasks_getD rows baseMask hb, List.mem_map]
  constructor
  · rintro ⟨a, _, rfl⟩
    have hbits : ∀ i, (assignMask (freePositions rows baseMask) a).testBit i = true →
        i < rows ∧ baseMask.testBit i = false := by
      intro i hi
      obtain ⟨j, hj, _, h2⟩ := (testBit_assignMask _ _ _).1 hi
      exact (mem_freePositions rows baseMask i).1 ((mem_iff_getD _ _).2 ⟨j, hj, h2⟩)
    constructor
    · rw [lt_two_pow_iff_testBit]
      intro i hi
      by_contra hne
      have := (hbits i (by simpa using hne)).1
      omega
    · rw [and_eq_zero_iff_testBit]
      rintro i ⟨h1, h2⟩
      rw [(hbits i h1).2] at h2
      exact Bool.false_ne_true h2
  · rintro ⟨hm, hdisj⟩
    refine ⟨maskOf (fun j => m.testBit ((freePositions rows baseMask).getD j 0))
      (freePositions rows baseMask).length, ?_, ?_⟩
    · rw [List.mem_range]
      exact maskOf_lt _ _
    · apply Nat.eq_of_testBit_eq
      intro i
      rw [Bool.eq_iff_iff, testBit_assignMask]
      constructor
      · rintro ⟨j, hj, h1, h2⟩
        rw [testBit_maskOf] at h1
        simp only [Bool.and_eq_true, decide_eq_true_eq] at h1
        rw [← h2]; exact h1.2
      · intro hi
        have hfree : i ∈ freePositions rows baseMask := by
          rw [mem_freePositions]
          constructor
          · by_contra hge
            have := (lt_two_pow_iff_testBit m rows).1 hm i (by omega)
            rw [this] at hi; exact Bool.false_ne_true hi
          · by_contra hne
            exact (and_eq_zero_iff_testBit m baseMask).1 hdisj i ⟨hi, by simpa using hne⟩
        obtain ⟨j, hj, h2⟩ := (mem_iff_getD _ _).1 hfree
        refine ⟨j, hj, ?_, h2⟩
        rw [testBit_maskOf, h2, hi]
        simp [hj]

/-- C3: for `baseMask < 2^rows`, a mask occurs in `generateMatchingHorizontalMasks(rows)[baseMask]`
exactly when it is below `2^rows` and disjoint from `baseMask` (the list is the powerset of
the free rows). -/
theorem generateMatchingHorizontalMasks_mem (rows baseMask : Nat) (hb : baseMask < 2 ^ rows)
    (m : Nat) :
    m ∈ (generateMatchingHorizontalMasks rows).getD baseMask [] ↔
      m < 2 ^ rows ∧ m &&& baseMask = 0 :=
  mem_matchingHorizontalMasks_iff rows baseMask m hb

/-- A witness for `generateMatchingHorizontalMasks_mem`: three rows, base mask `5`, mask `2`. -/
theorem generateMatchingHorizontalMasks_mem_witness :
    5 < 2 ^ 3 ∧ (2 ∈ (generateMatchingHorizontalMasks 3).getD 5 [] ↔ 2 < 2 ^ 3 ∧ 2 &&& 5 = 0) :=
  ⟨by decide, generateMatchingHorizontalMasks_mem 3 5 (by decide) 2⟩

theorem assignMask_injOn (pf : List Nat) (hnd : pf.Nodup) (a b : Nat)
    (ha : a < 2 ^ pf.length) (hb : b < 2 ^ pf.length)
    (h : assignMask pf a = assignMask pf b) : a = b := by
  apply Nat.eq_of_testBit_eq
  intro j
  by_cases hj : j < pf.length
  · have key : ∀ c, (assignMask pf c).testBit (pf.getD j 0) = true ↔ c.testBit j = true := by
      intro c
      rw [testBit_assignMask]
      constructor
      · rintro ⟨k, hk, h1, h2⟩
        have := getD_inj_of_nodup pf hnd k j hk hj h2
        subst this; exact h1
      · intro hc
        exact ⟨j, hj, hc, rfl⟩
    rw [Bool.eq_iff_iff, ← key a, ← key b, h]
  · rw [(lt_two_pow_iff_testBit a _).1 ha j (by omega),
      (lt_two_pow_iff_testBit b _).1 hb j (by omega)]

theorem popcount_zero : popcount 0 = 0 := by
  simp [popcount]

theorem popcount_eq (m : Nat) : popcount m = m % 2 + popcount (m / 2) := by
  rcases Nat.even_or_odd' m with ⟨k, rfl | rfl⟩
  · by_cases hk : k = 0
    · subst hk; simp [popcount_zero]
    · unfold popcount
      rw [Nat.bit0_bits k hk]
      simp
  · unfold popcount
    rw [Nat.bit1_bits k]
    have h1 : (2 * k + 1) % 2 = 1 := by omega
    have h2 : (2 * k + 1) / 2 = k := by omega
    rw [h1, h2]
    simp [Nat.add_comm]

theorem countP_testBit_eq_popcount :
    ∀ (n m : Nat), m < 2 ^ n → (List.range n).countP (fun r => m.testBit r) = popcount m := by
  intro n
  induction n with
  | zero =>
    intro m hm
    have : m = 0 := by simpa using hm
    subst this; simp [popcount_zero]
  | succ n ih =>
    intro m hm
    have hm2 : m / 2 < 2 ^ n := by
      rw [Nat.div_lt_iff_lt_mul (by decide)]
      rw [pow_succ] at hm; exact hm
    rw [List.range_succ_eq_map, List.countP_cons, List.countP_map, popcount_eq m, ← ih _ hm2]
    have e : ((fun r => m.testBit r) ∘ Nat.succ) = fun r => (m / 2).testBit r := by
      funext r
      simp [Nat.testBit_succ]
    rw [e, Nat.add_comm]
    congr 1
    rcases Nat.mod_two_eq_zero_or_one m with h | h <;> simp [h]

theorem length_freePositions (rows baseMask : Nat) (hb : baseMask < 2 ^ rows) :
    (freePositions rows baseMask).length = rows - popcount baseMask := by
  have h1 := List.length_eq_countP_add_countP (fun r => baseMask.testBit r) (List.range rows)
  rw [countP_testBit_eq_popcount rows baseMask hb, List.length_range] at h1
  have h2 : (freePositions rows baseMask).length
      = List.countP (fun a => decide ¬ baseMask.testBit a = true) (List.range rows) := by
    rw [freePositions, List.countP_eq_length_filter]
    congr 1
    apply List.filter_congr
    intro x _
    simp [and_one_shiftLeft_eq_zero]
  rw [h2]
  omega

/-- C4: for `baseMask < 2^rows`, the list `generateMatchingHorizontalMasks(rows)[baseMask]` has
length `2^(rows - popcount(baseMask))`, which is 2 to the number of zero bits of `baseMask`
among the low `rows` bits, and contains no mask twice. -/
theorem generateMatchingHorizontalMasks_length (rows baseMask : Nat)
    (hb : baseMask < 2 ^ rows) :
    ((generateMatchingHorizontalMasks rows).getD baseMask []).length
        = 2 ^ (rows - popcount baseMask) ∧
    rows - popcount baseMask
        = ((Finset.range rows).filter fun b => baseMask.testBit b = false).card ∧
    ((generateMatchingHorizontalMasks rows).getD baseMask []).Nodup := by
  refine ⟨?_, ?_, ?_⟩
  · rw [matchingHorizontalMasks_getD rows baseMask hb, List.length_map, List.length_range,
      length_freePositions rows baseMask hb]
  · rw [← length_freePositions rows baseMask hb]
    have : (freePositions rows baseMask).toFinset
        = (Finset.range rows).filter fun b => baseMask.testBit b = false := by
      ext i
      simp [mem_freePositions]
    rw [← this, List.toFinset_card_of_nodup (freePositions_nodup rows baseMask)]
  · rw [matchingHorizontalMasks_getD rows baseMask hb]
    apply List.Nodup.map_on _ (List.nodup_range _)
    intro a ha b hb2 hab
    exact assignMask_injOn _ (freePositions_nodup rows baseMask) a b
      (List.mem_range.1 ha) (List.mem_range.1 hb2) hab

/-- A witness for `generateMatchingHorizontalMasks_length`: three rows, base mask `5`. -/
theorem generateMatchingHorizontalMasks_length_witness :
    5 < 2 ^ 3 ∧
    (((generateMatchingHorizontalMasks 3).getD 5 []).length = 2 ^ (3 - popcount 5) ∧
      3 - popcount 5 = ((Finset.range 3).filter fun b => Nat.testBit 5 b = false).card ∧
      ((generateMatchingHorizontalMasks 3).getD 5 []).Nodup) :=
  ⟨by decide, generateMatchingHorizontalMasks_length 3 5 (by decide)⟩

/-! ## Reading and writing table entries -/

theorem dims_replicate (m n : Nat) : Dims (List.replicate m (List.replicate n (0 : Int))) m n := by
  refine ⟨List.length_replicate _ _, fun r hr => ?_⟩
  rw [List.eq_of_mem_replicate hr, List.length_replicate]

theorem get2_replicate (m n i j : Nat) :
    get2 (List.replicate m (List.replicate n (0 : Int))) i j = 0 := by
  unfold get2
  rw [List.getD_eq_getElem?_getD, List.getD_eq_getElem?_getD, List.getElem?_replicate]
  by_cases hi : i < m
  · simp only [hi, if_true, Option.getD_some, List.getElem?_replicate]
    by_cases hj : j < n <;> simp [hj]
  · simp [hi]

theorem dims_set2 {t : List (List Int)} {m n : Nat} (h : Dims t m n) (i j : Nat) (v : Int) :
    Dims (set2 t i j v) m n := by
  unfold set2
  refine ⟨by rw [List.length_set]; exact h.1, fun r hr => ?_⟩
  by_cases hi : i < t.length
  · rcases List.mem_or_eq_of_mem_set hr with hr | rfl
    · exact h.2 r hr
    · rw [List.length_set]
      apply h.2
      rw [List.getD_eq_getElem?_getD, List.getElem?_eq_getElem hi]
      exact List.getElem_mem hi
  · rw [List.set_eq_of_length_le (not_lt.1 hi)] at hr
    exact h.2 r hr

theorem get2_set2 {t : List (List Int)} {m n : Nat} (h : Dims t m n) {i j : Nat}
    (hi : i < m) (hj : j < n) (v : Int) (a b : Nat) :
    get2 (set2 t i j v) a b = if a = i ∧ b = j then v else get2 t a b := by
  have hi2 : i < t.length := by rw [h.1]; exact hi
  have hrow : (t.getD i []).length = n := by
    apply h.2
    rw [List.getD_eq_getElem?_getD, List.getElem?_eq_getElem hi2]
    exact List.getElem_mem hi2
  unfold get2 set2
  simp only [List.getD_eq_getElem?_getD, List.getElem?_set]
  by_cases hai : i = a
  · subst hai
    simp only [true_and, hi2, if_true, Option.getD_some, List.getElem?_set]
    by_cases hbj : j = b
    · subst hbj
      have : j < (t[i]?.getD []).length := by
        rw [← List.getD_eq_getElem?_getD, hrow]; exact hj
      simp [this]
    · have : ¬ b = j := fun e => hbj e.symm
      simp [hbj, this]
  · have : ¬ a = i := fun e => hai e.symm
    simp [hai, this]

theorem foldl_range_induction {α : Type} (f : α → Nat → α) (a : α) (n : Nat)
    (Inv : Nat → α → Prop) (h0 : Inv 0 a)
    (hs : ∀ k s, k < n → Inv k s → Inv (k + 1) (f s k)) :
    Inv n ((List.range n).foldl f a) := by
  have key : ∀ k, k ≤ n → Inv k ((List.range k).foldl f a) := by
    intro k
    induction k with
    | zero => intro _; simpa using h0
    | succ k ih =>
      intro hk
      rw [foldl_range_succ]
      exact hs k _ (by omega) (ih (by omega))
  exact key n (le_refl n)

/-! ## The column-pair weight table -/

/-- The value the weight table accumulates for bit `b` at column `col`. -/
theorem hbs_inner (T : Nat) (maskBit_row col : Nat) (w : Int) (t : List (List Int)) (n : Nat)
    (ht : Dims t T n) (hcol : col < n) :
    Dims ((List.range T).foldl (fun hbs mask =>
        if mask &&& (1 <<< maskBit_row) ≠ 0 then set2 hbs mask col (get2 hbs mask col + w)
        else hbs) t) T n ∧
    ∀ a b, get2 ((List.range T).foldl (fun hbs mask =>
        if mask &&& (1 <<< maskBit_row) ≠ 0 then set2 hbs mask col (get2 hbs mask col + w)
        else hbs) t) a b
      = get2 t a b + if b = col ∧ a < T ∧ a.testBit maskBit_row = true then w else 0 := by
  apply foldl_range_induction _ t T (fun k s => Dims s T n ∧ ∀ a b, get2 s a b
      = get2 t a b + if b = col ∧ a < k ∧ a.testBit maskBit_row = true then w else 0)
  · exact ⟨ht, fun a b => by simp⟩
  · rintro k s hk ⟨hd, hv⟩
    by_cases hbit : k &&& (1 <<< maskBit_row) ≠ 0
    · rw [if_pos hbit]
      have hbit1 := (and_one_shiftLeft_ne_zero _ _).1 hbit
      refine ⟨dims_set2 hd _ _ _, fun a b => ?_⟩
      rw [get2_set2 hd hk hcol, hv k col, hv a b]
      by_cases hak : a = k
      · subst hak
        by_cases hbc : b = col
        · subst hbc; simp [hbit1]
        · have : ¬ (a = a ∧ b = col) := fun e => hbc e.2
          simp [hbc]
      · have h1 : ¬ (a = k ∧ b = col) := fun e => hak e.1
        rw [if_neg h1]
        congr 1
        have : (a < k + 1) ↔ a < k := by omega
        simp only [this]
    · rw [if_neg hbit]
      have hbit1 : k.testBit maskBit_row = false := by
        rw [← and_one_shiftLeft_eq_zero]; exact not_not.1 hbit
      refine ⟨hd, fun a b => ?_⟩
      rw [hv a b]
      congr 1
      by_cases hak : a = k
      · subst hak; simp [hbit1]
      · have : (a < k + 1) ↔ a < k := by omega
        simp only [this]

theorem bitSum_succ (k mask : Nat) (f : Nat → Int) :
    bitSum (k + 1) mask f = bitSum k mask f + if mask.testBit k = true then f k else 0 := by
  unfold bitSum
  rw [Finset.range_succ, Finset.filter_insert]
  by_cases h : mask.testBit k = true
  · rw [if_pos h, if_pos h, Finset.sum_insert (by simp), add_comm]
  · rw [if_neg h, if_neg h, add_zero]

theorem bitSum_zero (mask : Nat) (f : Nat → Int) : bitSum 0 mask f = 0 := by
  simp [bitSum]

theorem hbs_rows (board : List (List Int)) (numRows T col : Nat) (t : List (List Int))
    (n : Nat) (ht : Dims t T n) (hcol : col < n) :
    Dims ((List.range numRows).foldl (fun hbs row =>
        (List.range T).foldl (fun hbs mask =>
          if mask &&& (1 <<< row) ≠ 0 then
            set2 hbs mask col (get2 hbs mask col
              + (cell board (numRows - row - 1) col + cell board (numRows - row - 1) (col + 1)))
          else hbs) hbs) t) T n ∧
    ∀ a b, get2 ((List.range numRows).foldl (fun hbs row =>
        (List.range T).foldl (fun hbs mask =>
          if mask &&& (1 <<< row) ≠ 0 then
            set2 hbs mask col (get2 hbs mask col
              + (cell board (numRows - row - 1) col + cell board (numRows - row - 1) (col + 1)))
          else hbs) hbs) t) a b
      = get2 t a b + if b = col ∧ a < T then
          bitSum numRows a (fun r => bitValue board numRows r col
            + bitValue board numRows r (col + 1)) else 0 := by
  apply foldl_range_induction _ t numRows (fun k s => Dims s T n ∧ ∀ a b, get2 s a b
      = get2 t a b + if b = col ∧ a < T then
          bitSum k a (fun r => bitValue board numRows r col
            + bitValue board numRows r (col + 1)) else 0)
  · exact ⟨ht, fun a b => by simp [bitSum_zero]⟩
  · rintro k s _ ⟨hd, hv⟩
    obtain ⟨hd2, hv2⟩ := hbs_inner T k col
      (cell board (numRows - k - 1) col + cell board (numRows - k - 1) (col + 1)) s n hd hcol
    refine ⟨hd2, fun a b => ?_⟩
    rw [hv2 a b, hv a b, bitSum_succ]
    by_cases h1 : b = col ∧ a < T
    · by_cases h2 : a.testBit k = true
      · have h3 : b = col ∧ a < T ∧ a.testBit k = true := ⟨h1.1, h1.2, h2⟩
        simp only [if_pos h1, if_pos h2, if_pos h3, bitValue]
        ring
      · have h3 : ¬ (b = col ∧ a < T ∧ a.testBit k = true) := fun e => h2 e.2.2
        simp only [if_pos h1, if_neg h2, if_neg h3]
        ring
    · have h3 : ¬ (b = col ∧ a < T ∧ a.testBit k = true) := fun e => h1 ⟨e.1, e.2.1⟩
      simp only [if_neg h1, if_neg h3]
      ring

/-- The weight table: it is allocated exactly when `numColumns ≥ 1`, and then every entry is
the sum of the pair values of the bits of its mask. -/
theorem computeHorizontalBlockSum_eq (board : List (List Int)) (numRows numColumns : Nat)
    (hc : 1 ≤ numColumns) :
    ∃ t, computeHorizontalBlockSum board numRows numColumns = some t ∧
      Dims t (2 ^ numRows) (numColumns - 1) ∧
      ∀ a b, get2 t a b = if b < numColumns - 1 ∧ a < 2 ^ numRows then
        bitSum numRows a (fun r => bitValue board numRows r b
          + bitValue board numRows r (b + 1)) else 0 := by
  unfold computeHorizontalBlockSum
  have h : ¬ ((numColumns : Int) - 1 < 0) := by omega
  simp only [h, if_false]
  refine ⟨_, rfl, ?_⟩
  rw [one_shiftLeft_eq]
  apply foldl_range_induction _ _ (numColumns - 1)
    (fun k s => Dims s (2 ^ numRows) (numColumns - 1) ∧
      ∀ a b, get2 s a b = if b < k ∧ a < 2 ^ numRows then
        bitSum numRows a (fun r => bitValue board numRows r b
          + bitValue board numRows r (b + 1)) else 0)
  · exact ⟨dims_replicate _ _, fun a b => by simp [get2_replicate]⟩
  · rintro k s hk ⟨hd, hv⟩
    obtain ⟨hd2, hv2⟩ := hbs_rows board numRows (2 ^ numRows) k s _ hd hk
    refine ⟨hd2, fun a b => ?_⟩
    rw [hv2 a b, hv a b]
    by_cases hbk : b = k
    · subst hbk
      have h1 : ¬ (b < b ∧ a < 2 ^ numRows) := fun e => absurd e.1 (lt_irrefl _)
      rw [if_neg h1, zero_add]
      by_cases ha : a < 2 ^ numRows
      · rw [if_pos ⟨rfl, ha⟩, if_pos ⟨by omega, ha⟩]
      · rw [if_neg (fun e => ha e.2), if_neg (fun e => ha e.2)]
    · have h1 : ¬ (b = k ∧ a < 2 ^ numRows) := fun e => hbk e.1
      rw [if_neg h1, add_zero]
      have : b < k + 1 ↔ b < k := by omega
      simp only [this]

theorem bitSum_two_pow (n b : Nat) (hb : b < n) (f : Nat → Int) :
    bitSum n (2 ^ b) f = f b := by
  unfold bitSum
  have : (Finset.range n).filter (fun i => (2 ^ b).testBit i = true) = {b} := by
    ext i
    simp only [Finset.mem_filter, Finset.mem_range, Nat.testBit_two_pow, decide_eq_true_eq,
      Finset.mem_singleton]
    constructor
    · rintro ⟨_, h⟩; exact h.symm
    · rintro rfl; exact ⟨hb, rfl⟩
  rw [this, Finset.sum_singleton]

theorem bitSum_zero_mask (n : Nat) (f : Nat → Int) : bitSum n 0 f = 0 := by
  simp [bitSum]

theorem bitSum_congr (n mask : Nat) (f g : Nat → Int) (h : ∀ b, b < n → f b = g b) :
    bitSum n mask f = bitSum n mask g := by
  unfold bitSum
  apply Finset.sum_congr rfl
  intro b hb
  exact h b (Finset.mem_range.1 (Finset.mem_filter.1 hb).1)

/-- With exact integers: for a grid with `rows ≥ 1` and `cols ≥ 1`, `computeHorizontalBlockSum`
returns a table
with `2^rows` rows of length `cols - 1`; its entry `[mask][col]` is the sum over the bits `b`
of `mask` of `board[rows-1-b][col] + board[rows-1-b][col+1]`, which is also the sum of the
single-bit entries `[1 << b][col]`, and the entries of mask `0` are `0`. -/
theorem computeHorizontalBlockSum_spec (board : List (List Int)) (rows cols : Nat)
    (_hr : 1 ≤ rows) (hc : 1 ≤ cols) (_hg : IsGrid board rows cols) :
    ∃ t, computeHorizontalBlockSum board rows cols = some t ∧
      t.length = 2 ^ rows ∧ (∀ r ∈ t, r.length = cols - 1) ∧
      (∀ mask col, mask < 2 ^ rows → col < cols - 1 →
        get2 t mask col = ∑ b in (Finset.range rows).filter (fun b => mask.testBit b = true),
          (cell board (rows - 1 - b) col + cell board (rows - 1 - b) (col + 1))) ∧
      (∀ mask col, mask < 2 ^ rows → col < cols - 1 →
        get2 t mask col = ∑ b in (Finset.range rows).filter (fun b => mask.testBit b = true),
          get2 t (1 <<< b) col) ∧
      (∀ col, col < cols - 1 → get2 t 0 col = 0) := by
  obtain ⟨t, ht, hd, hv⟩ := computeHorizontalBlockSum_eq board rows cols hc
  refine ⟨t, ht, hd.1, hd.2, ?_, ?_, ?_⟩
  · intro mask col hm hcol
    rw [hv mask col, if_pos ⟨hcol, hm⟩]
    unfold bitSum bitValue
    apply Finset.sum_congr rfl
    intro b _
    rw [Nat.sub_right_comm]
  · intro mask col hm hcol
    rw [hv mask col, if_pos ⟨hcol, hm⟩]
    unfold bitSum
    apply Finset.sum_congr rfl
    intro b hb
    have hb1 : b < rows := Finset.mem_range.1 (Finset.mem_filter.1 hb).1
    have hb2 : 2 ^ b < 2 ^ rows := Nat.pow_lt_pow_right (by decide) hb1
    rw [one_shiftLeft_eq, hv (2 ^ b) col, if_pos ⟨hcol, hb2⟩, bitSum_two_pow rows b hb1]
  · intro col hcol
    rw [hv 0 col, bitSum_zero_mask]
    simp

/-- A witness for `computeHorizontalBlockSum_spec` on the 2x2 board `[[1,2],[3,4]]`. -/
theorem computeHorizontalBlockSum_spec_witness :
    (1 ≤ 2 ∧ IsGrid [[1, 2], [3, 4]] 2 2) ∧
    ∃ t, computeHorizontalBlockSum [[1, 2], [3, 4]] 2 2 = some t ∧
      t.length = 2 ^ 2 ∧ (∀ r ∈ t, r.length = 2 - 1) ∧
      (∀ mask col, mask < 2 ^ 2 → col < 2 - 1 →
        get2 t mask col = ∑ b in (Finset.range 2).filter (fun b => mask.testBit b = true),
          (cell [[1, 2], [3, 4]] (2 - 1 - b) col + cell [[1, 2], [3, 4]] (2 - 1 - b) (col + 1))) ∧
      (∀ mask col, mask < 2 ^ 2 → col < 2 - 1 →
        get2 t mask col = ∑ b in (Finset.range 2).filter (fun b => mask.testBit b = true),
          get2 t (1 <<< b) col) ∧
      (∀ col, col < 2 - 1 → get2 t 0 col = 0) :=
  ⟨⟨by decide, by simp [IsGrid]⟩,
    computeHorizontalBlockSum_spec [[1, 2], [3, 4]] 2 2 (by decide) (by decide)
      (by simp [IsGrid])⟩

/-! ## Sequences of DP updates -/

theorem dims_relax {t : List (List Int)} {m n : Nat} (h : Dims t m n) (s : Step) :
    Dims (relax t s) m n :=
  dims_set2 h _ _ _

theorem get2_relax {t : List (List Int)} {m n : Nat} (h : Dims t m n) (s : Step)
    (hi : s.tgt < m) (hj : s.ct < n) (a b : Nat) :
    get2 (relax t s) a b = if a = s.tgt ∧ b = s.ct then
      max (get2 t s.tgt s.ct) (get2 t s.src s.cs + s.w) else get2 t a b :=
  get2_set2 h hi hj _ a b

theorem relaxAll_nil (t : List (List Int)) : relaxAll t [] = t := rfl

theorem relaxAll_cons (t : List (List Int)) (s : Step) (l : List Step) :
    relaxAll t (s :: l) = relaxAll (relax t s) l := rfl

theorem relaxAll_append (t : List (List Int)) (l1 l2 : List Step) :
    relaxAll t (l1 ++ l2) = relaxAll (relaxAll t l1) l2 := by
  unfold relaxAll
  rw [List.foldl_append]

theorem dims_relaxAll {m n : Nat} (steps : List Step) :
    ∀ t : List (List Int), Dims t m n → Dims (relaxAll t steps) m n := by
  induction steps with
  | nil => intro t h; exact h
  | cons s l ih => intro t h; exact ih _ (dims_relax h s)

theorem relax_mono {t : List (List Int)} {m n : Nat} (h : Dims t m n) (s : Step)
    (hi : s.tgt < m) (hj : s.ct < n) (a b : Nat) : get2 t a b ≤ get2 (relax t s) a b := by
  rw [get2_relax h s hi hj]
  by_cases hab : a = s.tgt ∧ b = s.ct
  · rw [if_pos hab, hab.1, hab.2]; exact le_max_left _ _
  · rw [if_neg hab]

theorem relaxAll_mono {m n : Nat} (steps : List Step) :
    ∀ t : List (List Int), Dims t m n → (∀ s ∈ steps, s.tgt < m ∧ s.ct < n) →
      ∀ a b, get2 t a b ≤ get2 (relaxAll t steps) a b := by
  induction steps with
  | nil => intro t _ _ a b; exact le_refl _
  | cons s l ih =>
    intro t h hr a b
    have hs := hr s (List.mem_cons_self _ _)
    exact le_trans (relax_mono h s hs.1 hs.2 a b)
      (ih _ (dims_relax h s) (fun x hx => hr x (List.mem_cons_of_mem _ hx)) a b)

theorem relaxAll_lower {m n : Nat} (steps : List Step) :
    ∀ t : List (List Int), Dims t m n → (∀ s ∈ steps, s.tgt < m ∧ s.ct < n) →
      ∀ s ∈ steps, get2 t s.src s.cs + s.w ≤ get2 (relaxAll t steps) s.tgt s.ct := by
  induction steps with
  | nil => intro t _ _ s hs; exact absurd hs (List.not_mem_nil _)
  | cons x l ih =>
    intro t h hr s hs
    have hx := hr x (List.mem_cons_self _ _)
    have hl : ∀ y ∈ l, y.tgt < m ∧ y.ct < n := fun y hy => hr y (List.mem_cons_of_mem _ hy)
    rcases List.mem_cons.1 hs with rfl | hs
    · refine le_trans ?_ (relaxAll_mono l _ (dims_relax h s) hl _ _)
      rw [get2_relax h s hx.1 hx.2, if_pos ⟨rfl, rfl⟩]
      exact le_max_right _ _
    · refine le_trans ?_ (ih _ (dims_relax h x) hl s hs)
      exact add_le_add_right (relax_mono h x hx.1 hx.2 _ _) _

theorem relaxAll_inv {m n : Nat} (Φ : Nat → Nat → Int → Prop) (steps : List Step) :
    ∀ t : List (List Int), Dims t m n → (∀ s ∈ steps, s.tgt < m ∧ s.ct < n) →
      (∀ s ∈ steps, ∀ v, Φ s.src s.cs v → Φ s.tgt s.ct (v + s.w)) →
      (∀ a b, Φ a b (get2 t a b)) → ∀ a b, Φ a b (get2 (relaxAll t steps) a b) := by
  induction steps with
  | nil => intro t _ _ _ h0; exact h0
  | cons x l ih =>
    intro t h hr hΦ h0
    have hx := hr x (List.mem_cons_self _ _)
    apply ih _ (dims_relax h x) (fun y hy => hr y (List.mem_cons_of_mem _ hy))
      (fun y hy => hΦ y (List.mem_cons_of_mem _ hy))
    intro a b
    rw [get2_relax h x hx.1 hx.2]
    by_cases hab : a = x.tgt ∧ b = x.ct
    · rw [if_pos hab, hab.1, hab.2]
      rcases max_cases (get2 t x.tgt x.ct) (get2 t x.src x.cs + x.w) with ⟨e, _⟩ | ⟨e, _⟩
      · rw [e]; exact h0 _ _
      · rw [e]; exact hΦ x (List.mem_cons_self _ _) _ (h0 _ _)
    · rw [if_neg hab]; exact h0 a b

theorem relaxAll_frame {m n : Nat} (steps : List Step) (a b : Nat) :
    ∀ t : List (List Int), Dims t m n → (∀ s ∈ steps, s.tgt < m ∧ s.ct < n) →
      (∀ s ∈ steps, ¬ (a = s.tgt ∧ b = s.ct)) →
      get2 (relaxAll t steps) a b = get2 t a b := by
  induction steps with
  | nil => intro t _ _ _; rfl
  | cons x l ih =>
    intro t h hr hne
    have hx := hr x (List.mem_cons_self _ _)
    rw [relaxAll_cons, ih _ (dims_relax h x) (fun y hy => hr y (List.mem_cons_of_mem _ hy))
      (fun y hy => hne y (List.mem_cons_of_mem _ hy)), get2_relax h x hx.1 hx.2,
      if_neg (hne x (List.mem_cons_self _ _))]

theorem foldl_flatMap_eq {α β γ : Type} (f : γ → β → γ) (g : α → List β) (l : List α) :
    ∀ c : γ, (l.flatMap g).foldl f c = l.foldl (fun c x => (g x).foldl f c) c := by
  induction l with
  | nil => intro c; rfl
  | cons x l ih =>
    intro c
    rw [List.flatMap_cons, List.foldl_append, ih]
    rfl

theorem verticalPhase_eq (board : List (List Int)) (numRows : Nat) (VM : List (List Nat))
    (col : Nat) (dp : List (List Int)) :
    verticalPhase board numRows VM col dp
      = relaxAll dp (verticalSteps board numRows VM col) := by
  unfold verticalPhase verticalSteps relaxAll
  rw [foldl_flatMap_eq]
  simp only [List.foldl_map]
  rfl

theorem horizontalPhase_eq (numRows : Nat) (hbs : List (List Int)) (HM : List (List Nat))
    (col : Nat) (dp : List (List Int)) :
    horizontalPhase numRows hbs HM col dp
      = relaxAll dp (horizontalSteps numRows hbs HM col) := by
  unfold horizontalPhase horizontalSteps relaxAll
  rw [foldl_flatMap_eq]
  simp only [List.foldl_map]
  rfl

/-! ## The updates of the two phases -/

theorem verticalBlockSum_eq (board : List (List Int)) (numRows col v : Nat) :
    verticalBlockSum board numRows col v
      = bitSum numRows v (fun b => bitValue board numRows b col) := by
  unfold verticalBlockSum
  apply foldl_range_induction _ (0 : Int) numRows
    (fun k s => s = bitSum k v (fun b => bitValue board numRows b col))
  · rw [bitSum_zero]
  · intro k s _ hs
    rw [bitSum_succ, hs]
    by_cases hbit : v &&& (1 <<< k) ≠ 0
    · rw [if_pos hbit, if_pos ((and_one_shiftLeft_ne_zero _ _).1 hbit)]
      rfl
    · rw [if_neg hbit]
      have : ¬ v.testBit k = true := fun e => hbit ((and_one_shiftLeft_ne_zero _ _).2 e)
      rw [if_neg this, add_zero]

theorem two_pow_pos_nat (n : Nat) : 0 < 2 ^ n := Nat.two_pow_pos n

theorem take_one_range (T : Nat) (hT : 0 < T) : (List.range T).take 1 = [0] := by
  obtain ⟨k, rfl⟩ : ∃ k, T = k + 1 := ⟨T - 1, by omega⟩
  rw [List.range_succ_eq_map]
  rfl

theorem mem_verticalSteps (board : List (List Int)) (n col : Nat) (s : Step) :
    s ∈ verticalSteps board n (generateMatchingVerticalMasks n) col ↔
      ∃ h v, h < 2 ^ n ∧ (col = 0 → h = 0) ∧ v ∈ generateVerticalBlocks h 0 [] 0 n ∧
        s = ⟨h ||| v, col, h, col, bitSum n v (fun b => bitValue board n b col)⟩ := by
  unfold verticalSteps
  rw [one_shiftLeft_eq, List.mem_flatMap]
  constructor
  · rintro ⟨h, hh, hs⟩
    have hlt : h < 2 ^ n := by
      by_cases hc : col = 0
      · rw [if_pos hc, take_one_range _ (two_pow_pos_nat n)] at hh
        rw [List.mem_singleton.1 hh]; exact two_pow_pos_nat n
      · rw [if_neg hc] at hh; exact List.mem_range.1 hh
    rw [matchingVerticalMasks_getD n h hlt, List.mem_map] at hs
    obtain ⟨v, hv, rfl⟩ := hs
    refine ⟨h, v, hlt, ?_, hv, by rw [verticalBlockSum_eq]⟩
    intro hc
    rw [if_pos hc, take_one_range _ (two_pow_pos_nat n)] at hh
    exact List.mem_singleton.1 hh
  · rintro ⟨h, v, hlt, hc0, hv, rfl⟩
    refine ⟨h, ?_, ?_⟩
    · by_cases hc : col = 0
      · rw [if_pos hc, take_one_range _ (two_pow_pos_nat n), hc0 hc]
        exact List.mem_singleton.2 rfl
      · rw [if_neg hc]; exact List.mem_range.2 hlt
    · rw [matchingVerticalMasks_getD n h hlt, List.mem_map]
      exact ⟨v, hv, by rw [verticalBlockSum_eq]⟩

theorem mem_horizontalSteps (n : Nat) (hbs : List (List Int)) (col : Nat) (s : Step) :
    s ∈ horizontalSteps n hbs (generateMatchingHorizontalMasks n) col ↔
      ∃ h m, h < 2 ^ n ∧ m < 2 ^ n ∧ m &&& h = 0 ∧
        s = ⟨m, col + 1, h, col, if get2 hbs m col ≥ 0 then get2 hbs m col else 0⟩ := by
  unfold horizontalSteps
  rw [one_shiftLeft_eq, List.mem_flatMap]
  constructor
  · rintro ⟨h, hh, hs⟩
    have hlt : h < 2 ^ n := List.mem_range.1 hh
    rw [List.mem_map] at hs
    obtain ⟨m, hm, rfl⟩ := hs
    rw [mem_matchingHorizontalMasks_iff n h m hlt] at hm
    exact ⟨h, m, hlt, hm.1, hm.2, rfl⟩
  · rintro ⟨h, m, hlt, hm, hd, rfl⟩
    refine ⟨h, List.mem_range.2 hlt, ?_⟩
    rw [List.mem_map]
    exact ⟨m, (mem_matchingHorizontalMasks_iff n h m hlt).2 ⟨hm, hd⟩, rfl⟩

theorem verticalSteps_range (board : List (List Int)) (n C col : Nat) (hcol : col < C) :
    ∀ s ∈ verticalSteps board n (generateMatchingVerticalMasks n) col,
      s.tgt < 2 ^ n ∧ s.ct < C := by
  intro s hs
  obtain ⟨h, v, hlt, _, hv, rfl⟩ := (mem_verticalSteps board n col s).1 hs
  refine ⟨Nat.or_lt_two_pow hlt ?_, hcol⟩
  obtain ⟨S, hS, hbits⟩ := (mem_verticalBlocks_iff n h v).1 hv
  rw [lt_two_pow_iff_testBit]
  intro i hi
  by_contra hne
  obtain ⟨b, hb, hib⟩ := (hbits i).1 (by simpa using hne)
  have := (hS.1 b hb).1
  omega

theorem horizontalSteps_range (n : Nat) (hbs : List (List Int)) (C col : Nat)
    (hcol : col + 1 < C) :
    ∀ s ∈ horizontalSteps n hbs (generateMatchingHorizontalMasks n) col,
      s.tgt < 2 ^ n ∧ s.ct < C := by
  intro s hs
  obtain ⟨h, m, _, hm, _, rfl⟩ := (mem_horizontalSteps n hbs col s).1 hs
  exact ⟨hm, hcol⟩

/-! ## Placements -/

theorem mem_cells (d : Domino) (x : Nat × Nat) :
    x ∈ d.cells ↔ x = (d.row, d.col) ∨
      (d.horizontal = true ∧ x = (d.row, d.col + 1)) ∨
      (d.horizontal = false ∧ x = (d.row + 1, d.col)) := by
  unfold Domino.cells
  cases h : d.horizontal <;> simp

theorem first_mem_cells (d : Domino) : (d.row, d.col) ∈ d.cells :=
  (mem_cells d _).2 (Or.inl rfl)

theorem dominoValue_eq (val : Nat → Nat → Int) (d : Domino) :
    dominoValue val d = val d.row d.col +
      (if d.horizontal = true then val d.row (d.col + 1) else val (d.row + 1) d.col) := by
  unfold dominoValue Domino.cells
  cases h : d.horizontal <;> simp

theorem valid_empty (n C : Nat) : Valid n C ∅ :=
  ⟨fun d hd => absurd hd (Finset.not_mem_empty d),
    fun d hd => absurd hd (Finset.not_mem_empty d)⟩

theorem weight_empty (val : Nat → Nat → Int) : weight val ∅ = 0 := by
  simp [weight]

theorem good_empty (n C i j : Nat) : Good n C ∅ i j :=
  ⟨valid_empty n C, fun d hd => absurd hd (Finset.not_mem_empty d)⟩

theorem disjoint_of_cells {P Q : Finset Domino}
    (hx : ∀ d ∈ P, ∀ e ∈ Q, ∀ x ∈ d.cells, x ∉ e.cells) : Disjoint P Q := by
  rw [Finset.disjoint_left]
  intro d hdP hdQ
  exact hx d hdP d hdQ _ (first_mem_cells d) (first_mem_cells d)

theorem valid_union {n C : Nat} {P Q : Finset Domino} (hP : Valid n C P) (hQ : Valid n C Q)
    (hx : ∀ d ∈ P, ∀ e ∈ Q, ∀ x ∈ d.cells, x ∉ e.cells) : Valid n C (P ∪ Q) := by
  constructor
  · intro d hd
    rcases Finset.mem_union.1 hd with hd | hd
    · exact hP.1 d hd
    · exact hQ.1 d hd
  · intro d hd e he hne x hxd hxe
    rcases Finset.mem_union.1 hd with hd | hd <;> rcases Finset.mem_union.1 he with he | he
    · exact hP.2 d hd e he hne x hxd hxe
    · exact hx d hd e he x hxd hxe
    · exact hx e he d hd x hxe hxd
    · exact hQ.2 d hd e he hne x hxd hxe

theorem weight_union (val : Nat → Nat → Int) {P Q : Finset Domino}
    (hx : ∀ d ∈ P, ∀ e ∈ Q, ∀ x ∈ d.cells, x ∉ e.cells) :
    weight val (P ∪ Q) = weight val P + weight val Q := by
  unfold weight
  exact Finset.sum_union (disjoint_of_cells hx)

theorem mem_verticalDominoes (S : Finset Nat) (c : Nat) (d : Domino) :
    d ∈ verticalDominoes S c ↔ d.row ∈ S ∧ d.col = c ∧ d.horizontal = false := by
  unfold verticalDominoes
  rw [Finset.mem_image]
  constructor
  · rintro ⟨b, hb, rfl⟩; exact ⟨hb, rfl, rfl⟩
  · rintro ⟨h1, h2, h3⟩
    refine ⟨d.row, h1, ?_⟩
    cases d
    simp only at h2 h3
    subst h2 h3
    rfl

theorem mem_horizontalDominoes (n m c : Nat) (d : Domino) :
    d ∈ horizontalDominoes n m c ↔
      (d.row < n ∧ m.testBit d.row = true) ∧ d.col = c ∧ d.horizontal = true := by
  unfold horizontalDominoes
  rw [Finset.mem_image]
  constructor
  · rintro ⟨b, hb, rfl⟩
    rw [Finset.mem_filter, Finset.mem_range] at hb
    exact ⟨hb, rfl, rfl⟩
  · rintro ⟨h1, h2, h3⟩
    refine ⟨d.row, by rw [Finset.mem_filter, Finset.mem_range]; exact h1, ?_⟩
    cases d
    simp only at h2 h3
    subst h2 h3
    rfl

theorem weight_verticalDominoes (val : Nat → Nat → Int) (S : Finset Nat) (c : Nat) :
    weight val (verticalDominoes S c) = ∑ b in S, (val b c + val (b + 1) c) := by
  unfold weight verticalDominoes
  rw [Finset.sum_image]
  · apply Finset.sum_congr rfl
    intro b _
    rw [dominoValue_eq]
    simp
  · intro a _ b _ h
    exact congrArg Domino.row h

theorem weight_horizontalDominoes (val : Nat → Nat → Int) (n m c : Nat) :
    weight val (horizontalDominoes n m c) = bitSum n m (fun b => val b c + val b (c + 1)) := by
  unfold weight horizontalDominoes bitSum
  rw [Finset.sum_image]
  · apply Finset.sum_congr rfl
    intro b _
    rw [dominoValue_eq]
    simp
  · intro a _ b _ h
    exact congrArg Domino.row h

theorem bitSum_pairs (n h v : Nat) (S : Finset Nat) (hS : PairSet n h 0 S)
    (hbits : ∀ i, v.testBit i = true ↔ Covers S i) (f : Nat → Int) :
    bitSum n v f = ∑ b in S, (f b + f (b + 1)) := by
  unfold bitSum
  have hset : (Finset.range n).filter (fun b => v.testBit b = true)
      = S ∪ S.image (fun b => b + 1) := by
    ext i
    simp only [Finset.mem_filter, Finset.mem_range, Finset.mem_union, Finset.mem_image, hbits,
      Covers]
    constructor
    · rintro ⟨_, b, hb, rfl | rfl⟩
      · exact Or.inl hb
      · exact Or.inr ⟨b, hb, rfl⟩
    · rintro (hi | ⟨b, hb, rfl⟩)
      · exact ⟨by have := (hS.1 i hi).1; omega, i, hi, Or.inl rfl⟩
      · exact ⟨by have := (hS.1 b hb).1; omega, b, hb, Or.inr rfl⟩
  have hdisj : Disjoint S (S.image (fun b => b + 1)) := by
    rw [Finset.disjoint_left]
    intro i hi hi2
    obtain ⟨b, hb, rfl⟩ := Finset.mem_image.1 hi2
    exact hS.2 b hb hi
  rw [hset, Finset.sum_union hdisj, Finset.sum_image (fun a _ b _ h => by omega),
    Finset.sum_add_distrib]

theorem valid_verticalDominoes (n C h c : Nat) (S : Finset Nat) (hS : PairSet n h 0 S)
    (hc : c < C) : Valid n C (verticalDominoes S c) := by
  constructor
  · intro d hd x hx
    obtain ⟨h1, h2, h3⟩ := (mem_verticalDominoes S c d).1 hd
    have hb := (hS.1 _ h1).1
    rcases (mem_cells d x).1 hx with rfl | ⟨h4, _⟩ | ⟨_, rfl⟩
    · exact ⟨by simp only; omega, by simp only; omega⟩
    · rw [h3] at h4; exact absurd h4 Bool.false_ne_true
    · exact ⟨by simp only; omega, by simp only; omega⟩
  · intro d hd e he hne x hxd hxe
    obtain ⟨d1, d2, d3⟩ := (mem_verticalDominoes S c d).1 hd
    obtain ⟨e1, e2, e3⟩ := (mem_verticalDominoes S c e).1 he
    have hrow : d.row ≠ e.row := by
      intro hr
      apply hne
      cases d; cases e
      simp only at hr d2 d3 e2 e3
      subst hr d2 d3 e2 e3
      rfl
    have n1 : d.row + 1 ≠ e.row := fun e0 => hS.2 _ d1 (e0 ▸ e1)
    have n2 : e.row + 1 ≠ d.row := fun e0 => hS.2 _ e1 (e0 ▸ d1)
    rcases (mem_cells d x).1 hxd with rfl | ⟨h4, _⟩ | ⟨_, rfl⟩
    · rcases (mem_cells e _).1 hxe with h5 | ⟨h5, _⟩ | ⟨_, h5⟩
      · exact hrow (congrArg Prod.fst h5)
      · rw [e3] at h5; exact absurd h5 Bool.false_ne_true
      · exact n2 (congrArg Prod.fst h5).symm
    · rw [d3] at h4; exact absurd h4 Bool.false_ne_true
    · rcases (mem_cells e _).1 hxe with h5 | ⟨h5, _⟩ | ⟨_, h5⟩
      · exact n1 (congrArg Prod.fst h5)
      · rw [e3] at h5; exact absurd h5 Bool.false_ne_true
      · have := congrArg Prod.fst h5
        simp only at this
        exact hrow (by omega)

theorem valid_horizontalDominoes (n C m c : Nat) (hc : c + 1 < C) :
    Valid n C (horizontalDominoes n m c) := by
  constructor
  · intro d hd x hx
    obtain ⟨h1, h2, h3⟩ := (mem_horizontalDominoes n m c d).1 hd
    rcases (mem_cells d x).1 hx with rfl | ⟨_, rfl⟩ | ⟨h4, _⟩
    · exact ⟨h1.1, by simp only; omega⟩
    · exact ⟨h1.1, by simp only; omega⟩
    · rw [h3] at h4; exact absurd h4 (by decide)
  · intro d hd e he hne x hxd hxe
    obtain ⟨_, d2, d3⟩ := (mem_horizontalDominoes n m c d).1 hd
    obtain ⟨_, e2, e3⟩ := (mem_horizontalDominoes n m c e).1 he
    have hrow : d.row ≠ e.row := by
      intro hr
      apply hne
      cases d; cases e
      simp only at hr d2 d3 e2 e3
      subst hr d2 d3 e2 e3
      rfl
    rcases (mem_cells d x).1 hxd with rfl | ⟨_, rfl⟩ | ⟨h4, _⟩
    · rcases (mem_cells e _).1 hxe with h5 | ⟨_, h5⟩ | ⟨h5, _⟩
      · exact hrow (congrArg Prod.fst h5)
      · exact hrow (congrArg Prod.fst h5)
      · rw [e3] at h5; exact absurd h5 (by decide)
    · rcases (mem_cells e _).1 hxe with h5 | ⟨_, h5⟩ | ⟨h5, _⟩
      · exact hrow (congrArg Prod.fst h5)
      · exact hrow (congrArg Prod.fst h5)
      · rw [e3] at h5; exact absurd h5 (by decide)
    · rw [d3] at h4; exact absurd h4 (by decide)

/-! ## Soundness: every table entry is the weight of a placement -/

theorem reach_vertical (board : List (List Int)) (n C col : Nat) (hcol : col < C) :
    ∀ s ∈ verticalSteps board n (generateMatchingVerticalMasks n) col,
      ∀ v0, Reach n C (bitValue board n) s.src s.cs v0 →
        Reach n C (bitValue board n) s.tgt s.ct (v0 + s.w) := by
  intro s hs v0 hreach _ _
  obtain ⟨h, v, hlt, _, hv, rfl⟩ := (mem_verticalSteps board n col s).1 hs
  obtain ⟨S, hS, hbits⟩ := (mem_verticalBlocks_iff n h v).1 hv
  obtain ⟨P, hP, hw⟩ := hreach hlt hcol
  have hP : Good n C P h col := hP
  show ∃ Q, Good n C Q (h ||| v) col ∧ weight (bitValue board n) Q
    = v0 + bitSum n v (fun b => bitValue board n b col)
  have hcross : ∀ d ∈ P, ∀ e ∈ verticalDominoes S col, ∀ x ∈ d.cells, x ∉ e.cells := by
    intro d hd e he x hxd hxe
    obtain ⟨e1, e2, e3⟩ := (mem_verticalDominoes S col e).1 he
    have hfree := (hS.1 _ e1).2
    rcases (mem_cells e x).1 hxe with rfl | ⟨h4, _⟩ | ⟨_, rfl⟩
    · have := (hP.2 d hd _ hxd).2 e2
      simp only at this
      rw [hfree.1] at this; exact Bool.false_ne_true this
    · rw [e3] at h4; exact Bool.false_ne_true h4
    · have := (hP.2 d hd _ hxd).2 e2
      simp only at this
      rw [hfree.2] at this; exact Bool.false_ne_true this
  refine ⟨P ∪ verticalDominoes S col, ⟨valid_union hP.1
    (valid_verticalDominoes n C h col S hS hcol) hcross, ?_⟩, ?_⟩
  · intro d hd x hx
    rcases Finset.mem_union.1 hd with hd | hd
    · refine ⟨(hP.2 d hd x hx).1, fun e => ?_⟩
      simp only [Nat.testBit_or, (hP.2 d hd x hx).2 e, Bool.true_or]
    · obtain ⟨e1, e2, e3⟩ := (mem_verticalDominoes S col d).1 hd
      have hcov : Covers S x.1 := by
        rcases (mem_cells d x).1 hx with rfl | ⟨h4, _⟩ | ⟨_, rfl⟩
        · exact ⟨d.row, e1, Or.inl rfl⟩
        · rw [e3] at h4; exact absurd h4 Bool.false_ne_true
        · exact ⟨d.row, e1, Or.inr rfl⟩
      have hx2 : x.2 = col := by
        rcases (mem_cells d x).1 hx with rfl | ⟨h4, _⟩ | ⟨_, rfl⟩
        · exact e2
        · rw [e3] at h4; exact absurd h4 Bool.false_ne_true
        · exact e2
      refine ⟨le_of_eq hx2, fun _ => ?_⟩
      simp only [Nat.testBit_or, (hbits x.1).2 hcov, Bool.or_true]
  · rw [weight_union _ hcross, hw, weight_verticalDominoes, bitSum_pairs n h v S hS hbits]

theorem reach_horizontal (board : List (List Int)) (n C col : Nat) (hcol : col + 1 < C)
    (hbs : List (List Int))
    (hv : ∀ a b, get2 hbs a b = if b < C - 1 ∧ a < 2 ^ n then
        bitSum n a (fun r => bitValue board n r b + bitValue board n r (b + 1)) else 0) :
    ∀ s ∈ horizontalSteps n hbs (generateMatchingHorizontalMasks n) col,
      ∀ v0, Reach n C (bitValue board n) s.src s.cs v0 →
        Reach n C (bitValue board n) s.tgt s.ct (v0 + s.w) := by
  intro s hs v0 hreach _ _
  obtain ⟨h, m, hlt, hm, hdisj, rfl⟩ := (mem_horizontalSteps n hbs col s).1 hs
  obtain ⟨P, hP, hw⟩ := hreach hlt (show col < C by omega)
  have hP : Good n C P h col := hP
  show ∃ Q, Good n C Q m (col + 1) ∧ weight (bitValue board n) Q
    = v0 + (if get2 hbs m col ≥ 0 then get2 hbs m col else 0)
  by_cases hge : get2 hbs m col ≥ 0
  · rw [if_pos hge]
    have hcross : ∀ d ∈ P, ∀ e ∈ horizontalDominoes n m col, ∀ x ∈ d.cells, x ∉ e.cells := by
      intro d hd e he x hxd hxe
      obtain ⟨e1, e2, e3⟩ := (mem_horizontalDominoes n m col e).1 he
      have hx := hP.2 d hd x hxd
      rcases (mem_cells e x).1 hxe with rfl | ⟨_, rfl⟩ | ⟨h4, _⟩
      · have := hx.2 e2
        exact (and_eq_zero_iff_testBit m h).1 hdisj _ ⟨e1.2, this⟩
      · have := hx.1
        simp only at this
        omega
      · rw [e3] at h4; exact absurd h4 (by decide)
    refine ⟨P ∪ horizontalDominoes n m col, ⟨valid_union hP.1
      (valid_horizontalDominoes n C m col hcol) hcross, ?_⟩, ?_⟩
    · intro d hd x hx
      rcases Finset.mem_union.1 hd with hd | hd
      · have := (hP.2 d hd x hx).1
        exact ⟨by omega, fun e => by omega⟩
      · obtain ⟨e1, e2, e3⟩ := (mem_horizontalDominoes n m col d).1 hd
        rcases (mem_cells d x).1 hx with rfl | ⟨_, rfl⟩ | ⟨h4, _⟩
        · exact ⟨by simp only; omega, fun e => by simp only at e; omega⟩
        · exact ⟨by simp only; omega, fun _ => e1.2⟩
        · rw [e3] at h4; exact absurd h4 (by decide)
    · rw [weight_union _ hcross, hw, weight_horizontalDominoes, hv m col,
        if_pos ⟨by omega, hm⟩]
  · rw [if_neg hge, add_zero]
    refine ⟨P, ⟨hP.1, fun d hd x hx => ?_⟩, hw⟩
    have := (hP.2 d hd x hx).1
    exact ⟨by omega, fun e => by omega⟩

theorem reach_zero (n C : Nat) (val : Nat → Nat → Int) (a b : Nat) : Reach n C val a b 0 :=
  fun _ _ => ⟨∅, good_empty n C a b, weight_empty val⟩

theorem sweepStep_sound (board : List (List Int)) (n C col : Nat) (hcol : col < C)
    (hbs : List (List Int))
    (hv : ∀ a b, get2 hbs a b = if b < C - 1 ∧ a < 2 ^ n then
        bitSum n a (fun r => bitValue board n r b + bitValue board n r (b + 1)) else 0)
    (dp : List (List Int)) (hd : Dims dp (2 ^ n) C)
    (hr : ∀ a b, Reach n C (bitValue board n) a b (get2 dp a b)) :
    Dims (sweepStep board n C hbs (generateMatchingVerticalMasks n)
        (generateMatchingHorizontalMasks n) dp col) (2 ^ n) C ∧
    ∀ a b, Reach n C (bitValue board n) a b
      (get2 (sweepStep board n C hbs (generateMatchingVerticalMasks n)
        (generateMatchingHorizontalMasks n) dp col) a b) := by
  unfold sweepStep
  simp only [verticalPhase_eq, horizontalPhase_eq]
  have hd1 := dims_relaxAll (verticalSteps board n (generateMatchingVerticalMasks n) col) dp hd
  have hr1 := relaxAll_inv (Reach n C (bitValue board n)) _ dp hd
    (verticalSteps_range board n C col hcol) (reach_vertical board n C col hcol) hr
  by_cases hlast : col < C - 1
  · rw [if_pos hlast]
    have hc1 : col + 1 < C := by omega
    exact ⟨dims_relaxAll _ _ hd1, relaxAll_inv (Reach n C (bitValue board n)) _ _ hd1
      (horizontalSteps_range n hbs C col hc1) (reach_horizontal board n C col hc1 hbs hv) hr1⟩
  · rw [if_neg hlast]
    exact ⟨hd1, hr1⟩

theorem sweep_sound (board : List (List Int)) (n C : Nat) (hbs : List (List Int))
    (hv : ∀ a b, get2 hbs a b = if b < C - 1 ∧ a < 2 ^ n then
        bitSum n a (fun r => bitValue board n r b + bitValue board n r (b + 1)) else 0) :
    Dims ((List.range C).foldl (sweepStep board n C hbs (generateMatchingVerticalMasks n)
        (generateMatchingHorizontalMasks n))
        (List.replicate (2 ^ n) (List.replicate C (0 : Int)))) (2 ^ n) C ∧
    ∀ a b, Reach n C (bitValue board n) a b
      (get2 ((List.range C).foldl (sweepStep board n C hbs (generateMatchingVerticalMasks n)
        (generateMatchingHorizontalMasks n))
        (List.replicate (2 ^ n) (List.replicate C (0 : Int)))) a b) := by
  apply foldl_range_induction _ _ C (fun _ s => Dims s (2 ^ n) C ∧
    ∀ a b, Reach n C (bitValue board n) a b (get2 s a b))
  · refine ⟨dims_replicate _ _, fun a b => ?_⟩
    rw [get2_replicate]; exact reach_zero n C _ a b
  · rintro k s hk ⟨hd, hr⟩
    exact sweepStep_sound board n C k hk hbs hv s hd hr

/-! ## Completeness: every placement is found by the sweep -/

theorem valid_ne_cells {n C : Nat} {P : Finset Domino} (hP : Valid n C P) {d e : Domino}
    (hd : d ∈ P) (he : e ∈ P) (x : Nat × Nat) (hxd : x ∈ d.cells) (hxe : x ∈ e.cells) :
    d = e := by
  by_contra hne
  exact hP.2 d hd e he hne x hxd hxe

theorem testBit_outMask (n : Nat) (P : Finset Domino) (c b : Nat) :
    (outMask n P c).testBit b = true ↔ b < n ∧ (⟨b, c, true⟩ : Domino) ∈ P := by
  unfold outMask
  rw [testBit_maskOf]
  simp

theorem testBit_vertMask (n : Nat) (P : Finset Domino) (c b : Nat) :
    (vertMask n P c).testBit b = true ↔ b < n ∧ ((⟨b, c, false⟩ : Domino) ∈ P ∨
      (1 ≤ b ∧ (⟨b - 1, c, false⟩ : Domino) ∈ P)) := by
  unfold vertMask
  rw [testBit_maskOf]
  simp

theorem testBit_inMask (n : Nat) (P : Finset Domino) (c b : Nat) :
    (inMask n P c).testBit b = true ↔ 1 ≤ c ∧ b < n ∧ (⟨b, c - 1, true⟩ : Domino) ∈ P := by
  unfold inMask
  by_cases hc : c = 0
  · rw [if_pos hc]; simp [hc]
  · rw [if_neg hc, testBit_outMask]
    constructor
    · rintro ⟨h1, h2⟩; exact ⟨by omega, h1, h2⟩
    · rintro ⟨_, h1, h2⟩; exact ⟨h1, h2⟩

theorem outMask_lt (n : Nat) (P : Finset Domino) (c : Nat) : outMask n P c < 2 ^ n :=
  maskOf_lt _ _

theorem vertMask_lt (n : Nat) (P : Finset Domino) (c : Nat) : vertMask n P c < 2 ^ n :=
  maskOf_lt _ _

theorem inMask_lt (n : Nat) (P : Finset Domino) (c : Nat) : inMask n P c < 2 ^ n := by
  unfold inMask
  by_cases hc : c = 0
  · rw [if_pos hc]; exact two_pow_pos_nat n
  · rw [if_neg hc]; exact outMask_lt _ _ _

theorem mem_vertSet (n : Nat) (P : Finset Domino) (c b : Nat) :
    b ∈ vertSet n P c ↔ b < n ∧ (⟨b, c, false⟩ : Domino) ∈ P := by
  simp [vertSet]

theorem pairSet_vertSet {n C : Nat} {P : Finset Domino} (hP : Valid n C P) (c : Nat) :
    PairSet n (inMask n P c) 0 (vertSet n P c) := by
  constructor
  · intro b hb
    obtain ⟨_, hbP⟩ := (mem_vertSet n P c b).1 hb
    have hin := hP.1 _ hbP (b + 1, c) ((mem_cells _ _).2 (Or.inr (Or.inr ⟨rfl, rfl⟩)))
    simp only at hin
    refine ⟨by omega, ?_, ?_⟩
    · by_contra hne
      obtain ⟨hc, _, hh⟩ := (testBit_inMask n P c b).1 (by simpa using hne)
      have := valid_ne_cells hP hbP hh (b, c) ((mem_cells _ _).2 (Or.inl rfl))
        ((mem_cells _ _).2 (Or.inr (Or.inl ⟨rfl, by
          show (b, c) = (b, c - 1 + 1)
          rw [Nat.sub_add_cancel hc]⟩)))
      exact absurd (congrArg Domino.horizontal this) (by simp)
    · by_contra hne
      obtain ⟨hc, _, hh⟩ := (testBit_inMask n P c (b + 1)).1 (by simpa using hne)
      have := valid_ne_cells hP hbP hh (b + 1, c)
        ((mem_cells _ _).2 (Or.inr (Or.inr ⟨rfl, rfl⟩)))
        ((mem_cells _ _).2 (Or.inr (Or.inl ⟨rfl, by
          show (b + 1, c) = (b + 1, c - 1 + 1)
          rw [Nat.sub_add_cancel hc]⟩)))
      exact absurd (congrArg Domino.horizontal this) (by simp)
  · intro b hb hb1
    obtain ⟨_, hbP⟩ := (mem_vertSet n P c b).1 hb
    obtain ⟨_, hb1P⟩ := (mem_vertSet n P c (b + 1)).1 hb1
    have := valid_ne_cells hP hbP hb1P (b + 1, c)
      ((mem_cells _ _).2 (Or.inr (Or.inr ⟨rfl, rfl⟩))) ((mem_cells _ _).2 (Or.inl rfl))
    have := congrArg Domino.row this
    simp only at this
    omega

theorem covers_vertSet {n C : Nat} {P : Finset Domino} (hP : Valid n C P) (c i : Nat) :
    (vertMask n P c).testBit i = true ↔ Covers (vertSet n P c) i := by
  rw [testBit_vertMask]
  constructor
  · rintro ⟨hi, h | ⟨h1, h2⟩⟩
    · exact ⟨i, (mem_vertSet n P c i).2 ⟨hi, h⟩, Or.inl rfl⟩
    · exact ⟨i - 1, (mem_vertSet n P c _).2 ⟨by omega, h2⟩, Or.inr (by omega)⟩
  · rintro ⟨b, hb, rfl | rfl⟩
    · obtain ⟨h1, h2⟩ := (mem_vertSet n P c _).1 hb
      exact ⟨h1, Or.inl h2⟩
    · obtain ⟨_, h2⟩ := (mem_vertSet n P c _).1 hb
      have hin := hP.1 _ h2 (b + 1, c) ((mem_cells _ _).2 (Or.inr (Or.inr ⟨rfl, rfl⟩)))
      exact ⟨hin.1, Or.inr ⟨by omega, by simpa using h2⟩⟩

theorem vertMask_mem {n C : Nat} {P : Finset Domino} (hP : Valid n C P) (c : Nat) :
    vertMask n P c ∈ generateVerticalBlocks (inMask n P c) 0 [] 0 n :=
  (mem_verticalBlocks_iff n _ _).2 ⟨vertSet n P c, pairSet_vertSet hP c, covers_vertSet hP c⟩

theorem domino_eta (d : Domino) : (⟨d.row, d.col, d.horizontal⟩ : Domino) = d := by
  cases d; rfl

theorem verticalDominoes_vertSet {n C : Nat} {P : Finset Domino} (hP : Valid n C P) (c : Nat) :
    verticalDominoes (vertSet n P c) c
      = P.filter (fun d => d.col = c ∧ d.horizontal = false) := by
  ext d
  rw [mem_verticalDominoes, mem_vertSet, Finset.mem_filter]
  constructor
  · rintro ⟨⟨_, h1⟩, h2, h3⟩
    rw [← h2, ← h3, domino_eta] at h1
    exact ⟨h1, h2, h3⟩
  · rintro ⟨h1, h2, h3⟩
    have hin := hP.1 d h1 _ (first_mem_cells d)
    refine ⟨⟨hin.1, ?_⟩, h2, h3⟩
    rw [← h2, ← h3, domino_eta]; exact h1

theorem horizontalDominoes_outMask {n C : Nat} {P : Finset Domino} (hP : Valid n C P)
    (c : Nat) :
    horizontalDominoes n (outMask n P c) c
      = P.filter (fun d => d.col = c ∧ d.horizontal = true) := by
  ext d
  rw [mem_horizontalDominoes, testBit_outMask, Finset.mem_filter]
  constructor
  · rintro ⟨⟨_, _, h1⟩, h2, h3⟩
    rw [← h2, ← h3, domino_eta] at h1
    exact ⟨h1, h2, h3⟩
  · rintro ⟨h1, h2, h3⟩
    have hin := hP.1 d h1 _ (first_mem_cells d)
    refine ⟨⟨hin.1, hin.1, ?_⟩, h2, h3⟩
    rw [← h2, ← h3, domino_eta]; exact h1

theorem bitSum_vertMask {n C : Nat} {P : Finset Domino} (hP : Valid n C P) (c : Nat)
    (val : Nat → Nat → Int) :
    bitSum n (vertMask n P c) (fun b => val b c) = vertWeight val P c := by
  rw [bitSum_pairs n _ _ _ (pairSet_vertSet hP c) (covers_vertSet hP c), vertWeight,
    ← verticalDominoes_vertSet hP c, weight_verticalDominoes]

theorem bitSum_outMask {n C : Nat} {P : Finset Domino} (hP : Valid n C P) (c : Nat)
    (val : Nat → Nat → Int) :
    bitSum n (outMask n P c) (fun b => val b c + val b (c + 1)) = horizWeight val P c := by
  rw [horizWeight, ← horizontalDominoes_outMask hP c, weight_horizontalDominoes]

theorem outMask_disjoint {n C : Nat} {P : Finset Domino} (hP : Valid n C P) (c : Nat) :
    outMask n P c &&& (inMask n P c ||| vertMask n P c) = 0 := by
  rw [and_eq_zero_iff_testBit]
  rintro b ⟨h1, h2⟩
  obtain ⟨_, ho⟩ := (testBit_outMask n P c b).1 h1
  rw [Nat.testBit_or, Bool.or_eq_true] at h2
  rcases h2 with h2 | h2
  · obtain ⟨hc, _, hi⟩ := (testBit_inMask n P c b).1 h2
    have := valid_ne_cells hP ho hi (b, c) ((mem_cells _ _).2 (Or.inl rfl))
      ((mem_cells _ _).2 (Or.inr (Or.inl ⟨rfl, by
        show (b, c) = (b, c - 1 + 1)
        rw [Nat.sub_add_cancel hc]⟩)))
    have := congrArg Domino.col this
    simp only at this
    omega
  · obtain ⟨_, hv | ⟨hb1, hv⟩⟩ := (testBit_vertMask n P c b).1 h2
    · have := valid_ne_cells hP ho hv (b, c) ((mem_cells _ _).2 (Or.inl rfl))
        ((mem_cells _ _).2 (Or.inl rfl))
      exact absurd (congrArg Domino.horizontal this) (by simp)
    · have := valid_ne_cells hP ho hv (b, c) ((mem_cells _ _).2 (Or.inl rfl))
        ((mem_cells _ _).2 (Or.inr (Or.inr ⟨rfl, by
          show (b, c) = (b - 1 + 1, c)
          rw [Nat.sub_add_cancel hb1]⟩)))
      exact absurd (congrArg Domino.horizontal this) (by simp)

theorem weight_filter (val : Nat → Nat → Int) (P : Finset Domino) (p : Domino → Prop)
    [DecidablePred p] :
    weight val (P.filter p) = ∑ d in P, if p d then dominoValue val d else 0 := by
  unfold weight
  rw [Finset.sum_filter]

theorem preWeight_succ (val : Nat → Nat → Int) (P : Finset Domino) (c : Nat) :
    preWeight val P (c + 1)
      = preWeight val P c + vertWeight val P c + horizWeight val P c := by
  unfold preWeight vertWeight horizWeight
  rw [weight_filter, weight_filter, weight_filter, weight_filter, ← Finset.sum_add_distrib,
    ← Finset.sum_add_distrib]
  apply Finset.sum_congr rfl
  intro d _
  rcases Nat.lt_trichotomy d.col c with h | h | h
  · have h1 : d.col < c + 1 := by omega
    have h2 : ¬ (d.col = c ∧ d.horizontal = false) := fun e => by omega
    have h3 : ¬ (d.col = c ∧ d.horizontal = true) := fun e => by omega
    rw [if_pos h1, if_pos h, if_neg h2, if_neg h3]; ring
  · have h1 : d.col < c + 1 := by omega
    have h0 : ¬ d.col < c := by omega
    cases hh : d.horizontal
    · have h2 : d.col = c ∧ false = false := ⟨h, rfl⟩
      have h3 : ¬ (d.col = c ∧ false = true) := fun e => absurd e.2 (by decide)
      rw [if_pos h1, if_neg h0, if_pos h2, if_neg h3]; ring
    · have h2 : ¬ (d.col = c ∧ true = false) := fun e => absurd e.2 (by decide)
      have h3 : d.col = c ∧ true = true := ⟨h, rfl⟩
      rw [if_pos h1, if_neg h0, if_neg h2, if_pos h3]; ring
  · have h1 : ¬ d.col < c + 1 := by omega
    have h0 : ¬ d.col < c := by omega
    have h2 : ¬ (d.col = c ∧ d.horizontal = false) := fun e => by omega
    have h3 : ¬ (d.col = c ∧ d.horizontal = true) := fun e => by omega
    rw [if_neg h1, if_neg h0, if_neg h2, if_neg h3]; ring

theorem preWeight_zero (val : Nat → Nat → Int) (P : Finset Domino) :
    preWeight val P 0 = 0 := by
  unfold preWeight
  rw [weight_filter]
  apply Finset.sum_eq_zero
  intro d _
  rw [if_neg (Nat.not_lt_zero _)]

theorem weight_eq_last {n C : Nat} {P : Finset Domino} (hP : Valid n C P) (hC : 1 ≤ C)
    (val : Nat → Nat → Int) :
    weight val P = preWeight val P (C - 1) + vertWeight val P (C - 1) := by
  unfold preWeight vertWeight
  rw [weight_filter, weight_filter, ← Finset.sum_add_distrib]
  unfold weight
  apply Finset.sum_congr rfl
  intro d hd
  have h0 := hP.1 d hd _ (first_mem_cells d)
  simp only at h0
  by_cases hlt : d.col < C - 1
  · have h2 : ¬ (d.col = C - 1 ∧ d.horizontal = false) := fun e => by omega
    rw [if_pos hlt, if_neg h2, add_zero]
  · have hv : d.horizontal = false := by
      cases hh : d.horizontal
      · rfl
      · have := hP.1 d hd (d.row, d.col + 1) ((mem_cells _ _).2 (Or.inr (Or.inl ⟨hh, rfl⟩)))
        simp only at this
        omega
    have h2 : d.col = C - 1 ∧ d.horizontal = false := ⟨by omega, hv⟩
    rw [if_neg hlt, if_pos h2, zero_add]

theorem inMask_succ (n : Nat) (P : Finset Domino) (c : Nat) :
    inMask n P (c + 1) = outMask n P c := by
  unfold inMask
  rw [if_neg (Nat.succ_ne_zero c), Nat.add_sub_cancel]

theorem inMask_zero (n : Nat) (P : Finset Domino) : inMask n P 0 = 0 := by
  unfold inMask
  rw [if_pos rfl]

theorem sweep_complete (board : List (List Int)) (n C : Nat) (hC : 1 ≤ C)
    (hbs : List (List Int))
    (hv : ∀ a b, get2 hbs a b = if b < C - 1 ∧ a < 2 ^ n then
        bitSum n a (fun r => bitValue board n r b + bitValue board n r (b + 1)) else 0)
    (P : Finset Domino) (hP : Valid n C P) :
    weight (bitValue board n) P ≤
      get2 ((List.range C).foldl (sweepStep board n C hbs (generateMatchingVerticalMasks n)
        (generateMatchingHorizontalMasks n))
        (List.replicate (2 ^ n) (List.replicate C (0 : Int))))
        (inMask n P (C - 1) ||| vertMask n P (C - 1)) (C - 1) := by
  have key := foldl_range_induction
    (sweepStep board n C hbs (generateMatchingVerticalMasks n)
      (generateMatchingHorizontalMasks n))
    (List.replicate (2 ^ n) (List.replicate C (0 : Int))) C
    (fun k s => Dims s (2 ^ n) C ∧
      (k < C → preWeight (bitValue board n) P k ≤ get2 s (inMask n P k) k) ∧
      (k = C → weight (bitValue board n) P ≤
        get2 s (inMask n P (C - 1) ||| vertMask n P (C - 1)) (C - 1)))
    ?_ ?_
  · exact key.2.2 rfl
  · refine ⟨dims_replicate _ _, fun _ => ?_, fun h => by omega⟩
    rw [get2_replicate, preWeight_zero]
  · rintro k s hk ⟨hd, hpre, _⟩
    have hpre := hpre hk
    unfold sweepStep
    simp only [verticalPhase_eq, horizontalPhase_eq]
    have hd1 := dims_relaxAll (verticalSteps board n (generateMatchingVerticalMasks n) k) s hd
    have hmemv : (⟨inMask n P k ||| vertMask n P k, k, inMask n P k, k,
        bitSum n (vertMask n P k) (fun b => bitValue board n b k)⟩ : Step)
        ∈ verticalSteps board n (generateMatchingVerticalMasks n) k :=
      (mem_verticalSteps board n k _).2 ⟨inMask n P k, vertMask n P k, inMask_lt n P k,
        fun h0 => by rw [h0, inMask_zero], vertMask_mem hP k, rfl⟩
    have hlow := relaxAll_lower _ s hd (verticalSteps_range board n C k hk) _ hmemv
    simp only at hlow
    rw [bitSum_vertMask hP k] at hlow
    by_cases hlast : k < C - 1
    · rw [if_pos hlast]
      have hk1 : k + 1 < C := by omega
      have hmemh : (⟨outMask n P k, k + 1, inMask n P k ||| vertMask n P k, k,
          if get2 hbs (outMask n P k) k ≥ 0 then get2 hbs (outMask n P k) k else 0⟩ : Step)
          ∈ horizontalSteps n hbs (generateMatchingHorizontalMasks n) k :=
        (mem_horizontalSteps n hbs k _).2 ⟨_, _, Nat.or_lt_two_pow (inMask_lt n P k)
          (vertMask_lt n P k), outMask_lt n P k, outMask_disjoint hP k, rfl⟩
      have hlow2 := relaxAll_lower _ _ hd1 (horizontalSteps_range n hbs C k hk1) _ hmemh
      simp only at hlow2
      have hclamp : horizWeight (bitValue board n) P k ≤
          (if get2 hbs (outMask n P k) k ≥ 0 then get2 hbs (outMask n P k) k else 0) := by
        have hcond : k < C - 1 ∧ outMask n P k < 2 ^ n := ⟨hlast, outMask_lt n P k⟩
        have hval : get2 hbs (outMask n P k) k = horizWeight (bitValue board n) P k := by
          rw [hv, if_pos hcond, bitSum_outMask hP k]
        rw [hval]
        split
        · exact le_refl _
        · omega
      refine ⟨dims_relaxAll _ _ hd1, fun _ => ?_, fun h => by omega⟩
      rw [inMask_succ, preWeight_succ]
      omega
    · rw [if_neg hlast]
      refine ⟨hd1, fun h => by omega, fun _ => ?_⟩
      have hk2 : k = C - 1 := by omega
      rw [weight_eq_last hP hC, ← hk2]
      omega

theorem foldl_max_spec (f : Nat → Int) (T : Nat) (init : Int) :
    init ≤ (List.range T).foldl (fun acc mask => max acc (f mask)) init ∧
    (∀ mask, mask < T → f mask ≤ (List.range T).foldl (fun acc mask => max acc (f mask)) init) ∧
    ((List.range T).foldl (fun acc mask => max acc (f mask)) init = init ∨
      ∃ mask, mask < T ∧
        (List.range T).foldl (fun acc mask => max acc (f mask)) init = f mask) := by
  apply foldl_range_induction _ init T (fun k r => init ≤ r ∧ (∀ mask, mask < k → f mask ≤ r) ∧
    (r = init ∨ ∃ mask, mask < T ∧ r = f mask))
  · exact ⟨le_refl _, fun mask h => absurd h (Nat.not_lt_zero _), Or.inl rfl⟩
  · rintro k r hk ⟨h1, h2, h3⟩
    refine ⟨le_trans h1 (le_max_left _ _), fun mask hm => ?_, ?_⟩
    · by_cases hmk : mask = k
      · subst hmk; exact le_max_right _ _
      · exact le_trans (h2 mask (by omega)) (le_max_left _ _)
    · rcases max_cases r (f k) with ⟨e, _⟩ | ⟨e, _⟩
      · rw [e]; exact h3
      · rw [e]; exact Or.inr ⟨k, hk, rfl⟩

/-- The engine is optimal over placements in mask coordinates (bit `b` of a mask is
row `b` of the placement, with value `board[numRows - b - 1][c]`). -/
theorem main_optimal_bits (board : List (List Int)) (n C : Nat) (hC : 1 ≤ C) :
    ∃ v, main C n board = some v ∧ 0 ≤ v ∧
      (∀ P, Valid n C P → weight (bitValue board n) P ≤ v) ∧
      ∃ P, Valid n C P ∧ weight (bitValue board n) P = v := by
  obtain ⟨hbs, ht, _, hv⟩ := computeHorizontalBlockSum_eq board n C hC
  unfold main
  rw [ht]
  simp only [one_shiftLeft_eq]
  obtain ⟨_, hsound⟩ := sweep_sound board n C hbs hv
  have hcomp := sweep_complete board n C hC hbs hv
  generalize (List.range C).foldl (sweepStep board n C hbs (generateMatchingVerticalMasks n)
    (generateMatchingHorizontalMasks n))
    (List.replicate (2 ^ n) (List.replicate C (0 : Int))) = dp at hsound hcomp
  obtain ⟨h1, h2, h3⟩ := foldl_max_spec (fun mask => get2 dp mask (C - 1)) (2 ^ n) 0
  refine ⟨_, rfl, h1, fun P hP => ?_, ?_⟩
  · exact le_trans (hcomp P hP) (h2 _ (Nat.or_lt_two_pow (inMask_lt n P _) (vertMask_lt n P _)))
  · rcases h3 with h3 | ⟨mask, hm, h3⟩
    · rw [h3]
      exact ⟨∅, valid_empty n C, weight_empty _⟩
    · rw [h3]
      obtain ⟨P, hP, hw⟩ := hsound mask (C - 1) hm (by omega)
      exact ⟨P, hP.1, hw⟩

/-! ## Reversing the rows -/

theorem inGrid_iff (n C : Nat) (d : Domino) :
    d.InGrid n C ↔ (d.horizontal = true ∧ d.row < n ∧ d.col + 1 < C) ∨
      (d.horizontal = false ∧ d.row + 1 < n ∧ d.col < C) := by
  unfold Domino.InGrid Domino.cells
  cases h : d.horizontal
  · simp only [Bool.false_eq_true, if_false, List.mem_cons, List.mem_singleton,
      List.not_mem_nil, or_false, false_and, true_and, false_or]
    constructor
    · intro hx
      exact ⟨(hx (d.row + 1, d.col) (Or.inr rfl)).1, (hx (d.row, d.col) (Or.inl rfl)).2⟩
    · rintro ⟨h1, h2⟩ x (rfl | rfl)
      · exact ⟨by simp only; omega, h2⟩
      · exact ⟨h1, h2⟩
  · simp only [if_true, List.mem_cons, List.mem_singleton, List.not_mem_nil, or_false,
      true_and, Bool.true_eq_false, false_and, or_false]
    constructor
    · intro hx
      exact ⟨(hx (d.row, d.col) (Or.inl rfl)).1, (hx (d.row, d.col + 1) (Or.inr rfl)).2⟩
    · rintro ⟨h1, h2⟩ x (rfl | rfl)
      · exact ⟨h1, by simp only; omega⟩
      · exact ⟨h1, h2⟩

theorem flipDomino_inGrid {n C : Nat} {d : Domino} (h : d.InGrid n C) :
    (flipDomino n d).InGrid n C := by
  rw [inGrid_iff] at h ⊢
  unfold flipDomino
  rcases h with ⟨h1, h2, h3⟩ | ⟨h1, h2, h3⟩
  · rw [h1]; exact Or.inl ⟨rfl, by simp only [if_true]; omega, h3⟩
  · rw [h1]
    exact Or.inr ⟨rfl, by simp only [Bool.false_eq_true, if_false]; omega, h3⟩

theorem flipDomino_flipDomino {n C : Nat} {d : Domino} (h : d.InGrid n C) :
    flipDomino n (flipDomino n d) = d := by
  rw [inGrid_iff] at h
  cases d with
  | mk r c hz =>
    simp only at h
    rcases h with ⟨h1, h2, _⟩ | ⟨h1, h2, _⟩
    · subst h1
      simp only [flipDomino, if_true, Domino.mk.injEq, and_true]
      omega
    · subst h1
      simp only [flipDomino, Bool.false_eq_true, if_false, Domino.mk.injEq, and_true]
      omega

theorem mem_cells_flipDomino {n C : Nat} {d : Domino} (h : d.InGrid n C) (x : Nat × Nat) :
    x ∈ (flipDomino n d).cells ↔ ∃ y ∈ d.cells, x = (n - 1 - y.1, y.2) := by
  rw [inGrid_iff] at h
  cases d with
  | mk r c hz =>
    simp only at h
    rcases h with ⟨h1, h2, _⟩ | ⟨h1, h2, _⟩
    · subst h1
      simp only [flipDomino, Domino.cells, if_true, List.mem_cons, List.mem_singleton,
        List.not_mem_nil, or_false, exists_eq_or_imp, exists_eq_left]
    · subst h1
      simp only [flipDomino, Domino.cells, Bool.false_eq_true, if_false, List.mem_cons,
        List.mem_singleton, List.not_mem_nil, or_false, exists_eq_or_imp, exists_eq_left]
      have e1 : n - 2 - r = n - 1 - (r + 1) := by omega
      have e2 : n - 2 - r + 1 = n - 1 - r := by omega
      rw [e1, ← e1, e2]
      constructor
      · rintro (rfl | rfl)
        · exact Or.inr (by rw [e1])
        · exact Or.inl rfl
      · rintro (rfl | rfl)
        · exact Or.inr rfl
        · exact Or.inl (by rw [e1])

theorem valid_image_flip {n C : Nat} {P : Finset Domino} (hP : Valid n C P) :
    Valid n C (P.image (flipDomino n)) := by
  constructor
  · intro d hd
    obtain ⟨d0, hd0, rfl⟩ := Finset.mem_image.1 hd
    exact flipDomino_inGrid (hP.1 d0 hd0)
  · intro d hd e he hne x hxd hxe
    obtain ⟨d0, hd0, rfl⟩ := Finset.mem_image.1 hd
    obtain ⟨e0, he0, rfl⟩ := Finset.mem_image.1 he
    obtain ⟨y, hy, rfl⟩ := (mem_cells_flipDomino (hP.1 d0 hd0) x).1 hxd
    obtain ⟨z, hz, hyz⟩ := (mem_cells_flipDomino (hP.1 e0 he0) _).1 hxe
    have hy1 := (hP.1 d0 hd0 y hy).1
    have hz1 := (hP.1 e0 he0 z hz).1
    have h1 := congrArg Prod.fst hyz
    have h2 := congrArg Prod.snd hyz
    simp only at h1 h2
    have hyz2 : y = z := Prod.ext (by omega) h2
    have hne0 : d0 ≠ e0 := fun e => hne (by rw [e])
    exact hP.2 d0 hd0 e0 he0 hne0 y hy (hyz2 ▸ hz)

theorem weight_image_flip {n C : Nat} {P : Finset Domino} (hP : Valid n C P)
    (val : Nat → Nat → Int) :
    weight val (P.image (flipDomino n)) = ∑ d in P, dominoValue val (flipDomino n d) := by
  unfold weight
  apply Finset.sum_image
  intro a ha b hb hab
  rw [← flipDomino_flipDomino (hP.1 a ha), hab, flipDomino_flipDomino (hP.1 b hb)]

theorem image_flip_flip {n C : Nat} {P : Finset Domino} (hP : Valid n C P) :
    (P.image (flipDomino n)).image (flipDomino n) = P := by
  rw [Finset.image_image]
  conv_rhs => rw [← Finset.image_id (s := P)]
  apply Finset.image_congr
  intro d hd
  exact flipDomino_flipDomino (hP.1 d hd)

theorem dominoValue_flip_cell (board : List (List Int)) {n C : Nat} {d : Domino}
    (h : d.InGrid n C) :
    dominoValue (bitValue board n) (flipDomino n d) = dominoValue (cell board) d := by
  rw [inGrid_iff] at h
  cases d with
  | mk r c hz =>
    simp only at h
    rcases h with ⟨h1, h2, _⟩ | ⟨h1, h2, _⟩
    · subst h1
      simp only [flipDomino, if_true, dominoValue_eq, bitValue]
      have e : n - (n - 1 - r) - 1 = r := by omega
      rw [e]
    · subst h1
      simp only [flipDomino, Bool.false_eq_true, if_false, dominoValue_eq, bitValue]
      have e1 : n - (n - 2 - r) - 1 = r + 1 := by omega
      have e2 : n - (n - 2 - r + 1) - 1 = r := by omega
      rw [e1, e2, add_comm]

/-- The weight of a placement in board coordinates is the weight of the row-reversed
placement in mask coordinates. -/
theorem weight_flip (board : List (List Int)) {n C : Nat} {P : Finset Domino}
    (hP : Valid n C P) :
    weight (bitValue board n) (P.image (flipDomino n)) = weight (cell board) P := by
  rw [weight_image_flip hP]
  unfold weight
  apply Finset.sum_congr rfl
  intro d hd
  exact dominoValue_flip_cell board (hP.1 d hd)

/-- The engine is optimal over placements in board coordinates. -/
theorem main_optimal_board (board : List (List Int)) (rows cols : Nat) (hc : 1 ≤ cols) :
    ∃ v, main cols rows board = some v ∧ 0 ≤ v ∧
      (∀ P, Valid rows cols P → weight (cell board) P ≤ v) ∧
      ∃ P, Valid rows cols P ∧ weight (cell board) P = v := by
  obtain ⟨v, hv, h0, hub, Q, hQ, hw⟩ := main_optimal_bits board rows cols hc
  refine ⟨v, hv, h0, fun P hP => ?_, Q.image (flipDomino rows), valid_image_flip hQ, ?_⟩
  · rw [← weight_flip board hP]
    exact hub _ (valid_image_flip hP)
  · rw [← weight_flip board (valid_image_flip hQ), image_flip_flip hQ, hw]

/-! ## The engine computes the optimum -/

/-- C1: for every grid with `rows ≥ 1` and `cols ≥ 1` the engine returns a value, and that
value is the greatest covered sum over all sets of pairwise non-overlapping dominoes inside
the grid; the empty set is one of them and has sum 0.  No bound on `rows * cols` is needed,
so this covers all grids with at most 20 cells. -/
theorem main_optimal (board : List (List Int)) (rows cols : Nat)
    (_hr : 1 ≤ rows) (hc : 1 ≤ cols) (_hg : IsGrid board rows cols) :
    ∃ v, main cols rows board = some v ∧
      IsGreatest {w | ∃ P : Finset Domino, Valid rows cols P ∧ weight (cell board) P = w} v ∧
      Valid rows cols ∅ ∧ weight (cell board) ∅ = 0 := by
  obtain ⟨v, hv, _, hub, P, hP, hw⟩ := main_optimal_board board rows cols hc
  refine ⟨v, hv, ⟨⟨P, hP, hw⟩, ?_⟩, valid_empty rows cols, weight_empty _⟩
  rintro w ⟨Q, hQ, rfl⟩
  exact hub Q hQ

/-- A witness for `main_optimal` on the 2x2 board `[[1,2],[3,4]]`. -/
theorem main_optimal_witness :
    (1 ≤ 2 ∧ IsGrid [[1, 2], [3, 4]] 2 2) ∧
    ∃ v, main 2 2 [[1, 2], [3, 4]] = some v ∧
      IsGreatest {w | ∃ P : Finset Domino, Valid 2 2 P ∧
        weight (cell [[1, 2], [3, 4]]) P = w} v ∧
      Valid 2 2 ∅ ∧ weight (cell [[1, 2], [3, 4]]) ∅ = 0 :=
  ⟨⟨by decide, by simp [IsGrid]⟩,
    main_optimal [[1, 2], [3, 4]] 2 2 (by decide) (by decide) (by simp [IsGrid])⟩

/-! ## Bounds and monotonicity -/

theorem cells_nodup {n C : Nat} {d : Domino} (_h : d.InGrid n C) : d.cells.Nodup := by
  unfold Domino.cells
  cases d.horizontal <;> simp

theorem dominoValue_eq_sum (val : Nat → Nat → Int) {n C : Nat} {d : Domino}
    (h : d.InGrid n C) :
    dominoValue val d = ∑ x in d.cells.toFinset, val x.1 x.2 := by
  unfold dominoValue
  rw [List.sum_toFinset _ (cells_nodup h)]

theorem weight_eq_sum_cells (val : Nat → Nat → Int) {n C : Nat} {P : Finset Domino}
    (hP : Valid n C P) :
    weight val P = ∑ x in P.biUnion (fun d => d.cells.toFinset), val x.1 x.2 := by
  rw [Finset.sum_biUnion]
  · unfold weight
    apply Finset.sum_congr rfl
    intro d hd
    exact dominoValue_eq_sum val (hP.1 d hd)
  · intro d hd e he hne
    show Disjoint d.cells.toFinset e.cells.toFinset
    rw [Finset.disjoint_left]
    intro x hxd hxe
    exact hP.2 d hd e he hne x (List.mem_toFinset.1 hxd) (List.mem_toFinset.1 hxe)

theorem weight_le_total (val : Nat → Nat → Int) {n C : Nat} {P : Finset Domino}
    (hP : Valid n C P) (hnn : ∀ r c, r < n → c < C → 0 ≤ val r c) :
    weight val P ≤ ∑ r in Finset.range n, ∑ c in Finset.range C, val r c := by
  rw [weight_eq_sum_cells val hP, ← Finset.sum_product']
  apply Finset.sum_le_sum_of_subset_of_nonneg
  · intro x hx
    obtain ⟨d, hd, hxd⟩ := Finset.mem_biUnion.1 hx
    have := hP.1 d hd x (List.mem_toFinset.1 hxd)
    rw [Finset.mem_product, Finset.mem_range, Finset.mem_range]
    exact this
  · intro x hx _
    rw [Finset.mem_product, Finset.mem_range, Finset.mem_range] at hx
    exact hnn x.1 x.2 hx.1 hx.2

/-- With exact integers: if every cell of a grid with `rows ≥ 1` and `cols ≥ 1` is
non-negative, the engine's
output is at least 0 and at most the sum of all cell values. -/
theorem main_bounds (board : List (List Int)) (rows cols : Nat)
    (_hr : 1 ≤ rows) (hc : 1 ≤ cols) (_hg : IsGrid board rows cols)
    (hnn : ∀ r c, r < rows → c < cols → 0 ≤ cell board r c) :
    ∃ v, main cols rows board = some v ∧ 0 ≤ v ∧
      v ≤ ∑ r in Finset.range rows, ∑ c in Finset.range cols, cell board r c := by
  obtain ⟨v, hv, h0, _, P, hP, hw⟩ := main_optimal_board board rows cols hc
  refine ⟨v, hv, h0, ?_⟩
  rw [← hw]
  exact weight_le_total (cell board) hP hnn

theorem board22_nonneg : ∀ r c, r < 2 → c < 2 → 0 ≤ cell [[1, 2], [3, 4]] r c := by
  intro r c hr hc
  have hr2 : r = 0 ∨ r = 1 := by omega
  have hc2 : c = 0 ∨ c = 1 := by omega
  rcases hr2 with rfl | rfl <;> rcases hc2 with rfl | rfl <;> decide

/-- A witness for `main_bounds` on the 2x2 board `[[1,2],[3,4]]`. -/
theorem main_bounds_witness :
    (1 ≤ 2 ∧ IsGrid [[1, 2], [3, 4]] 2 2 ∧
      ∀ r c, r < 2 → c < 2 → 0 ≤ cell [[1, 2], [3, 4]] r c) ∧
    ∃ v, main 2 2 [[1, 2], [3, 4]] = some v ∧ 0 ≤ v ∧
      v ≤ ∑ r in Finset.range 2, ∑ c in Finset.range 2, cell [[1, 2], [3, 4]] r c :=
  ⟨⟨by decide, by simp [IsGrid], board22_nonneg⟩,
    main_bounds [[1, 2], [3, 4]] 2 2 (by decide) (by decide) (by simp [IsGrid])
      board22_nonneg⟩

theorem dominoValue_mono (val1 val2 : Nat → Nat → Int) (h : ∀ r c, val1 r c ≤ val2 r c)
    (d : Domino) : dominoValue val1 d ≤ dominoValue val2 d := by
  rw [dominoValue_eq, dominoValue_eq]
  split
  · exact add_le_add (h _ _) (h _ _)
  · exact add_le_add (h _ _) (h _ _)

theorem weight_mono (val1 val2 : Nat → Nat → Int) (h : ∀ r c, val1 r c ≤ val2 r c)
    (P : Finset Domino) : weight val1 P ≤ weight val2 P :=
  Finset.sum_le_sum fun d _ => dominoValue_mono val1 val2 h d

/-- With exact integers: if two grids of the same dimensions (`rows ≥ 1`, `cols ≥ 1`) agree on
every cell
except one, where the second holds a strictly larger value, then the engine's output on the
second grid is at least its output on the first. -/
theorem main_monotone (G G2 : List (List Int)) (rows cols : Nat)
    (_hr : 1 ≤ rows) (hc : 1 ≤ cols) (_hg : IsGrid G rows cols) (_hg2 : IsGrid G2 rows cols)
    (r0 c0 : Nat) (_hr0 : r0 < rows) (_hc0 : c0 < cols)
    (hlt : cell G r0 c0 < cell G2 r0 c0)
    (hsame : ∀ r c, r < rows → c < cols → (r, c) ≠ (r0, c0) → cell G2 r c = cell G r c) :
    ∃ v v2, main cols rows G = some v ∧ main cols rows G2 = some v2 ∧ v ≤ v2 := by
  obtain ⟨v, hv, _, _, P, hP, hw⟩ := main_optimal_board G rows cols hc
  obtain ⟨v2, hv2, _, hub2, _⟩ := main_optimal_board G2 rows cols hc
  refine ⟨v, v2, hv, hv2, ?_⟩
  rw [← hw]
  refine le_trans ?_ (hub2 P hP)
  unfold weight
  apply Finset.sum_le_sum
  intro d hd
  rw [dominoValue_eq_sum _ (hP.1 d hd), dominoValue_eq_sum _ (hP.1 d hd)]
  apply Finset.sum_le_sum
  intro x hx
  have hin := hP.1 d hd x (List.mem_toFinset.1 hx)
  by_cases hx0 : x = (r0, c0)
  · rw [hx0]; exact le_of_lt hlt
  · exact le_of_eq (hsame x.1 x.2 hin.1 hin.2 hx0).symm

/-- A witness for `main_monotone`: the boards `[[1,2],[3,4]]` and `[[1,2],[3,9]]`. -/
theorem main_monotone_witness :
    (1 ≤ 2 ∧ IsGrid [[1, 2], [3, 4]] 2 2 ∧ IsGrid [[1, 2], [3, 9]] 2 2 ∧
      cell [[1, 2], [3, 4]] 1 1 < cell [[1, 2], [3, 9]] 1 1) ∧
    ∃ v v2, main 2 2 [[1, 2], [3, 4]] = some v ∧ main 2 2 [[1, 2], [3, 9]] = some v2 ∧
      v ≤ v2 :=
  ⟨⟨by decide, by simp [IsGrid], by simp [IsGrid], by decide⟩,
    main_monotone [[1, 2], [3, 4]] [[1, 2], [3, 9]] 2 2 (by decide) (by decide)
      (by simp [IsGrid]) (by simp [IsGrid]) 1 1 (by decide) (by decide) (by decide)
      (by
        intro r c hr hc hne
        have hr2 : r = 0 ∨ r = 1 := by omega
        have hc2 : c = 0 ∨ c = 1 := by omega
        rcases hr2 with rfl | rfl <;> rcases hc2 with rfl | rfl <;>
          first
            | rfl
            | exact absurd rfl hne)⟩

/-- C10: on every 1x1 grid the engine's output is 0, whatever the value of its cell. -/
theorem main_one_by_one (board : List (List Int)) (_hg : IsGrid board 1 1) :
    main 1 1 board = some 0 := by
  obtain ⟨v, hv, _, _, P, hP, hw⟩ := main_optimal_board board 1 1 (le_refl 1)
  have hP0 : P = ∅ := by
    apply Finset.eq_empty_of_forall_not_mem
    intro d hd
    have := (inGrid_iff 1 1 d).1 (hP.1 d hd)
    omega
  rw [hP0, weight_empty] at hw
  rw [hv, hw]

/-- A witness for `main_one_by_one`: the board with the single negative cell `-5`. -/
theorem main_one_by_one_witness : IsGrid [[-5]] 1 1 ∧ main 1 1 [[-5]] = some 0 :=
  ⟨by simp [IsGrid], main_one_by_one [[-5]] (by simp [IsGrid])⟩

/-! ## A single row -/

theorem single_row_domino {k : Nat} {d : Domino} (h : d.InGrid 1 k) :
    d = ⟨0, d.col, true⟩ ∧ d.col + 1 < k := by
  rcases (inGrid_iff 1 k d).1 h with ⟨h1, h2, h3⟩ | ⟨_, h2, _⟩
  · refine ⟨?_, h3⟩
    cases d with
    | mk r c hz =>
      simp only at h1 h2
      subst h1
      have : r = 0 := by omega
      subst this
      rfl
  · omega

theorem valid_singleton (n C : Nat) (e : Domino) (he : e.InGrid n C) : Valid n C {e} := by
  constructor
  · intro d hd
    rw [Finset.mem_singleton.1 hd]; exact he
  · intro d hd f hf hne
    rw [Finset.mem_singleton.1 hd, Finset.mem_singleton.1 hf] at hne
    exact absurd rfl hne

theorem weight_singleton (val : Nat → Nat → Int) (e : Domino) :
    weight val {e} = dominoValue val e := by
  simp [weight]

theorem valid_erase {n C : Nat} {P : Finset Domino} (hP : Valid n C P) (e : Domino) :
    (∀ d ∈ P.erase e, d.InGrid n C) ∧
    (∀ d ∈ P.erase e, ∀ f ∈ P.erase e, d ≠ f → ∀ x ∈ d.cells, x ∉ f.cells) :=
  ⟨fun d hd => hP.1 d (Finset.mem_of_mem_erase hd),
    fun d hd f hf => hP.2 d (Finset.mem_of_mem_erase hd) f (Finset.mem_of_mem_erase hf)⟩

theorem single_row_empty (val : Nat → Nat → Int) (k : Nat) (hk : k ≤ 1) :
    (∀ P, Valid 1 k P → weight val P ≤ 0) ∧ ∃ P, Valid 1 k P ∧ weight val P = 0 := by
  refine ⟨fun P hP => ?_, ∅, valid_empty 1 k, weight_empty val⟩
  have hP0 : P = ∅ := by
    apply Finset.eq_empty_of_forall_not_mem
    intro d hd
    have := (single_row_domino (hP.1 d hd)).2
    omega
  rw [hP0, weight_empty]

theorem single_row_step (val : Nat → Nat → Int) (k : Nat) (f0 f1 : Int)
    (h0 : (∀ P, Valid 1 k P → weight val P ≤ f0) ∧ ∃ P, Valid 1 k P ∧ weight val P = f0)
    (h1 : (∀ P, Valid 1 (k + 1) P → weight val P ≤ f1) ∧
      ∃ P, Valid 1 (k + 1) P ∧ weight val P = f1) :
    (∀ P, Valid 1 (k + 2) P → weight val P ≤ max f1 (f0 + val 0 k + val 0 (k + 1))) ∧
    ∃ P, Valid 1 (k + 2) P ∧ weight val P = max f1 (f0 + val 0 k + val 0 (k + 1)) := by
  have hval : dominoValue val ⟨0, k, true⟩ = val 0 k + val 0 (k + 1) := by
    rw [dominoValue_eq]; rfl
  constructor
  · intro P hP
    by_cases he : (⟨0, k, true⟩ : Domino) ∈ P
    · have hP2 : Valid 1 k (P.erase ⟨0, k, true⟩) := by
        refine ⟨fun d hd => ?_, (valid_erase hP _).2⟩
        have hdP := Finset.mem_of_mem_erase hd
        have hne := Finset.ne_of_mem_erase hd
        obtain ⟨hd1, hd2⟩ := single_row_domino (hP.1 d hdP)
        have hck : d.col ≠ k := by
          intro e; apply hne; rw [hd1, e]
        have hck1 : d.col + 1 ≠ k := by
          intro e
          refine hP.2 d hdP _ he hne (0, k) ?_ ((mem_cells _ _).2 (Or.inl rfl))
          rw [hd1, ← e]
          exact (mem_cells _ _).2 (Or.inr (Or.inl ⟨rfl, rfl⟩))
        rw [inGrid_iff]
        refine Or.inl ⟨by rw [hd1], by rw [hd1]; exact Nat.zero_lt_one, by omega⟩
      have hw : weight val P = dominoValue val ⟨0, k, true⟩
          + weight val (P.erase ⟨0, k, true⟩) := by
        unfold weight
        rw [Finset.add_sum_erase P _ he]
      rw [hw, hval]
      have := h0.1 _ hP2
      exact le_trans (by omega) (le_max_right _ _)
    · have hP2 : Valid 1 (k + 1) P := by
        refine ⟨fun d hd => ?_, hP.2⟩
        obtain ⟨hd1, hd2⟩ := single_row_domino (hP.1 d hd)
        have hck : d.col ≠ k := by
          intro e; apply he; rw [← e, ← hd1]; exact hd
        rw [inGrid_iff]
        refine Or.inl ⟨by rw [hd1], by rw [hd1]; exact Nat.zero_lt_one, by omega⟩
      exact le_trans (h1.1 P hP2) (le_max_left _ _)
  · rcases max_cases f1 (f0 + val 0 k + val 0 (k + 1)) with ⟨e, _⟩ | ⟨e, _⟩
    · obtain ⟨P, hP, hw⟩ := h1.2
      refine ⟨P, ⟨fun d hd => ?_, hP.2⟩, by rw [e, hw]⟩
      obtain ⟨hd1, hd2⟩ := single_row_domino (hP.1 d hd)
      rw [inGrid_iff]
      refine Or.inl ⟨by rw [hd1], by rw [hd1]; exact Nat.zero_lt_one, by omega⟩
    · obtain ⟨P, hP, hw⟩ := h0.2
      have hPwide : Valid 1 (k + 2) P := by
        refine ⟨fun d hd => ?_, hP.2⟩
        obtain ⟨hd1, hd2⟩ := single_row_domino (hP.1 d hd)
        rw [inGrid_iff]
        refine Or.inl ⟨by rw [hd1], by rw [hd1]; exact Nat.zero_lt_one, by omega⟩
      have hein : (⟨0, k, true⟩ : Domino).InGrid 1 (k + 2) := by
        rw [inGrid_iff]
        exact Or.inl ⟨rfl, Nat.zero_lt_one, by simp only; omega⟩
      have hcross : ∀ d ∈ P, ∀ f ∈ ({⟨0, k, true⟩} : Finset Domino),
          ∀ x ∈ d.cells, x ∉ f.cells := by
        intro d hd f hf x hxd hxf
        rw [Finset.mem_singleton.1 hf] at hxf
        have hx2 := (hP.1 d hd x hxd).2
        rcases (mem_cells _ x).1 hxf with rfl | ⟨_, rfl⟩ | ⟨h4, _⟩
        · simp only at hx2; omega
        · simp only at hx2; omega
        · exact absurd h4 (by simp)
      refine ⟨P ∪ {⟨0, k, true⟩}, valid_union hPwide (valid_singleton _ _ _ hein) hcross, ?_⟩
      rw [weight_union val hcross, weight_singleton, hval, hw, e]
      ring

theorem single_row_opt (val : Nat → Nat → Int) :
    ∀ k, ((∀ P, Valid 1 k P → weight val P ≤ pairRecurrence (fun j => val 0 j) k) ∧
        ∃ P, Valid 1 k P ∧ weight val P = pairRecurrence (fun j => val 0 j) k) ∧
      ((∀ P, Valid 1 (k + 1) P → weight val P ≤ pairRecurrence (fun j => val 0 j) (k + 1)) ∧
        ∃ P, Valid 1 (k + 1) P ∧ weight val P = pairRecurrence (fun j => val 0 j) (k + 1)) := by
  intro k
  induction k with
  | zero =>
    exact ⟨single_row_empty val 0 (by decide), single_row_empty val 1 (le_refl 1)⟩
  | succ k ih =>
    refine ⟨ih.2, ?_⟩
    have := single_row_step val k _ _ ih.1 ih.2
    exact this

/-- With exact integers: on a grid with exactly one row and `cols ≥ 1` columns holding
`a[0..cols-1]`, the
engine's output is `f(cols)` for the recurrence `f 0 = f 1 = 0`,
`f k = max (f (k-1)) (f (k-2) + a[k-2] + a[k-1])`. -/
theorem main_single_row (board : List (List Int)) (cols : Nat) (hc : 1 ≤ cols)
    (_hg : IsGrid board 1 cols) :
    main cols 1 board = some (pairRecurrence (fun k => cell board 0 k) cols) := by
  obtain ⟨v, hv, _, hub, P, hP, hw⟩ := main_optimal_board board 1 cols hc
  obtain ⟨⟨hle, Q, hQ, hwQ⟩, _⟩ := single_row_opt (cell board) cols
  rw [hv]
  congr 1
  apply le_antisymm
  · rw [← hw]; exact hle P hP
  · rw [← hwQ]; exact hub Q hQ

/-- A witness for `main_single_row`: the row `[3, -1, 4, 1, -5]`. -/
theorem main_single_row_witness :
    (1 ≤ 5 ∧ IsGrid [[3, -1, 4, 1, -5]] 1 5) ∧
    main 5 1 [[3, -1, 4, 1, -5]]
      = some (pairRecurrence (fun k => cell [[3, -1, 4, 1, -5]] 0 k) 5) :=
  ⟨⟨by decide, by simp [IsGrid]⟩,
    main_single_row [[3, -1, 4, 1, -5]] 5 (by decide) (by simp [IsGrid])⟩

/-! ## The 2x2 golden scenario -/

theorem matchingVerticalMasks_two :
    generateMatchingVerticalMasks 2 = [[0, 3], [0], [0], [0]] := by
  simp [generateMatchingVerticalMasks, generateVerticalBlocks, List.range, List.range.loop]

theorem main_board22 : main 2 2 [[1, 2], [3, 4]] = some 10 := by
  unfold main
  rw [matchingVerticalMasks_two]
  decide

/-- C9: on the 2x2 grid `[[1,2],[3,4]]` the engine's output equals the result of the
brute-force enumeration, which is 10; 10 is the greatest covered sum of a valid placement
and is reached by covering all four cells with the two horizontal dominoes. -/
theorem main_two_by_two :
    main 2 2 [[1, 2], [3, 4]] = some (bruteForce [[1, 2], [3, 4]] 2 2) ∧
    bruteForce [[1, 2], [3, 4]] 2 2 = 10 ∧
    IsGreatest {w | ∃ P : Finset Domino, Valid 2 2 P ∧
      weight (cell [[1, 2], [3, 4]]) P = w} 10 ∧
    weight (cell [[1, 2], [3, 4]]) {⟨0, 0, true⟩, ⟨1, 0, true⟩} = 10 := by
  have hb : bruteForce [[1, 2], [3, 4]] 2 2 = 10 := by decide
  refine ⟨by rw [hb]; exact main_board22, hb, ?_, by decide⟩
  obtain ⟨v, hv, _, hub, P, hP, hw⟩ := main_optimal_board [[1, 2], [3, 4]] 2 2 (by decide)
  rw [main_board22] at hv
  have hv10 : v = 10 := (Option.some.inj hv).symm
  subst hv10
  exact ⟨⟨P, hP, hw⟩, fun w ⟨Q, hQ, hwQ⟩ => hwQ ▸ hub Q hQ⟩

/-! ## Counting the vertical masks -/

theorem generateVerticalBlocks_length (n : Nat) :
    ∀ (k cur : Nat) (res : List Nat) (idx : Nat), n - idx ≤ k →
      (generateVerticalBlocks 0 cur res idx n).length
        = res.length + Nat.fib (n - idx + 1) := by
  intro k
  induction k with
  | zero =>
    intro cur res idx hk
    rw [generateVerticalBlocks]
    have h : (idx : Int) ≥ (n : Int) - 1 := by omega
    have e : n - idx = 0 := by omega
    simp [h, e]
  | succ k ih =>
    intro cur res idx hk
    rw [generateVerticalBlocks]
    by_cases h : (idx : Int) ≥ (n : Int) - 1
    · have e : n - idx = 0 ∨ n - idx = 1 := by omega
      rcases e with e | e <;> simp [h, e]
    · simp only [h, if_false, Nat.zero_and, and_self, if_true]
      rw [ih _ _ (idx + 2) (by omega), ih _ _ (idx + 1) (by omega)]
      have e1 : n - (idx + 2) + 1 = (n - idx - 2) + 1 := by omega
      have e2 : n - (idx + 1) + 1 = (n - idx - 2) + 2 := by omega
      have e3 : n - idx + 1 = (n - idx - 2) + 3 := by omega
      rw [e1, e2, e3, Nat.fib_add_two (n := n - idx - 2 + 1), Nat.add_assoc]
      congr 1
      rw [Nat.add_comm]

theorem generateVerticalBlocks_nodup (base n : Nat) :
    ∀ (k cur idx : Nat), n - idx ≤ k → (∀ i, i < n - idx → cur.testBit i = false) →
      (generateVerticalBlocks base cur [] idx n).Nodup := by
  intro k
  induction k with
  | zero =>
    intro cur idx hk _
    rw [generateVerticalBlocks]
    have h : (idx : Int) ≥ (n : Int) - 1 := by omega
    simp [h]
  | succ k ih =>
    intro cur idx hk hcur
    by_cases h : (idx : Int) ≥ (n : Int) - 1
    · rw [generateVerticalBlocks]
      simp [h]
    · rw [generateVerticalBlocks]
      simp only [h, if_false]
      split
      · rw [generateVerticalBlocks_append base n (n - (idx + 2)) _ _ _ (le_refl _)]
        rw [List.nodup_append]
        refine ⟨ih cur (idx + 1) (by omega) (fun i hi => hcur i (by omega)), ?_, ?_⟩
        · apply ih _ (idx + 2) (by omega)
          intro i hi
          rw [testBit_or_one_shiftLeft, testBit_or_one_shiftLeft, hcur i (by omega)]
          have h1 : ¬ n - idx - 1 = i := by omega
          have h2 : ¬ n - idx - 2 = i := by omega
          simp [h1, h2]
        · intro m hm1 hm2
          rw [generateVerticalBlocks_mem base n (n - (idx + 1)) cur (idx + 1) m (le_refl _)]
            at hm1
          rw [generateVerticalBlocks_mem base n (n - (idx + 2)) _ (idx + 2) m (le_refl _)]
            at hm2
          obtain ⟨S1, hS1, hb1⟩ := hm1
          obtain ⟨S2, _, hb2⟩ := hm2
          have ht : m.testBit (n - idx - 1) = true := by
            rw [hb2]
            left
            rw [testBit_or_one_shiftLeft, testBit_or_one_shiftLeft]
            simp
          rcases (hb1 _).1 ht with hc | ⟨b, hb, hbi⟩
          · rw [hcur _ (by omega)] at hc
            exact Bool.false_ne_true hc
          · have := (hS1.1 b hb).1
            omega
      · exact ih cur (idx + 1) (by omega) (fun i hi => hcur i (by omega))

/-- C19: for `baseMask < 2^rows` the list produced by
`generateVerticalBlocks(baseMask, 0, results, 0, rows)` contains no mask twice, and for
`baseMask = 0` its length is the Fibonacci number `F(rows+1)`, where `F(1) = F(2) = 1`. -/
theorem generateVerticalBlocks_nodup_fib (rows baseMask : Nat) (_hb : baseMask < 2 ^ rows) :
    (generateVerticalBlocks baseMask 0 [] 0 rows).Nodup ∧
    (generateVerticalBlocks 0 0 [] 0 rows).length = Nat.fib (rows + 1) ∧
    Nat.fib 1 = 1 ∧ Nat.fib 2 = 1 := by
  refine ⟨generateVerticalBlocks_nodup baseMask rows (rows - 0) 0 0 (le_refl _)
    (fun i _ => Nat.zero_testBit i), ?_, rfl, rfl⟩
  rw [generateVerticalBlocks_length rows (rows - 0) 0 [] 0 (le_refl _)]
  simp

/-- A witness for `generateVerticalBlocks_nodup_fib`: four rows, base mask `4`. -/
theorem generateVerticalBlocks_nodup_fib_witness :
    4 < 2 ^ 4 ∧
    ((generateVerticalBlocks 4 0 [] 0 4).Nodup ∧
      (generateVerticalBlocks 0 0 [] 0 4).length = Nat.fib (4 + 1) ∧
      Nat.fib 1 = 1 ∧ Nat.fib 2 = 1) :=
  ⟨by decide, generateVerticalBlocks_nodup_fib 4 4 (by decide)⟩

/-! ## Frame and monotonicity of the sweep -/

theorem main_eq_sweepTable (board : List (List Int)) (numRows numColumns : Nat) :
    main numColumns numRows board
      = (computeHorizontalBlockSum board numRows numColumns).map fun hbs =>
          (List.range (1 <<< numRows)).foldl (fun overallMax mask =>
            max overallMax
              (get2 (sweepTable board numRows numColumns hbs numColumns) mask
                (numColumns - 1))) 0 := by
  unfold main sweepTable
  cases computeHorizontalBlockSum board numRows numColumns <;> rfl

theorem sweepTable_succ (board : List (List Int)) (n C : Nat) (hbs : List (List Int))
    (k : Nat) :
    sweepTable board n C hbs (k + 1)
      = sweepStep board n C hbs (generateMatchingVerticalMasks n)
          (generateMatchingHorizontalMasks n) (sweepTable board n C hbs k) k := by
  unfold sweepTable
  rw [foldl_range_succ]

theorem sweepStep_eq_relaxAll (board : List (List Int)) (n C : Nat) (hbs : List (List Int))
    (dp : List (List Int)) (col : Nat) :
    sweepStep board n C hbs (generateMatchingVerticalMasks n)
        (generateMatchingHorizontalMasks n) dp col
      = relaxAll dp (verticalSteps board n (generateMatchingVerticalMasks n) col ++
          (if col < C - 1 then
            horizontalSteps n hbs (generateMatchingHorizontalMasks n) col else [])) := by
  unfold sweepStep
  simp only [verticalPhase_eq, horizontalPhase_eq]
  by_cases h : col < C - 1
  · rw [if_pos h, if_pos h, relaxAll_append]
  · rw [if_neg h, if_neg h, List.append_nil]

theorem sweepStep_steps_range (board : List (List Int)) (n C : Nat) (hbs : List (List Int))
    (col : Nat) (hcol : col < C) :
    ∀ s ∈ verticalSteps board n (generateMatchingVerticalMasks n) col ++
        (if col < C - 1 then
          horizontalSteps n hbs (generateMatchingHorizontalMasks n) col else []),
      s.tgt < 2 ^ n ∧ s.ct < C := by
  intro s hs
  rcases List.mem_append.1 hs with hs | hs
  · exact verticalSteps_range board n C col hcol s hs
  · by_cases h : col < C - 1
    · rw [if_pos h] at hs
      exact horizontalSteps_range n hbs C col (by omega) s hs
    · rw [if_neg h] at hs
      exact absurd hs (List.not_mem_nil _)

theorem dims_sweepTable (board : List (List Int)) (n C : Nat) (hbs : List (List Int)) :
    ∀ k, Dims (sweepTable board n C hbs k) (2 ^ n) C := by
  intro k
  induction k with
  | zero =>
    unfold sweepTable
    rw [one_shiftLeft_eq]
    exact dims_replicate _ _
  | succ k ih =>
    rw [sweepTable_succ, sweepStep_eq_relaxAll]
    exact dims_relaxAll _ _ ih

theorem verticalPhase_frame (board : List (List Int)) (n C col : Nat) (hcol : col < C)
    (dp : List (List Int)) (hd : Dims dp (2 ^ n) C) (mask c : Nat) (hc : c ≠ col) :
    get2 (verticalPhase board n (generateMatchingVerticalMasks n) col dp) mask c
      = get2 dp mask c := by
  rw [verticalPhase_eq]
  apply relaxAll_frame _ mask c dp hd (verticalSteps_range board n C col hcol)
  intro s hs
  obtain ⟨h, v, _, _, _, rfl⟩ := (mem_verticalSteps board n col s).1 hs
  exact fun e => hc e.2

theorem horizontalPhase_frame (n C col : Nat) (hcol : col + 1 < C)
    (hbs dp : List (List Int)) (hd : Dims dp (2 ^ n) C) (mask c : Nat) (hc : c ≠ col + 1) :
    get2 (horizontalPhase n hbs (generateMatchingHorizontalMasks n) col dp) mask c
      = get2 dp mask c := by
  rw [horizontalPhase_eq]
  apply relaxAll_frame _ mask c dp hd (horizontalSteps_range n hbs C col hcol)
  intro s hs
  obtain ⟨h, m, _, _, _, rfl⟩ := (mem_horizontalSteps n hbs col s).1 hs
  exact fun e => hc e.2

theorem dims_verticalPhase (board : List (List Int)) (n C col : Nat)
    (dp : List (List Int)) (hd : Dims dp (2 ^ n) C) :
    Dims (verticalPhase board n (generateMatchingVerticalMasks n) col dp) (2 ^ n) C := by
  rw [verticalPhase_eq]
  exact dims_relaxAll _ _ hd

theorem dims_horizontalPhase (n C col : Nat) (hbs dp : List (List Int))
    (hd : Dims dp (2 ^ n) C) :
    Dims (horizontalPhase n hbs (generateMatchingHorizontalMasks n) col dp) (2 ^ n) C := by
  rw [horizontalPhase_eq]
  exact dims_relaxAll _ _ hd

theorem sweepStep_frame (board : List (List Int)) (n C col : Nat) (hcol : col < C)
    (hbs dp : List (List Int)) (hd : Dims dp (2 ^ n) C) (mask c : Nat)
    (hc : c ≠ col) (hc1 : c ≠ col + 1) :
    get2 (sweepStep board n C hbs (generateMatchingVerticalMasks n)
        (generateMatchingHorizontalMasks n) dp col) mask c = get2 dp mask c := by
  unfold sweepStep
  by_cases h : col < C - 1
  · simp only [if_pos h]
    rw [horizontalPhase_frame n C col (by omega) hbs _ (dims_verticalPhase board n C col dp hd)
      mask c hc1, verticalPhase_frame board n C col hcol dp hd mask c hc]
  · simp only [if_neg h]
    exact verticalPhase_frame board n C col hcol dp hd mask c hc

theorem sweepTable_stable (board : List (List Int)) (n C : Nat) (hbs : List (List Int))
    (mask c : Nat) :
    ∀ k, c < k → k ≤ C →
      get2 (sweepTable board n C hbs k) mask c
        = get2 (sweepTable board n C hbs (c + 1)) mask c := by
  intro k
  induction k with
  | zero => intro h; exact absurd h (Nat.not_lt_zero _)
  | succ k ih =>
    intro hck hkC
    by_cases hk : c = k
    · subst hk; rfl
    · rw [sweepTable_succ, sweepStep_frame board n C k (by omega) hbs _
        (dims_sweepTable board n C hbs k) mask c hk (by omega)]
      exact ih (by omega) (by omega)

/-- C17: in the sweep over a `2^rows × cols` table, the vertical phase of column `col` changes
only entries of column `col`, the horizontal phase only entries of column `col + 1`; every
entry `dp[mask][c]` with `c < col` or `c > col + 1` is left unchanged by the iteration, the
table keeps its shape, and once the sweep has moved past column `c` the entries of that
column keep their value until the end. -/
theorem sweep_frame (board : List (List Int)) (rows cols col : Nat) (hcol : col < cols)
    (hbs dp : List (List Int)) (hd : Dims dp (2 ^ rows) cols) :
    (∀ mask c, c ≠ col →
      get2 (verticalPhase board rows (generateMatchingVerticalMasks rows) col dp) mask c
        = get2 dp mask c) ∧
    (col < cols - 1 → ∀ mask c, c ≠ col + 1 →
      get2 (horizontalPhase rows hbs (generateMatchingHorizontalMasks rows) col dp) mask c
        = get2 dp mask c) ∧
    (∀ mask c, c < col ∨ col + 1 < c →
      get2 (sweepStep board rows cols hbs (generateMatchingVerticalMasks rows)
        (generateMatchingHorizontalMasks rows) dp col) mask c = get2 dp mask c) ∧
    Dims (sweepStep board rows cols hbs (generateMatchingVerticalMasks rows)
      (generateMatchingHorizontalMasks rows) dp col) (2 ^ rows) cols ∧
    (∀ mask k, col < k → k ≤ cols →
      get2 (sweepTable board rows cols hbs k) mask col
        = get2 (sweepTable board rows cols hbs (col + 1)) mask col) := by
  refine ⟨fun mask c hc => verticalPhase_frame board rows cols col hcol dp hd mask c hc,
    fun hlast mask c hc =>
      horizontalPhase_frame rows cols col (by omega) hbs dp hd mask c hc,
    fun mask c hc => sweepStep_frame board rows cols col hcol hbs dp hd mask c
      (by omega) (by omega), ?_,
    fun mask k h1 h2 => sweepTable_stable board rows cols hbs mask col k h1 h2⟩
  rw [sweepStep_eq_relaxAll]
  exact dims_relaxAll _ _ hd

/-- A witness for `sweep_frame`: the 2x2 board `[[1,2],[3,4]]`, column 0, the all-zero
table. -/
theorem sweep_frame_witness :
    (0 < 2 ∧ Dims [[0, 0], [0, 0], [0, 0], [0, 0]] (2 ^ 2) 2) ∧
    ((∀ mask c, c ≠ 0 →
      get2 (verticalPhase [[1, 2], [3, 4]] 2 (generateMatchingVerticalMasks 2) 0
        [[0, 0], [0, 0], [0, 0], [0, 0]]) mask c
        = get2 [[0, 0], [0, 0], [0, 0], [0, 0]] mask c) ∧
    (0 < 2 - 1 → ∀ mask c, c ≠ 0 + 1 →
      get2 (horizontalPhase 2 [[0], [7], [3], [10]] (generateMatchingHorizontalMasks 2) 0
        [[0, 0], [0, 0], [0, 0], [0, 0]]) mask c
        = get2 [[0, 0], [0, 0], [0, 0], [0, 0]] mask c) ∧
    (∀ mask c, c < 0 ∨ 0 + 1 < c →
      get2 (sweepStep [[1, 2], [3, 4]] 2 2 [[0], [7], [3], [10]]
        (generateMatchingVerticalMasks 2) (generateMatchingHorizontalMasks 2)
        [[0, 0], [0, 0], [0, 0], [0, 0]] 0) mask c
        = get2 [[0, 0], [0, 0], [0, 0], [0, 0]] mask c) ∧
    Dims (sweepStep [[1, 2], [3, 4]] 2 2 [[0], [7], [3], [10]]
      (generateMatchingVerticalMasks 2) (generateMatchingHorizontalMasks 2)
      [[0, 0], [0, 0], [0, 0], [0, 0]] 0) (2 ^ 2) 2 ∧
    (∀ mask k, 0 < k → k ≤ 2 →
      get2 (sweepTable [[1, 2], [3, 4]] 2 2 [[0], [7], [3], [10]] k) mask 0
        = get2 (sweepTable [[1, 2], [3, 4]] 2 2 [[0], [7], [3], [10]] (0 + 1)) mask 0)) :=
  ⟨⟨by decide, by simp [Dims]⟩,
    sweep_frame [[1, 2], [3, 4]] 2 2 0 (by decide) [[0], [7], [3], [10]]
      [[0, 0], [0, 0], [0, 0], [0, 0]] (by simp [Dims])⟩

theorem relaxAll_flatMap {α : Type} (g : α → List Step) (l : List α) (t : List (List Int)) :
    relaxAll t (l.flatMap g) = l.foldl (fun t x => relaxAll t (g x)) t := by
  unfold relaxAll
  exact foldl_flatMap_eq relax g l t

theorem sweepTable_eq_relaxAll (board : List (List Int)) (n C : Nat)
    (hbs : List (List Int)) :
    sweepTable board n C hbs C
      = relaxAll (List.replicate (1 <<< n) (List.replicate C (0 : Int)))
          (sweepSteps board n C hbs) := by
  unfold sweepTable sweepSteps
  rw [relaxAll_flatMap]
  congr 1
  funext dp col
  exact sweepStep_eq_relaxAll board n C hbs dp col

theorem sweepSteps_range (board : List (List Int)) (n C : Nat) (hbs : List (List Int)) :
    ∀ s ∈ sweepSteps board n C hbs, s.tgt < 2 ^ n ∧ s.ct < C := by
  intro s hs
  unfold sweepSteps at hs
  obtain ⟨col, hcol, hs⟩ := List.mem_flatMap.1 hs
  exact sweepStep_steps_range board n C hbs col (List.mem_range.1 hcol) s hs

theorem dims_tableAfter (board : List (List Int)) (n C : Nat) (hbs : List (List Int))
    (k : Nat) : Dims (tableAfter board n C hbs k) (2 ^ n) C := by
  unfold tableAfter
  apply dims_relaxAll
  rw [one_shiftLeft_eq]
  exact dims_replicate _ _

theorem tableAfter_nonneg (board : List (List Int)) (n C : Nat) (hbs : List (List Int))
    (k mask col : Nat) : 0 ≤ get2 (tableAfter board n C hbs k) mask col := by
  unfold tableAfter
  have h := relaxAll_mono (m := 2 ^ n) (n := C)
    ((sweepSteps board n C hbs).take k)
    (List.replicate (1 <<< n) (List.replicate C (0 : Int)))
    (by rw [one_shiftLeft_eq]; exact dims_replicate _ _)
    (fun s hs => sweepSteps_range board n C hbs s (List.mem_of_mem_take hs)) mask col
  rw [get2_replicate] at h
  exact h

theorem tableAfter_succ (board : List (List Int)) (n C : Nat) (hbs : List (List Int))
    (k : Nat) (s : Step) (hs : (sweepSteps board n C hbs)[k]? = some s) :
    tableAfter board n C hbs (k + 1) = relax (tableAfter board n C hbs k) s := by
  unfold tableAfter
  rw [List.take_succ, hs, relaxAll_append]
  rfl

theorem tableAfter_mono (board : List (List Int)) (n C : Nat) (hbs : List (List Int))
    (k mask col : Nat) :
    get2 (tableAfter board n C hbs k) mask col
      ≤ get2 (tableAfter board n C hbs (k + 1)) mask col := by
  cases hs : (sweepSteps board n C hbs)[k]? with
  | none =>
    unfold tableAfter
    rw [List.take_succ, hs]
    simp
  | some s =>
    rw [tableAfter_succ board n C hbs k s hs]
    have hmem : s ∈ sweepSteps board n C hbs := List.getElem?_mem hs
    have hr := sweepSteps_range board n C hbs s hmem
    exact relax_mono (dims_tableAfter board n C hbs k) s hr.1 hr.2 mask col

theorem tableAfter_length (board : List (List Int)) (n C : Nat) (hbs : List (List Int)) :
    tableAfter board n C hbs (sweepSteps board n C hbs).length
      = sweepTable board n C hbs C := by
  rw [sweepTable_eq_relaxAll]
  unfold tableAfter
  rw [List.take_length]

/-- C15: for a grid with `rows ≥ 1` and `cols ≥ 1`, the DP table of the sweep, looked at after
any number `k` of its updates, has only entries `≥ 0`; every update (of the vertical or of the
horizontal phase) is one `dp[tgt][ct] = max(dp[tgt][ct], dp[src][cs] + w)` and leaves every
entry of the table at least as large as it was; the table after all updates is the table
`main` reads its answer from. -/
theorem sweep_invariant (board : List (List Int)) (rows cols : Nat)
    (_hr : 1 ≤ rows) (hc : 1 ≤ cols) (_hg : IsGrid board rows cols) :
    ∃ hbs, computeHorizontalBlockSum board rows cols = some hbs ∧
      tableAfter board rows cols hbs 0
        = List.replicate (1 <<< rows) (List.replicate cols (0 : Int)) ∧
      tableAfter board rows cols hbs (sweepSteps board rows cols hbs).length
        = sweepTable board rows cols hbs cols ∧
      (∀ k mask col, 0 ≤ get2 (tableAfter board rows cols hbs k) mask col) ∧
      (∀ k s, (sweepSteps board rows cols hbs)[k]? = some s →
        tableAfter board rows cols hbs (k + 1) = relax (tableAfter board rows cols hbs k) s) ∧
      (∀ k mask col, get2 (tableAfter board rows cols hbs k) mask col
        ≤ get2 (tableAfter board rows cols hbs (k + 1)) mask col) := by
  obtain ⟨hbs, ht, _, _⟩ := computeHorizontalBlockSum_eq board rows cols hc
  exact ⟨hbs, ht, rfl, tableAfter_length board rows cols hbs,
    tableAfter_nonneg board rows cols hbs, tableAfter_succ board rows cols hbs,
    tableAfter_mono board rows cols hbs⟩

/-- A witness for `sweep_invariant` on the 2x2 board `[[1,2],[3,4]]`. -/
theorem sweep_invariant_witness :
    (1 ≤ 2 ∧ IsGrid [[1, 2], [3, 4]] 2 2) ∧
    ∃ hbs, computeHorizontalBlockSum [[1, 2], [3, 4]] 2 2 = some hbs ∧
      tableAfter [[1, 2], [3, 4]] 2 2 hbs 0
        = List.replicate (1 <<< 2) (List.replicate 2 (0 : Int)) ∧
      tableAfter [[1, 2], [3, 4]] 2 2 hbs (sweepSteps [[1, 2], [3, 4]] 2 2 hbs).length
        = sweepTable [[1, 2], [3, 4]] 2 2 hbs 2 ∧
      (∀ k mask col, 0 ≤ get2 (tableAfter [[1, 2], [3, 4]] 2 2 hbs k) mask col) ∧
      (∀ k s, (sweepSteps [[1, 2], [3, 4]] 2 2 hbs)[k]? = some s →
        tableAfter [[1, 2], [3, 4]] 2 2 hbs (k + 1)
          = relax (tableAfter [[1, 2], [3, 4]] 2 2 hbs k) s) ∧
      (∀ k mask col, get2 (tableAfter [[1, 2], [3, 4]] 2 2 hbs k) mask col
        ≤ get2 (tableAfter [[1, 2], [3, 4]] 2 2 hbs (k + 1)) mask col) :=
  ⟨⟨by decide, by simp [IsGrid]⟩,
    sweep_invariant [[1, 2], [3, 4]] 2 2 (by decide) (by decide) (by simp [IsGrid])⟩

/-! ## The in-place vertical phase -/

theorem covers_union (S0 S1 : Finset Nat) (i : Nat) :
    Covers (S0 ∪ S1) i ↔ Covers S0 i ∨ Covers S1 i := by
  unfold Covers
  constructor
  · rintro ⟨b, hb, h⟩
    rcases Finset.mem_union.1 hb with hb | hb
    · exact Or.inl ⟨b, hb, h⟩
    · exact Or.inr ⟨b, hb, h⟩
  · rintro (⟨b, hb, h⟩ | ⟨b, hb, h⟩)
    · exact ⟨b, Finset.mem_union.2 (Or.inl hb), h⟩
    · exact ⟨b, Finset.mem_union.2 (Or.inr hb), h⟩

theorem testBit_or_false {a b : Nat} {i : Nat} (h : (a ||| b).testBit i = false) :
    a.testBit i = false ∧ b.testBit i = false := by
  rw [Nat.testBit_or, Bool.or_eq_false_iff] at h
  exact h

/-- Vertical masks chain: a mask for `h0` followed by a mask for `h0 ||| v0` is again a mask
for `h0`, and the column sums add up. -/
theorem verticalBlocks_chain (n h0 v0 v1 : Nat)
    (hv0 : v0 ∈ generateVerticalBlocks h0 0 [] 0 n)
    (hv1 : v1 ∈ generateVerticalBlocks (h0 ||| v0) 0 [] 0 n) (f : Nat → Int) :
    v0 ||| v1 ∈ generateVerticalBlocks h0 0 [] 0 n ∧
    bitSum n (v0 ||| v1) f = bitSum n v0 f + bitSum n v1 f := by
  obtain ⟨S0, hS0, hb0⟩ := (mem_verticalBlocks_iff n h0 v0).1 hv0
  obtain ⟨S1, hS1, hb1⟩ := (mem_verticalBlocks_iff n (h0 ||| v0) v1).1 hv1
  have hdisj : Disjoint S0 S1 := by
    rw [Finset.disjoint_left]
    intro b h0b h1b
    have h1 := (testBit_or_false (hS1.1 b h1b).2.1).2
    rw [(hb0 b).2 ⟨b, h0b, Or.inl rfl⟩] at h1
    exact Bool.noConfusion h1
  have hS : PairSet n h0 0 (S0 ∪ S1) := by
    constructor
    · intro b hb
      rcases Finset.mem_union.1 hb with hb | hb
      · exact hS0.1 b hb
      · exact ⟨(hS1.1 b hb).1, (testBit_or_false (hS1.1 b hb).2.1).1,
          (testBit_or_false (hS1.1 b hb).2.2).1⟩
    · intro b hb hb1
      rcases Finset.mem_union.1 hb with hb | hb <;> rcases Finset.mem_union.1 hb1 with hb1 | hb1
      · exact hS0.2 b hb hb1
      · have h1 := (testBit_or_false (hS1.1 _ hb1).2.1).2
        rw [(hb0 (b + 1)).2 ⟨b, hb, Or.inr rfl⟩] at h1
        exact Bool.noConfusion h1
      · have h1 := (testBit_or_false (hS1.1 _ hb).2.2).2
        rw [(hb0 (b + 1)).2 ⟨b + 1, hb1, Or.inl rfl⟩] at h1
        exact Bool.noConfusion h1
      · exact hS1.2 b hb hb1
  have hbits : ∀ i, (v0 ||| v1).testBit i = true ↔ Covers (S0 ∪ S1) i := by
    intro i
    rw [Nat.testBit_or, Bool.or_eq_true, hb0, hb1, covers_union]
  refine ⟨(mem_verticalBlocks_iff n h0 _).2 ⟨S0 ∪ S1, hS, hbits⟩, ?_⟩
  rw [bitSum_pairs n h0 _ _ hS hbits, bitSum_pairs n h0 v0 S0 hS0 hb0,
    bitSum_pairs n (h0 ||| v0) v1 S1 hS1 hb1, Finset.sum_union hdisj]

theorem zero_mem_verticalBlocks (n h : Nat) : 0 ∈ generateVerticalBlocks h 0 [] 0 n :=
  (mem_verticalBlocks_iff n h 0).2 ⟨∅, ⟨by simp, by simp⟩, fun i => by simp [Covers]⟩

theorem verticalPhase_upper (board : List (List Int)) (n C col : Nat) (hcol : col < C)
    (dp : List (List Int)) (hd : Dims dp (2 ^ n) C) (m : Nat) (hm : m < 2 ^ n) :
    ∃ h v, h < 2 ^ n ∧ v ∈ generateVerticalBlocks h 0 [] 0 n ∧ h ||| v = m ∧
      get2 (verticalPhase board n (generateMatchingVerticalMasks n) col dp) m col
        = get2 dp h col + bitSum n v (fun b => bitValue board n b col) := by
  rw [verticalPhase_eq]
  have key := relaxAll_inv (m := 2 ^ n) (n := C)
    (fun a b x => b = col → a < 2 ^ n →
      ∃ h v, h < 2 ^ n ∧ v ∈ generateVerticalBlocks h 0 [] 0 n ∧ h ||| v = a ∧
        x = get2 dp h col + bitSum n v (fun b => bitValue board n b col))
    (verticalSteps board n (generateMatchingVerticalMasks n) col) dp hd
    (verticalSteps_range board n C col hcol) ?_ ?_ m col rfl hm
  · exact key
  · intro s hs x hx _ _
    obtain ⟨h1, v1, hlt1, _, hv1, rfl⟩ := (mem_verticalSteps board n col s).1 hs
    obtain ⟨h0, v0, hlt0, hv0, hor, hx0⟩ := hx rfl hlt1
    subst hor
    obtain ⟨hmem, hsum⟩ := verticalBlocks_chain n h0 v0 v1 hv0 hv1
      (fun b => bitValue board n b col)
    refine ⟨h0, v0 ||| v1, hlt0, hmem, (Nat.or_assoc _ _ _).symm, ?_⟩
    show x + bitSum n v1 (fun b => bitValue board n b col) = _
    rw [hx0, hsum, add_assoc]
  · intro a b hb ha
    refine ⟨a, 0, ha, zero_mem_verticalBlocks n a, Nat.or_zero a, ?_⟩
    rw [hb, bitSum_zero_mask, add_zero]

/-- With exact integers: for `rows ≥ 1`, a column `col ≥ 1` and any content of the table
before the phase, the
in-place vertical phase produces for every mask `m` the value
`max(old[m], max over (h, v) with v in generateMatchingVerticalMasks(rows)[h], h | v = m of
old[h] + verticalSum(v, col))`, where `verticalSum(v, col)` is the sum of
`board[rows-1-b][col]` over the bits `b` of `v`. -/
theorem verticalPhase_two_buffer (board : List (List Int)) (rows cols col : Nat)
    (_hr : 1 ≤ rows) (hcol1 : 1 ≤ col) (hcol : col < cols)
    (dp : List (List Int)) (hd : Dims dp (2 ^ rows) cols) (m : Nat) (hm : m < 2 ^ rows) :
    IsGreatest {x | x = get2 dp m col ∨
        ∃ h v, h < 2 ^ rows ∧ v ∈ (generateMatchingVerticalMasks rows).getD h [] ∧
          h ||| v = m ∧
          x = get2 dp h col
            + ∑ b in (Finset.range rows).filter (fun b => v.testBit b = true),
                cell board (rows - 1 - b) col}
      (get2 (verticalPhase board rows (generateMatchingVerticalMasks rows) col dp) m col) := by
  have hsum : ∀ v, (∑ b in (Finset.range rows).filter (fun b => v.testBit b = true),
      cell board (rows - 1 - b) col) = bitSum rows v (fun b => bitValue board rows b col) := by
    intro v
    unfold bitSum bitValue
    apply Finset.sum_congr rfl
    intro b _
    rw [Nat.sub_right_comm]
  constructor
  · obtain ⟨h, v, hlt, hv, hor, hx⟩ := verticalPhase_upper board rows cols col hcol dp hd m hm
    right
    refine ⟨h, v, hlt, ?_, hor, ?_⟩
    · rw [matchingVerticalMasks_getD rows h hlt]; exact hv
    · rw [hx, hsum]
  · rintro x (rfl | ⟨h, v, hlt, hv, hor, rfl⟩)
    · rw [verticalPhase_eq]
      exact relaxAll_mono _ dp hd (verticalSteps_range board rows cols col hcol) m col
    · rw [matchingVerticalMasks_getD rows h hlt] at hv
      rw [verticalPhase_eq, hsum]
      have hmem : (⟨h ||| v, col, h, col,
          bitSum rows v (fun b => bitValue board rows b col)⟩ : Step)
          ∈ verticalSteps board rows (generateMatchingVerticalMasks rows) col :=
        (mem_verticalSteps board rows col _).2 ⟨h, v, hlt, fun e => by omega, hv, rfl⟩
      have := relaxAll_lower _ dp hd (verticalSteps_range board rows cols col hcol) _ hmem
      rw [← hor]
      exact this

/-- A witness for `verticalPhase_two_buffer`: the 2x2 board `[[1,2],[3,4]]`, column 1, the
all-zero table and mask 3. -/
theorem verticalPhase_two_buffer_witness :
    (1 ≤ 2 ∧ 1 ≤ 1 ∧ 1 < 2 ∧ Dims [[0, 0], [0, 0], [0, 0], [0, 0]] (2 ^ 2) 2 ∧ 3 < 2 ^ 2) ∧
    IsGreatest {x | x = get2 [[0, 0], [0, 0], [0, 0], [0, 0]] 3 1 ∨
        ∃ h v, h < 2 ^ 2 ∧ v ∈ (generateMatchingVerticalMasks 2).getD h [] ∧
          h ||| v = 3 ∧
          x = get2 [[0, 0], [0, 0], [0, 0], [0, 0]] h 1
            + ∑ b in (Finset.range 2).filter (fun b => v.testBit b = true),
                cell [[1, 2], [3, 4]] (2 - 1 - b) 1}
      (get2 (verticalPhase [[1, 2], [3, 4]] 2 (generateMatchingVerticalMasks 2) 1
        [[0, 0], [0, 0], [0, 0], [0, 0]]) 3 1) :=
  ⟨⟨by decide, by decide, by decide, by simp [Dims], by decide⟩,
    verticalPhase_two_buffer [[1, 2], [3, 4]] 2 2 1 (by decide) (by decide) (by decide)
      [[0, 0], [0, 0], [0, 0], [0, 0]] (by simp [Dims]) 3 (by decide)⟩

/-! ## The clamp of the horizontal gain -/

theorem horizontalPhaseNoClamp_eq (numRows : Nat) (hbs : List (List Int))
    (HM : List (List Nat)) (col : Nat) (dp : List (List Int)) :
    horizontalPhaseNoClamp numRows hbs HM col dp
      = relaxAll dp (horizontalStepsNoClamp numRows hbs HM col) := by
  unfold horizontalPhaseNoClamp horizontalStepsNoClamp relaxAll
  rw [foldl_flatMap_eq]
  simp only [List.foldl_map]
  rfl

theorem mem_horizontalStepsNoClamp (n : Nat) (hbs : List (List Int)) (col : Nat) (s : Step) :
    s ∈ horizontalStepsNoClamp n hbs (generateMatchingHorizontalMasks n) col ↔
      ∃ h m, h < 2 ^ n ∧ m < 2 ^ n ∧ m &&& h = 0 ∧
        s = ⟨m, col + 1, h, col, get2 hbs m col⟩ := by
  unfold horizontalStepsNoClamp
  rw [one_shiftLeft_eq, List.mem_flatMap]
  constructor
  · rintro ⟨h, hh, hs⟩
    have hlt : h < 2 ^ n := List.mem_range.1 hh
    rw [List.mem_map] at hs
    obtain ⟨m, hm, rfl⟩ := hs
    rw [mem_matchingHorizontalMasks_iff n h m hlt] at hm
    exact ⟨h, m, hlt, hm.1, hm.2, rfl⟩
  · rintro ⟨h, m, hlt, hm, hd, rfl⟩
    refine ⟨h, List.mem_range.2 hlt, ?_⟩
    rw [List.mem_map]
    exact ⟨m, (mem_matchingHorizontalMasks_iff n h m hlt).2 ⟨hm, hd⟩, rfl⟩

theorem horizontalStepsNoClamp_range (n : Nat) (hbs : List (List Int)) (C col : Nat)
    (hcol : col + 1 < C) :
    ∀ s ∈ horizontalStepsNoClamp n hbs (generateMatchingHorizontalMasks n) col,
      s.tgt < 2 ^ n ∧ s.ct < C := by
  intro s hs
  obtain ⟨h, m, _, hm, _, rfl⟩ := (mem_horizontalStepsNoClamp n hbs col s).1 hs
  exact ⟨hm, hcol⟩

/-- Adding the horizontal dominoes of the mask `m` between columns `col` and `col + 1` to a
placement that is `Good` for a disjoint mask `h` at column `col`. -/
theorem good_add_horizontal (n C col : Nat) (hcol : col + 1 < C) (val : Nat → Nat → Int)
    (P : Finset Domino) (h m : Nat) (hP : Good n C P h col) (hdisj : m &&& h = 0) :
    Good n C (P ∪ horizontalDominoes n m col) m (col + 1) ∧
    weight val (P ∪ horizontalDominoes n m col)
      = weight val P + bitSum n m (fun b => val b col + val b (col + 1)) := by
  have hcross : ∀ d ∈ P, ∀ e ∈ horizontalDominoes n m col, ∀ x ∈ d.cells, x ∉ e.cells := by
    intro d hd e he x hxd hxe
    obtain ⟨e1, e2, e3⟩ := (mem_horizontalDominoes n m col e).1 he
    have hx := hP.2 d hd x hxd
    rcases (mem_cells e x).1 hxe with rfl | ⟨_, rfl⟩ | ⟨h4, _⟩
    · have := hx.2 e2
      exact (and_eq_zero_iff_testBit m h).1 hdisj _ ⟨e1.2, this⟩
    · have := hx.1
      simp only at this
      omega
    · rw [e3] at h4; exact absurd h4 (by decide)
  refine ⟨⟨valid_union hP.1 (valid_horizontalDominoes n C m col hcol) hcross, ?_⟩, ?_⟩
  · intro d hd x hx
    rcases Finset.mem_union.1 hd with hd | hd
    · have := (hP.2 d hd x hx).1
      exact ⟨by omega, fun e => by omega⟩
    · obtain ⟨e1, e2, e3⟩ := (mem_horizontalDominoes n m col d).1 hd
      rcases (mem_cells d x).1 hx with rfl | ⟨_, rfl⟩ | ⟨h4, _⟩
      · exact ⟨by simp only; omega, fun e => by simp only at e; omega⟩
      · exact ⟨by simp only; omega, fun _ => e1.2⟩
      · rw [e3] at h4; exact absurd h4 (by decide)
  · rw [weight_union _ hcross, weight_horizontalDominoes]

theorem reach_horizontal_noClamp (board : List (List Int)) (n C col : Nat)
    (hcol : col + 1 < C) (hbs : List (List Int))
    (hv : ∀ a b, get2 hbs a b = if b < C - 1 ∧ a < 2 ^ n then
        bitSum n a (fun r => bitValue board n r b + bitValue board n r (b + 1)) else 0) :
    ∀ s ∈ horizontalStepsNoClamp n hbs (generateMatchingHorizontalMasks n) col,
      ∀ v0, Reach n C (bitValue board n) s.src s.cs v0 →
        Reach n C (bitValue board n) s.tgt s.ct (v0 + s.w) := by
  intro s hs v0 hreach _ _
  obtain ⟨h, m, hlt, hm, hdisj, rfl⟩ := (mem_horizontalStepsNoClamp n hbs col s).1 hs
  obtain ⟨P, hP, hw⟩ := hreach hlt (show col < C by omega)
  have hP : Good n C P h col := hP
  show ∃ Q, Good n C Q m (col + 1) ∧ weight (bitValue board n) Q = v0 + get2 hbs m col
  obtain ⟨hg, hwt⟩ := good_add_horizontal n C col hcol (bitValue board n) P h m hP hdisj
  have hcond : col < C - 1 ∧ m < 2 ^ n := ⟨by omega, hm⟩
  exact ⟨_, hg, by rw [hwt, hw, hv, if_pos hcond]⟩

theorem sweepStepNoClamp_eq_relaxAll (board : List (List Int)) (n C : Nat)
    (hbs : List (List Int)) (dp : List (List Int)) (col : Nat) :
    sweepStepNoClamp board n C hbs (generateMatchingVerticalMasks n)
        (generateMatchingHorizontalMasks n) dp col
      = relaxAll (relaxAll dp (verticalSteps board n (generateMatchingVerticalMasks n) col))
          (if col < C - 1 then
            horizontalStepsNoClamp n hbs (generateMatchingHorizontalMasks n) col else []) := by
  unfold sweepStepNoClamp
  simp only [verticalPhase_eq, horizontalPhaseNoClamp_eq]
  by_cases h : col < C - 1
  · rw [if_pos h, if_pos h]
  · rw [if_neg h, if_neg h]; rfl

theorem sweepNoClamp_sound (board : List (List Int)) (n C : Nat) (hbs : List (List Int))
    (hv : ∀ a b, get2 hbs a b = if b < C - 1 ∧ a < 2 ^ n then
        bitSum n a (fun r => bitValue board n r b + bitValue board n r (b + 1)) else 0) :
    Dims ((List.range C).foldl (sweepStepNoClamp board n C hbs
        (generateMatchingVerticalMasks n) (generateMatchingHorizontalMasks n))
        (List.replicate (2 ^ n) (List.replicate C (0 : Int)))) (2 ^ n) C ∧
    ∀ a b, Reach n C (bitValue board n) a b
      (get2 ((List.range C).foldl (sweepStepNoClamp board n C hbs
        (generateMatchingVerticalMasks n) (generateMatchingHorizontalMasks n))
        (List.replicate (2 ^ n) (List.replicate C (0 : Int)))) a b) := by
  apply foldl_range_induction _ _ C (fun _ s => Dims s (2 ^ n) C ∧
    ∀ a b, Reach n C (bitValue board n) a b (get2 s a b))
  · refine ⟨dims_replicate _ _, fun a b => ?_⟩
    rw [get2_replicate]; exact reach_zero n C _ a b
  · rintro k s hk ⟨hd, hr⟩
    rw [sweepStepNoClamp_eq_relaxAll]
    have hd1 := dims_relaxAll (verticalSteps board n (generateMatchingVerticalMasks n) k) s hd
    have hr1 := relaxAll_inv (Reach n C (bitValue board n)) _ s hd
      (verticalSteps_range board n C k hk) (reach_vertical board n C k hk) hr
    by_cases hlast : k < C - 1
    · rw [if_pos hlast]
      have hc1 : k + 1 < C := by omega
      exact ⟨dims_relaxAll _ _ hd1, relaxAll_inv (Reach n C (bitValue board n)) _ _ hd1
        (horizontalStepsNoClamp_range n hbs C k hc1)
        (reach_horizontal_noClamp board n C k hc1 hbs hv) hr1⟩
    · rw [if_neg hlast]
      exact ⟨hd1, hr1⟩

theorem sweepNoClamp_complete (board : List (List Int)) (n C : Nat) (hC : 1 ≤ C)
    (hbs : List (List Int))
    (hv : ∀ a b, get2 hbs a b = if b < C - 1 ∧ a < 2 ^ n then
        bitSum n a (fun r => bitValue board n r b + bitValue board n r (b + 1)) else 0)
    (P : Finset Domino) (hP : Valid n C P) :
    weight (bitValue board n) P ≤
      get2 ((List.range C).foldl (sweepStepNoClamp board n C hbs
        (generateMatchingVerticalMasks n) (generateMatchingHorizontalMasks n))
        (List.replicate (2 ^ n) (List.replicate C (0 : Int))))
        (inMask n P (C - 1) ||| vertMask n P (C - 1)) (C - 1) := by
  have key := foldl_range_induction
    (sweepStepNoClamp board n C hbs (generateMatchingVerticalMasks n)
      (generateMatchingHorizontalMasks n))
    (List.replicate (2 ^ n) (List.replicate C (0 : Int))) C
    (fun k s => Dims s (2 ^ n) C ∧
      (k < C → preWeight (bitValue board n) P k ≤ get2 s (inMask n P k) k) ∧
      (k = C → weight (bitValue board n) P ≤
        get2 s (inMask n P (C - 1) ||| vertMask n P (C - 1)) (C - 1)))
    ?_ ?_
  · exact key.2.2 rfl
  · refine ⟨dims_replicate _ _, fun _ => ?_, fun h => by omega⟩
    rw [get2_replicate, preWeight_zero]
  · rintro k s hk ⟨hd, hpre, _⟩
    have hpre := hpre hk
    rw [sweepStepNoClamp_eq_relaxAll]
    have hd1 := dims_relaxAll (verticalSteps board n (generateMatchingVerticalMasks n) k) s hd
    have hmemv : (⟨inMask n P k ||| vertMask n P k, k, inMask n P k, k,
        bitSum n (vertMask n P k) (fun b => bitValue board n b k)⟩ : Step)
        ∈ verticalSteps board n (generateMatchingVerticalMasks n) k :=
      (mem_verticalSteps board n k _).2 ⟨inMask n P k, vertMask n P k, inMask_lt n P k,
        fun h0 => by rw [h0, inMask_zero], vertMask_mem hP k, rfl⟩
    have hlow := relaxAll_lower _ s hd (verticalSteps_range board n C k hk) _ hmemv
    simp only at hlow
    rw [bitSum_vertMask hP k] at hlow
    by_cases hlast : k < C - 1
    · rw [if_pos hlast]
      have hk1 : k + 1 < C := by omega
      have hmemh : (⟨outMask n P k, k + 1, inMask n P k ||| vertMask n P k, k,
          get2 hbs (outMask n P k) k⟩ : Step)
          ∈ horizontalStepsNoClamp n hbs (generateMatchingHorizontalMasks n) k :=
        (mem_horizontalStepsNoClamp n hbs k _).2 ⟨_, _, Nat.or_lt_two_pow (inMask_lt n P k)
          (vertMask_lt n P k), outMask_lt n P k, outMask_disjoint hP k, rfl⟩
      have hlow2 := relaxAll_lower _ _ hd1 (horizontalStepsNoClamp_range n hbs C k hk1) _ hmemh
      simp only at hlow2
      have hcond : k < C - 1 ∧ outMask n P k < 2 ^ n := ⟨hlast, outMask_lt n P k⟩
      have hval : get2 hbs (outMask n P k) k = horizWeight (bitValue board n) P k := by
        rw [hv, if_pos hcond, bitSum_outMask hP k]
      rw [hval] at hlow2
      refine ⟨dims_relaxAll _ _ hd1, fun _ => ?_, fun h => by omega⟩
      rw [inMask_succ, preWeight_succ]
      omega
    · rw [if_neg hlast]
      refine ⟨hd1, fun h => by omega, fun _ => ?_⟩
      have hk2 : k = C - 1 := by omega
      rw [weight_eq_last hP hC, ← hk2]
      exact le_trans (by omega) hlow

/-- The engine without the clamp is optimal over placements in mask coordinates. -/
theorem mainNoClamp_optimal_bits (board : List (List Int)) (n C : Nat) (hC : 1 ≤ C) :
    ∃ v, mainNoClamp C n board = some v ∧ 0 ≤ v ∧
      (∀ P, Valid n C P → weight (bitValue board n) P ≤ v) ∧
      ∃ P, Valid n C P ∧ weight (bitValue board n) P = v := by
  obtain ⟨hbs, ht, _, hv⟩ := computeHorizontalBlockSum_eq board n C hC
  unfold mainNoClamp
  rw [ht]
  simp only [one_shiftLeft_eq]
  obtain ⟨_, hsound⟩ := sweepNoClamp_sound board n C hbs hv
  have hcomp := sweepNoClamp_complete board n C hC hbs hv
  generalize (List.range C).foldl (sweepStepNoClamp board n C hbs
    (generateMatchingVerticalMasks n) (generateMatchingHorizontalMasks n))
    (List.replicate (2 ^ n) (List.replicate C (0 : Int))) = dp at hsound hcomp
  obtain ⟨h1, h2, h3⟩ := foldl_max_spec (fun mask => get2 dp mask (C - 1)) (2 ^ n) 0
  refine ⟨_, rfl, h1, fun P hP => ?_, ?_⟩
  · exact le_trans (hcomp P hP) (h2 _ (Nat.or_lt_two_pow (inMask_lt n P _) (vertMask_lt n P _)))
  · rcases h3 with h3 | ⟨mask, hm, h3⟩
    · rw [h3]
      exact ⟨∅, valid_empty n C, weight_empty _⟩
    · rw [h3]
      obtain ⟨P, hP, hw⟩ := hsound mask (C - 1) hm (by omega)
      exact ⟨P, hP.1, hw⟩

/-- With exact integers: for every grid with `rows ≥ 1` and `cols ≥ 1`, the engine without
the non-negative
clamp of the horizontal gain returns the same output as the engine. -/
theorem clamp_redundant (board : List (List Int)) (rows cols : Nat)
    (_hr : 1 ≤ rows) (hc : 1 ≤ cols) (_hg : IsGrid board rows cols) :
    mainNoClamp cols rows board = main cols rows board := by
  obtain ⟨v, hv, _, hub, P, hP, hw⟩ := main_optimal_bits board rows cols hc
  obtain ⟨u, hu, _, hub2, Q, hQ, hw2⟩ := mainNoClamp_optimal_bits board rows cols hc
  rw [hv, hu]
  congr 1
  apply le_antisymm
  · rw [← hw2]; exact hub Q hQ
  · rw [← hw]; exact hub2 P hP

/-- A witness for `clamp_redundant`: the board `[[5, -20], [5, -20]]`, whose two horizontal
pairs have negative sums. -/
theorem clamp_redundant_witness :
    (1 ≤ 2 ∧ IsGrid [[5, -20], [5, -20]] 2 2) ∧
    mainNoClamp 2 2 [[5, -20], [5, -20]] = main 2 2 [[5, -20], [5, -20]] :=
  ⟨⟨by decide, by simp [IsGrid]⟩,
    clamp_redundant [[5, -20], [5, -20]] 2 2 (by decide) (by decide) (by simp [IsGrid])⟩

/-! ## The bit-to-row convention -/

theorem cell_reverse (board : List (List Int)) (n row col : Nat) (hn : board.length = n)
    (hrow : row < n) : cell board.reverse (n - row - 1) col = cell board row col := by
  unfold cell
  congr 1
  rw [List.getD_eq_getElem?_getD, List.getD_eq_getElem?_getD,
    List.getElem?_reverse (by rw [hn]; omega)]
  congr 2
  rw [hn]; omega

theorem computeHorizontalBlockSumNatural_eq (board : List (List Int)) (n C : Nat)
    (hn : board.length = n) :
    computeHorizontalBlockSumNatural board n C = computeHorizontalBlockSum board.reverse n C := by
  unfold computeHorizontalBlockSumNatural computeHorizontalBlockSum
  dsimp only
  split
  · rfl
  · congr 1
    apply List.foldl_ext
    intro t col _
    apply List.foldl_ext
    intro t row hrow
    apply List.foldl_ext
    intro t mask _
    rw [cell_reverse board n row col hn (List.mem_range.1 hrow),
      cell_reverse board n row (col + 1) hn (List.mem_range.1 hrow)]

theorem verticalBlockSumNatural_eq (board : List (List Int)) (n col v : Nat)
    (hn : board.length = n) :
    verticalBlockSumNatural board n col v = verticalBlockSum board.reverse n col v := by
  unfold verticalBlockSumNatural verticalBlockSum
  apply List.foldl_ext
  intro s row hrow
  rw [cell_reverse board n row col hn (List.mem_range.1 hrow)]

theorem verticalPhaseNatural_eq (board : List (List Int)) (n : Nat) (VM : List (List Nat))
    (col : Nat) (dp : List (List Int)) (hn : board.length = n) :
    verticalPhaseNatural board n VM col dp = verticalPhase board.reverse n VM col dp := by
  unfold verticalPhaseNatural verticalPhase
  simp only [verticalBlockSumNatural_eq board n col _ hn]

theorem sweepStepNatural_eq (board : List (List Int)) (n C : Nat) (hbs : List (List Int))
    (VM HM : List (List Nat)) (hn : board.length = n) :
    sweepStepNatural board n C hbs VM HM = sweepStep board.reverse n C hbs VM HM := by
  funext dp col
  unfold sweepStepNatural sweepStep
  simp only [verticalPhaseNatural_eq board n VM col _ hn]

theorem mainNatural_eq (board : List (List Int)) (n C : Nat) (hn : board.length = n) :
    mainNatural C n board = main C n board.reverse := by
  unfold mainNatural main
  rw [computeHorizontalBlockSumNatural_eq board n C hn]
  cases computeHorizontalBlockSum board.reverse n C with
  | none => rfl
  | some hbs =>
    simp only [sweepStepNatural_eq board n C hbs _ _ hn]

theorem weight_congr {n C : Nat} {P : Finset Domino} (hP : Valid n C P)
    (val1 val2 : Nat → Nat → Int) (h : ∀ r c, r < n → c < C → val1 r c = val2 r c) :
    weight val1 P = weight val2 P := by
  unfold weight
  apply Finset.sum_congr rfl
  intro d hd
  rw [dominoValue_eq_sum val1 (hP.1 d hd), dominoValue_eq_sum val2 (hP.1 d hd)]
  apply Finset.sum_congr rfl
  intro x hx
  have := hP.1 d hd x (List.mem_toFinset.1 hx)
  exact h x.1 x.2 this.1 this.2

theorem main_reverse (board : List (List Int)) (n C : Nat) (hC : 1 ≤ C)
    (hn : board.length = n) : main C n board.reverse = main C n board := by
  obtain ⟨v, hv, _, hub, P, hP, hw⟩ := main_optimal_bits board.reverse n C hC
  obtain ⟨u, hu, _, hub2, Q, hQ, hw2⟩ := main_optimal_board board n C hC
  have hval : ∀ r c, r < n → c < C → bitValue board.reverse n r c = cell board r c :=
    fun r c hr _ => cell_reverse board n r c hn hr
  rw [hv, hu]
  congr 1
  apply le_antisymm
  · rw [← hw, weight_congr hP _ _ hval]; exact hub2 P hP
  · rw [← hw2, ← weight_congr hQ _ _ hval]; exact hub Q hQ

/-- With exact integers: for every grid with `rows ≥ 1` and `cols ≥ 1`, the engine that uses
the mapping
bit = row (reading `board[row][..]` in the weight table and in the vertical sum) returns the
same output as the engine, and the engine returns the same output on the grid with the order
of its rows reversed. -/
theorem row_mapping_irrelevant (board : List (List Int)) (rows cols : Nat)
    (_hr : 1 ≤ rows) (hc : 1 ≤ cols) (hg : IsGrid board rows cols) :
    mainNatural cols rows board = main cols rows board ∧
    main cols rows board.reverse = main cols rows board := by
  have h := main_reverse board rows cols hc hg.1
  exact ⟨by rw [mainNatural_eq board rows cols hg.1, h], h⟩

/-- A witness for `row_mapping_irrelevant` on the 2x2 board `[[1,2],[3,4]]`. -/
theorem row_mapping_irrelevant_witness :
    (1 ≤ 2 ∧ IsGrid [[1, 2], [3, 4]] 2 2) ∧
    (mainNatural 2 2 [[1, 2], [3, 4]] = main 2 2 [[1, 2], [3, 4]] ∧
      main 2 2 [[1, 2], [3, 4]].reverse = main 2 2 [[1, 2], [3, 4]]) :=
  ⟨⟨by decide, by simp [IsGrid]⟩,
    row_mapping_irrelevant [[1, 2], [3, 4]] 2 2 (by decide) (by decide) (by simp [IsGrid])⟩

/-! ## The meaning of a table entry -/

theorem sweepTable_reach (board : List (List Int)) (n C : Nat) (hbs : List (List Int))
    (hv : ∀ a b, get2 hbs a b = if b < C - 1 ∧ a < 2 ^ n then
        bitSum n a (fun r => bitValue board n r b + bitValue board n r (b + 1)) else 0) :
    ∀ k, k ≤ C → ∀ a b, Reach n C (bitValue board n) a b
      (get2 (sweepTable board n C hbs k) a b) := by
  intro k
  induction k with
  | zero =>
    intro _ a b
    unfold sweepTable
    rw [List.range_zero, List.foldl_nil, get2_replicate]
    exact reach_zero n C _ a b
  | succ k ih =>
    intro hk
    rw [sweepTable_succ]
    exact (sweepStep_sound board n C k (by omega) hbs hv _ (dims_sweepTable board n C hbs k)
      (ih (by omega))).2

theorem tableAfterVertical_reach (board : List (List Int)) (n C : Nat) (hbs : List (List Int))
    (hv : ∀ a b, get2 hbs a b = if b < C - 1 ∧ a < 2 ^ n then
        bitSum n a (fun r => bitValue board n r b + bitValue board n r (b + 1)) else 0)
    (col : Nat) (hcol : col < C) :
    ∀ a b, Reach n C (bitValue board n) a b
      (get2 (tableAfterVertical board n C hbs col) a b) := by
  unfold tableAfterVertical
  rw [verticalPhase_eq]
  exact relaxAll_inv (Reach n C (bitValue board n)) _ _ (dims_sweepTable board n C hbs col)
    (verticalSteps_range board n C col hcol) (reach_vertical board n C col hcol)
    (sweepTable_reach board n C hbs hv col (by omega))

theorem sweepTable_pre (board : List (List Int)) (n C : Nat) (hbs : List (List Int))
    (hv : ∀ a b, get2 hbs a b = if b < C - 1 ∧ a < 2 ^ n then
        bitSum n a (fun r => bitValue board n r b + bitValue board n r (b + 1)) else 0)
    (P : Finset Domino) (hP : Valid n C P) :
    ∀ k, k < C → preWeight (bitValue board n) P k
      ≤ get2 (sweepTable board n C hbs k) (inMask n P k) k := by
  intro k
  induction k with
  | zero =>
    intro _
    unfold sweepTable
    rw [List.range_zero, List.foldl_nil, get2_replicate, preWeight_zero]
  | succ k ih =>
    intro hk
    have hpre := ih (by omega)
    have hd := dims_sweepTable board n C hbs k
    rw [sweepTable_succ]
    unfold sweepStep
    simp only [verticalPhase_eq, horizontalPhase_eq]
    have hd1 := dims_relaxAll (verticalSteps board n (generateMatchingVerticalMasks n) k) _ hd
    have hmemv : (⟨inMask n P k ||| vertMask n P k, k, inMask n P k, k,
        bitSum n (vertMask n P k) (fun b => bitValue board n b k)⟩ : Step)
        ∈ verticalSteps board n (generateMatchingVerticalMasks n) k :=
      (mem_verticalSteps board n k _).2 ⟨inMask n P k, vertMask n P k, inMask_lt n P k,
        fun h0 => by rw [h0, inMask_zero], vertMask_mem hP k, rfl⟩
    have hlow := relaxAll_lower _ _ hd (verticalSteps_range board n C k (by omega)) _ hmemv
    simp only at hlow
    rw [bitSum_vertMask hP k] at hlow
    have hlast : k < C - 1 := by omega
    rw [if_pos hlast]
    have hmemh : (⟨outMask n P k, k + 1, inMask n P k ||| vertMask n P k, k,
        if get2 hbs (outMask n P k) k ≥ 0 then get2 hbs (outMask n P k) k else 0⟩ : Step)
        ∈ horizontalSteps n hbs (generateMatchingHorizontalMasks n) k :=
      (mem_horizontalSteps n hbs k _).2 ⟨_, _, Nat.or_lt_two_pow (inMask_lt n P k)
        (vertMask_lt n P k), outMask_lt n P k, outMask_disjoint hP k, rfl⟩
    have hlow2 := relaxAll_lower _ _ hd1 (horizontalSteps_range n hbs C k hk) _ hmemh
    simp only at hlow2
    have hclamp : horizWeight (bitValue board n) P k ≤
        (if get2 hbs (outMask n P k) k ≥ 0 then get2 hbs (outMask n P k) k else 0) := by
      have hcond : k < C - 1 ∧ outMask n P k < 2 ^ n := ⟨hlast, outMask_lt n P k⟩
      have hval : get2 hbs (outMask n P k) k = horizWeight (bitValue board n) P k := by
        rw [hv, if_pos hcond, bitSum_outMask hP k]
      rw [hval]
      split
      · exact le_refl _
      · omega
    rw [inMask_succ, preWeight_succ]
    omega

theorem tableAfterVertical_lower (board : List (List Int)) (n C : Nat)
    (hbs : List (List Int))
    (hv : ∀ a b, get2 hbs a b = if b < C - 1 ∧ a < 2 ^ n then
        bitSum n a (fun r => bitValue board n r b + bitValue board n r (b + 1)) else 0)
    (P : Finset Domino) (hP : Valid n C P) (col : Nat) (hcol : col < C) :
    preWeight (bitValue board n) P col + vertWeight (bitValue board n) P col
      ≤ get2 (tableAfterVertical board n C hbs col)
          (inMask n P col ||| vertMask n P col) col := by
  unfold tableAfterVertical
  rw [verticalPhase_eq]
  have hpre := sweepTable_pre board n C hbs hv P hP col hcol
  have hmemv : (⟨inMask n P col ||| vertMask n P col, col, inMask n P col, col,
      bitSum n (vertMask n P col) (fun b => bitValue board n b col)⟩ : Step)
      ∈ verticalSteps board n (generateMatchingVerticalMasks n) col :=
    (mem_verticalSteps board n col _).2 ⟨inMask n P col, vertMask n P col, inMask_lt n P col,
      fun h0 => by rw [h0, inMask_zero], vertMask_mem hP col, rfl⟩
  have hlow := relaxAll_lower _ _ (dims_sweepTable board n C hbs col)
    (verticalSteps_range board n C col hcol) _ hmemv
  simp only at hlow
  rw [bitSum_vertMask hP col] at hlow
  omega

theorem weight_eq_column {n C : Nat} {P : Finset Domino} (_hP : Valid n C P) (col : Nat)
    (hin : InColumns P col) (val : Nat → Nat → Int) :
    weight val P = preWeight val P col + vertWeight val P col := by
  unfold preWeight vertWeight
  rw [weight_filter, weight_filter, ← Finset.sum_add_distrib]
  unfold weight
  apply Finset.sum_congr rfl
  intro d hd
  have h0 := hin d hd _ (first_mem_cells d)
  simp only at h0
  by_cases hlt : d.col < col
  · have h2 : ¬ (d.col = col ∧ d.horizontal = false) := fun e => by omega
    rw [if_pos hlt, if_neg h2, add_zero]
  · have hv : d.horizontal = false := by
      cases hh : d.horizontal
      · rfl
      · have := hin d hd (d.row, d.col + 1) ((mem_cells _ _).2 (Or.inr (Or.inl ⟨hh, rfl⟩)))
        simp only at this
        omega
    have h2 : d.col = col ∧ d.horizontal = false := ⟨by omega, hv⟩
    rw [if_neg hlt, if_pos h2, zero_add]

theorem testBit_occupied {n C : Nat} {P : Finset Domino} (_hP : Valid n C P) (col : Nat)
    (hin : InColumns P col) (b : Nat) :
    (inMask n P col ||| vertMask n P col).testBit b = true ↔ b < n ∧ CoveredCell P b col := by
  rw [Nat.testBit_or, Bool.or_eq_true, testBit_inMask, testBit_vertMask]
  constructor
  · rintro (⟨hc, hb, hd⟩ | ⟨hb, hd | ⟨hb1, hd⟩⟩)
    · refine ⟨hb, _, hd, (mem_cells _ _).2 (Or.inr (Or.inl ⟨rfl, ?_⟩))⟩
      show (b, col) = (b, col - 1 + 1)
      rw [Nat.sub_add_cancel hc]
    · exact ⟨hb, _, hd, (mem_cells _ _).2 (Or.inl rfl)⟩
    · refine ⟨hb, _, hd, (mem_cells _ _).2 (Or.inr (Or.inr ⟨rfl, ?_⟩))⟩
      show (b, col) = (b - 1 + 1, col)
      rw [Nat.sub_add_cancel hb1]
  · rintro ⟨hb, d, hd, hx⟩
    rcases (mem_cells d _).1 hx with h1 | ⟨hh, h1⟩ | ⟨hh, h1⟩
    · have e1 : d.row = b := (congrArg Prod.fst h1).symm
      have e2 : d.col = col := (congrArg Prod.snd h1).symm
      have hv : d.horizontal = false := by
        cases hh : d.horizontal
        · rfl
        · have := hin d hd (d.row, d.col + 1) ((mem_cells _ _).2 (Or.inr (Or.inl ⟨hh, rfl⟩)))
          simp only at this
          omega
      right
      refine ⟨hb, Or.inl ?_⟩
      rw [← e1, ← e2, ← hv, domino_eta]; exact hd
    · have e1 : d.row = b := (congrArg Prod.fst h1).symm
      have e2 : col = d.col + 1 := congrArg Prod.snd h1
      left
      refine ⟨by omega, hb, ?_⟩
      have e3 : col - 1 = d.col := by omega
      rw [← e1, e3, ← hh, domino_eta]; exact hd
    · have e1 : b = d.row + 1 := congrArg Prod.fst h1
      have e2 : d.col = col := (congrArg Prod.snd h1).symm
      right
      refine ⟨hb, Or.inr ⟨by omega, ?_⟩⟩
      have e3 : b - 1 = d.row := by omega
      rw [e3, ← e2, ← hh, domino_eta]; exact hd

theorem coveredCell_flip {n C : Nat} {P : Finset Domino} (hP : Valid n C P) (r c : Nat)
    (hr : r < n) :
    CoveredCell (P.image (flipDomino n)) (n - 1 - r) c ↔ CoveredCell P r c := by
  unfold CoveredCell
  constructor
  · rintro ⟨d, hd, hx⟩
    obtain ⟨d0, hd0, rfl⟩ := Finset.mem_image.1 hd
    obtain ⟨y, hy, hxy⟩ := (mem_cells_flipDomino (hP.1 d0 hd0) _).1 hx
    have hy1 := (hP.1 d0 hd0 y hy).1
    have h1 := congrArg Prod.fst hxy
    have h2 := congrArg Prod.snd hxy
    simp only at h1 h2
    have : y = (r, c) := Prod.ext (by simp only; omega) h2.symm
    exact ⟨d0, hd0, this ▸ hy⟩
  · rintro ⟨d, hd, hx⟩
    exact ⟨flipDomino n d, Finset.mem_image_of_mem _ hd,
      (mem_cells_flipDomino (hP.1 d hd) _).2 ⟨(r, c), hx, rfl⟩⟩

theorem inColumns_flip {n C : Nat} {P : Finset Domino} (hP : Valid n C P) (col : Nat)
    (hin : InColumns P col) : InColumns (P.image (flipDomino n)) col := by
  intro d hd x hx
  obtain ⟨d0, hd0, rfl⟩ := Finset.mem_image.1 hd
  obtain ⟨y, hy, rfl⟩ := (mem_cells_flipDomino (hP.1 d0 hd0) x).1 hx
  exact hin d0 hd0 y hy

theorem tableAfterVertical_final (board : List (List Int)) (n C : Nat) (hbs : List (List Int))
    (col : Nat) (hcol : col < C) (mask : Nat) :
    get2 (tableAfterVertical board n C hbs col) mask col
      = get2 (sweepTable board n C hbs C) mask col := by
  rw [sweepTable_stable board n C hbs mask col C hcol (le_refl C), sweepTable_succ]
  unfold sweepStep tableAfterVertical
  by_cases h : col < C - 1
  · simp only [if_pos h]
    rw [horizontalPhase_frame n C col (by omega) hbs _
      (dims_verticalPhase board n C col _ (dims_sweepTable board n C hbs col)) mask col
      (by omega)]
  · simp only [if_neg h]

theorem single_domino_two_by_one {d : Domino} (h : d.InGrid 2 1) : d = ⟨0, 0, false⟩ := by
  rcases (inGrid_iff 2 1 d).1 h with ⟨_, _, h3⟩ | ⟨h1, h2, h3⟩
  · omega
  · cases d with
    | mk r c hz =>
      simp only at h1 h2 h3
      have hr : r = 0 := by omega
      have hc : c = 0 := by omega
      subst h1 hr hc
      rfl

/-- With exact integers: on the 2x1 board `[[-5],[-3]]` the entry `dp[3][0]` after
the vertical phase of column 0 is 0, while the only placement whose covered cells of column 0
are exactly the two cells flagged in mask 3 is the vertical domino, of weight -8. -/
theorem dp_entry_exact_counterexample :
    computeHorizontalBlockSum [[-5], [-3]] 2 1 = some [[], [], [], []] ∧
    get2 (tableAfterVertical [[-5], [-3]] 2 1 [[], [], [], []] 0) 3 0 = 0 ∧
    ¬ IsGreatest {w | ∃ P : Finset Domino, Valid 2 1 P ∧ InColumns P 0 ∧
        ExactColumn 2 P 3 0 ∧ weight (cell [[-5], [-3]]) P = w}
      (get2 (tableAfterVertical [[-5], [-3]] 2 1 [[], [], [], []] 0) 3 0) := by
  have hval : get2 (tableAfterVertical [[-5], [-3]] 2 1 [[], [], [], []] 0) 3 0 = 0 := by
    unfold tableAfterVertical sweepTable
    rw [matchingVerticalMasks_two]
    decide
  refine ⟨by decide, hval, ?_⟩
  rw [hval]
  rintro ⟨⟨P, hP, _, hex, hw⟩, _⟩
  have hcov : CoveredCell P 0 0 := (hex 0 (by decide)).2 (by decide)
  obtain ⟨d, hd, _⟩ := hcov
  have hd0 := single_domino_two_by_one (hP.1 d hd)
  have hPeq : P = {⟨0, 0, false⟩} := by
    ext e
    rw [Finset.mem_singleton]
    constructor
    · intro he; exact single_domino_two_by_one (hP.1 e he)
    · intro he; rw [he, ← hd0]; exact hd
  rw [hPeq, weight_singleton] at hw
  revert hw
  decide

/-- With exact integers: for a grid with `rows ≥ 1` and `cols ≥ 1`, a column `col < cols` and
a mask
below `2^rows`, the value `dp[mask][col]` held once the vertical phase of column `col` has
finished stays in the table until the end, is `≥ 0`, is the total weight of some set of
non-overlapping dominoes inside columns `0..col` whose covered cells of column `col` are among
the cells flagged in `mask`, and is at least the total weight of every such set whose covered
cells of column `col` are exactly the cells flagged in `mask`. -/
theorem dp_entry_bounds (board : List (List Int)) (rows cols : Nat)
    (_hr : 1 ≤ rows) (hc : 1 ≤ cols) (_hg : IsGrid board rows cols)
    (col : Nat) (hcol : col < cols) (mask : Nat) (hm : mask < 2 ^ rows) :
    ∃ hbs, computeHorizontalBlockSum board rows cols = some hbs ∧
      get2 (tableAfterVertical board rows cols hbs col) mask col
        = get2 (sweepTable board rows cols hbs cols) mask col ∧
      0 ≤ get2 (tableAfterVertical board rows cols hbs col) mask col ∧
      (∃ P, Valid rows cols P ∧ InColumns P col ∧ WithinColumn rows P mask col ∧
        weight (cell board) P = get2 (tableAfterVertical board rows cols hbs col) mask col) ∧
      (∀ P, Valid rows cols P → InColumns P col → ExactColumn rows P mask col →
        weight (cell board) P ≤ get2 (tableAfterVertical board rows cols hbs col) mask col) := by
  obtain ⟨hbs, ht, _, hv⟩ := computeHorizontalBlockSum_eq board rows cols hc
  have hfinal := tableAfterVertical_final board rows cols hbs col hcol mask
  refine ⟨hbs, ht, hfinal, ?_, ?_, ?_⟩
  · rw [hfinal, ← tableAfter_length]
    exact tableAfter_nonneg board rows cols hbs _ mask col
  · obtain ⟨Q, hQ, hw⟩ := tableAfterVertical_reach board rows cols hbs hv col hcol mask col
      hm hcol
    have hQin : InColumns Q col := fun d hd x hx => (hQ.2 d hd x hx).1
    refine ⟨Q.image (flipDomino rows), valid_image_flip hQ.1,
      inColumns_flip hQ.1 col hQin, ?_, ?_⟩
    · intro r hr hcov
      have e : rows - 1 - (rows - 1 - r) = r := by omega
      have h1 := (coveredCell_flip hQ.1 (rows - 1 - r) col (by omega)).1 (by rw [e]; exact hcov)
      obtain ⟨d, hd, hx⟩ := h1
      exact (hQ.2 d hd _ hx).2 rfl
    · rw [← weight_flip board (valid_image_flip hQ.1), image_flip_flip hQ.1, hw]
  · intro P hP hin hex
    have hQ := valid_image_flip hP
    have hQin := inColumns_flip hP col hin
    have hmask : mask = inMask rows (P.image (flipDomino rows)) col
        ||| vertMask rows (P.image (flipDomino rows)) col := by
      apply Nat.eq_of_testBit_eq
      intro b
      rw [Bool.eq_iff_iff, testBit_occupied hQ col hQin b]
      constructor
      · intro hb
        have hbn : b < rows := by
          by_contra hge
          rw [(lt_two_pow_iff_testBit mask rows).1 hm b (by omega)] at hb
          exact Bool.false_ne_true hb
        have e : rows - 1 - (rows - 1 - b) = b := by omega
        have h1 := (hex (rows - 1 - b) (by omega)).2 (by rw [e]; exact hb)
        have h2 := (coveredCell_flip hP (rows - 1 - b) col (by omega)).2 h1
        rw [e] at h2
        exact ⟨hbn, h2⟩
      · rintro ⟨hbn, hcov⟩
        have e : rows - 1 - (rows - 1 - b) = b := by omega
        have h1 := (coveredCell_flip hP (rows - 1 - b) col (by omega)).1 (by rw [e]; exact hcov)
        have h2 := (hex (rows - 1 - b) (by omega)).1 h1
        rw [e] at h2
        exact h2
    rw [← weight_flip board hP, weight_eq_column hQ col hQin, hmask]
    exact tableAfterVertical_lower board rows cols hbs hv _ hQ col hcol

/-- A witness for `dp_entry_bounds`: the 2x1 board `[[-5],[-3]]`, column 0, mask 3. -/
theorem dp_entry_bounds_witness :
    (1 ≤ 2 ∧ 1 ≤ 1 ∧ IsGrid [[-5], [-3]] 2 1 ∧ 0 < 1 ∧ 3 < 2 ^ 2) ∧
    ∃ hbs, computeHorizontalBlockSum [[-5], [-3]] 2 1 = some hbs ∧
      get2 (tableAfterVertical [[-5], [-3]] 2 1 hbs 0) 3 0
        = get2 (sweepTable [[-5], [-3]] 2 1 hbs 1) 3 0 ∧
      0 ≤ get2 (tableAfterVertical [[-5], [-3]] 2 1 hbs 0) 3 0 ∧
      (∃ P, Valid 2 1 P ∧ InColumns P 0 ∧ WithinColumn 2 P 3 0 ∧
        weight (cell [[-5], [-3]]) P = get2 (tableAfterVertical [[-5], [-3]] 2 1 hbs 0) 3 0) ∧
      (∀ P, Valid 2 1 P → InColumns P 0 → ExactColumn 2 P 3 0 →
        weight (cell [[-5], [-3]]) P ≤ get2 (tableAfterVertical [[-5], [-3]] 2 1 hbs 0) 3 0) :=
  ⟨⟨by decide, by decide, by simp [IsGrid], by decide, by decide⟩,
    dp_entry_bounds [[-5], [-3]] 2 1 (by decide) (by decide) (by simp [IsGrid]) 0 (by decide) 3
      (by decide)⟩

/-! ## Machine widths -/

theorem matchingVerticalMasks_one : generateMatchingVerticalMasks 1 = [[0], [0]] := by
  simp [generateMatchingVerticalMasks, generateVerticalBlocks, List.range, List.range.loop]

/-- C11 fails on the code: on the 1x2 board `[[2147483647, 2147483647]]` of 32-bit values the
`int` sum `board[0][0] + board[0][1]` wraps to `-2`, the clamp turns the gain into 0, and the
engine with the machine widths returns 0, while exact integers give 4294967294; on the 2x1
board `[[2147483647], [1]]` the `int verticalBlockSum` wraps in the same way. -/
theorem mainW_overflow :
    wrap32 (2147483647 + 2147483647) = -2 ∧
    mainW 2 1 [[2147483647, 2147483647]] = some 0 ∧
    main 2 1 [[2147483647, 2147483647]] = some 4294967294 ∧
    mainW 1 2 [[2147483647], [1]] = some 0 ∧
    main 1 2 [[2147483647], [1]] = some 2147483648 := by
  refine ⟨by decide, ?_, ?_, ?_, ?_⟩
  · unfold mainW
    rw [matchingVerticalMasks_one]
    decide
  · unfold main
    rw [matchingVerticalMasks_one]
    decide
  · unfold mainW
    rw [matchingVerticalMasks_two]
    decide
  · unfold main
    rw [matchingVerticalMasks_two]
    decide

/-! ## Checked vector accesses -/

theorem getD_eq_of_lt {α : Type} (l : List α) (i : Nat) (d : α) (h : i < l.length) :
    l[i]? = some (l.getD i d) := by
  rw [List.getD_eq_getElem?_getD, List.getElem?_eq_getElem h]
  rfl

theorem row_length {t : List (List Int)} {m n : Nat} (h : Dims t m n) {i : Nat} (hi : i < m) :
    (t.getD i []).length = n := by
  have hi2 : i < t.length := by rw [h.1]; exact hi
  apply h.2
  rw [List.getD_eq_getElem?_getD, List.getElem?_eq_getElem hi2]
  exact List.getElem_mem hi2

theorem get2Checked_eq {t : List (List Int)} {m n : Nat} (h : Dims t m n) {i j : Nat}
    (hi : i < m) (hj : j < n) : get2Checked t i j = some (get2 t i j) := by
  unfold get2Checked get2
  rw [getD_eq_of_lt t i [] (by rw [h.1]; exact hi), Option.some_bind]
  exact getD_eq_of_lt _ j 0 (by rw [row_length h hi]; exact hj)

theorem set2Checked_eq {t : List (List Int)} {m n : Nat} (h : Dims t m n) {i j : Nat}
    (hi : i < m) (hj : j < n) (v : Int) : set2Checked t i j v = some (set2 t i j v) := by
  unfold set2Checked set2
  rw [getD_eq_of_lt t i [] (by rw [h.1]; exact hi), Option.some_bind,
    if_pos (by rw [row_length h hi]; exact hj)]

theorem foldlM_eq_some {α β : Type} (f : α → β → α) (g : α → β → Option α)
    (Inv : α → Prop) (l : List β) :
    ∀ a, Inv a → (∀ s x, x ∈ l → Inv s → g s x = some (f s x) ∧ Inv (f s x)) →
      l.foldlM g a = some (l.foldl f a) ∧ Inv (l.foldl f a) := by
  induction l with
  | nil => intro a h0 _; exact ⟨rfl, h0⟩
  | cons x l ih =>
    intro a h0 hs
    obtain ⟨h1, h2⟩ := hs a x (List.mem_cons_self _ _) h0
    rw [List.foldlM_cons, h1, List.foldl_cons]
    exact ih (f a x) h2 (fun s y hy => hs s y (List.mem_cons_of_mem _ hy))

theorem isGrid_dims {board : List (List Int)} {rows cols : Nat} (h : IsGrid board rows cols) :
    Dims board rows cols := h

theorem cellChecked_eq {board : List (List Int)} {rows cols : Nat}
    (h : IsGrid board rows cols) {i j : Nat} (hi : i < rows) (hj : j < cols) :
    get2Checked board i j = some (cell board i j) :=
  get2Checked_eq (isGrid_dims h) hi hj

theorem computeHorizontalBlockSumChecked_eq (board : List (List Int)) (n C : Nat)
    (hg : IsGrid board n C) :
    computeHorizontalBlockSumChecked board n C = computeHorizontalBlockSum board n C := by
  unfold computeHorizontalBlockSumChecked computeHorizontalBlockSum
  dsimp only
  split
  · rfl
  · refine (foldlM_eq_some _ _ (fun s => Dims s (1 <<< n) (C - 1)) _ _
      (dims_replicate _ _) ?_).1
    intro s col hcol hd
    have hcol := List.mem_range.1 hcol
    refine foldlM_eq_some _ _ (fun s => Dims s (1 <<< n) (C - 1)) _ _ hd ?_
    intro s row hrow hd
    have hrow := List.mem_range.1 hrow
    refine foldlM_eq_some _ _ (fun s => Dims s (1 <<< n) (C - 1)) _ _ hd ?_
    intro s mask hmask hd
    have hmask := List.mem_range.1 hmask
    by_cases hbit : mask &&& 1 <<< row ≠ 0
    · rw [if_pos hbit, if_pos hbit, cellChecked_eq hg (by omega) (by omega),
        cellChecked_eq hg (by omega) (by omega), get2Checked_eq hd hmask hcol]
      simp only [Option.some_bind]
      exact ⟨set2Checked_eq hd hmask hcol _, dims_set2 hd _ _ _⟩
    · rw [if_neg hbit, if_neg hbit]
      exact ⟨rfl, hd⟩

theorem foldlM_push_eq_foldl {α β : Type} (F : α → β) (G : α → Option β) (l : List α)
    (h : ∀ x ∈ l, G x = some (F x)) (acc : List β) :
    l.foldlM (fun out a => (G a).bind fun y => some (out ++ [y])) acc
      = some (l.foldl (fun out a => out ++ [F a]) acc) := by
  refine (foldlM_eq_some (fun out a => out ++ [F a]) _ (fun _ => True) l acc trivial ?_).1
  intro s x hx _
  exact ⟨by rw [h x hx, Option.some_bind], trivial⟩

theorem generateMatchingHorizontalMasksChecked_eq (n : Nat) :
    generateMatchingHorizontalMasksChecked n = some (generateMatchingHorizontalMasks n) := by
  unfold generateMatchingHorizontalMasksChecked generateMatchingHorizontalMasks
  dsimp only
  rw [← List.nil_append (List.map _ _), ← foldl_push_map]
  apply foldlM_push_eq_foldl
  intro baseMask _
  apply foldlM_push_eq_foldl
  intro assign _
  refine (foldlM_eq_some _ _ (fun _ => True) _ _ trivial ?_).1
  intro newMask bit hbit _
  refine ⟨?_, trivial⟩
  by_cases hb : assign &&& 1 <<< bit ≠ 0
  · rw [if_pos hb, if_pos hb, getD_eq_of_lt _ bit 0 (List.mem_range.1 hbit),
      Option.some_bind]
  · rw [if_neg hb, if_neg hb]

theorem verticalBlockSumChecked_eq (board : List (List Int)) (n C col v : Nat)
    (hg : IsGrid board n C) (hcol : col < C) :
    verticalBlockSumChecked board n col v = some (verticalBlockSum board n col v) := by
  unfold verticalBlockSumChecked verticalBlockSum
  refine (foldlM_eq_some _ _ (fun _ => True) _ _ trivial ?_).1
  intro s row hrow _
  have hrow := List.mem_range.1 hrow
  refine ⟨?_, trivial⟩
  by_cases hb : v &&& 1 <<< row ≠ 0
  · rw [if_pos hb, if_pos hb, cellChecked_eq hg (by omega) hcol, Option.some_bind]
  · rw [if_neg hb, if_neg hb]

theorem or_verticalMask_lt (n h v : Nat) (hlt : h < 2 ^ n)
    (hv : v ∈ generateVerticalBlocks h 0 [] 0 n) : h ||| v < 2 ^ n := by
  refine Nat.or_lt_two_pow hlt ?_
  obtain ⟨S, hS, hbits⟩ := (mem_verticalBlocks_iff n h v).1 hv
  rw [lt_two_pow_iff_testBit]
  intro i hi
  by_contra hne
  obtain ⟨b, hb, hib⟩ := (hbits i).1 (by simpa using hne)
  have := (hS.1 b hb).1
  omega

theorem length_matchingVerticalMasks (n : Nat) :
    (generateMatchingVerticalMasks n).length = 2 ^ n := by
  unfold generateMatchingVerticalMasks
  rw [List.length_map, List.length_range, one_shiftLeft_eq]

theorem length_matchingHorizontalMasks (n : Nat) :
    (generateMatchingHorizontalMasks n).length = 2 ^ n := by
  unfold generateMatchingHorizontalMasks
  rw [List.length_map, List.length_range, one_shiftLeft_eq]

theorem verticalPhaseChecked_eq (board : List (List Int)) (n C col : Nat)
    (hg : IsGrid board n C) (hcol : col < C) (dp : List (List Int))
    (hd : Dims dp (2 ^ n) C) :
    verticalPhaseChecked board n (generateMatchingVerticalMasks n) col dp
      = some (verticalPhase board n (generateMatchingVerticalMasks n) col dp) := by
  unfold verticalPhaseChecked verticalPhase
  dsimp only
  refine (foldlM_eq_some _ _ (fun s => Dims s (2 ^ n) C) _ _ hd ?_).1
  intro s h hh hd
  have hlt : h < 2 ^ n := by
    rw [← one_shiftLeft_eq]
    by_cases hc : col = 0
    · rw [if_pos hc] at hh; exact List.mem_range.1 (List.mem_of_mem_take hh)
    · rw [if_neg hc] at hh; exact List.mem_range.1 hh
  rw [getD_eq_of_lt _ h [] (by rw [length_matchingVerticalMasks]; exact hlt),
    Option.some_bind]
  refine foldlM_eq_some _ _ (fun s => Dims s (2 ^ n) C) _ _ hd ?_
  intro s v hv hd
  rw [matchingVerticalMasks_getD n h hlt] at hv
  have hor := or_verticalMask_lt n h v hlt hv
  rw [verticalBlockSumChecked_eq board n C col v hg hcol, Option.some_bind,
    get2Checked_eq hd hor hcol, Option.some_bind, get2Checked_eq hd hlt hcol,
    Option.some_bind]
  exact ⟨set2Checked_eq hd hor hcol _, dims_set2 hd _ _ _⟩

theorem horizontalPhaseChecked_eq (n C col : Nat) (hcol : col < C - 1)
    (hbs : List (List Int)) (hh : Dims hbs (2 ^ n) (C - 1)) (dp : List (List Int))
    (hd : Dims dp (2 ^ n) C) :
    horizontalPhaseChecked n hbs (generateMatchingHorizontalMasks n) col dp
      = some (horizontalPhase n hbs (generateMatchingHorizontalMasks n) col dp) := by
  unfold horizontalPhaseChecked horizontalPhase
  dsimp only
  refine (foldlM_eq_some _ _ (fun s => Dims s (2 ^ n) C) _ _ hd ?_).1
  intro s h hmem hd
  have hlt : h < 2 ^ n := by
    rw [← one_shiftLeft_eq]; exact List.mem_range.1 hmem
  rw [getD_eq_of_lt _ h [] (by rw [length_matchingHorizontalMasks]; exact hlt),
    Option.some_bind]
  refine foldlM_eq_some _ _ (fun s => Dims s (2 ^ n) C) _ _ hd ?_
  intro s m hm hd
  have hm2 := ((mem_matchingHorizontalMasks_iff n h m hlt).1 hm).1
  rw [get2Checked_eq hh hm2 hcol, Option.some_bind,
    get2Checked_eq hd hm2 (show col + 1 < C by omega), Option.some_bind,
    get2Checked_eq hd hlt (show col < C by omega), Option.some_bind]
  exact ⟨set2Checked_eq hd hm2 (by omega) _, dims_set2 hd _ _ _⟩

theorem sweepStepChecked_eq (board : List (List Int)) (n C col : Nat)
    (hg : IsGrid board n C) (hcol : col < C)
    (hbs : List (List Int)) (hh : Dims hbs (2 ^ n) (C - 1)) (dp : List (List Int))
    (hd : Dims dp (2 ^ n) C) :
    sweepStepChecked board n C hbs (generateMatchingVerticalMasks n)
        (generateMatchingHorizontalMasks n) dp col
      = some (sweepStep board n C hbs (generateMatchingVerticalMasks n)
          (generateMatchingHorizontalMasks n) dp col) := by
  unfold sweepStepChecked sweepStep
  rw [verticalPhaseChecked_eq board n C col hg hcol dp hd, Option.some_bind]
  dsimp only
  by_cases hlast : col < C - 1
  · rw [if_pos hlast, if_pos hlast]
    exact horizontalPhaseChecked_eq n C col hlast hbs hh _
      (dims_verticalPhase board n C col dp hd)
  · rw [if_neg hlast, if_neg hlast]

/-- With a well-formed grid and at least one column, no vector access of the engine is out of
range: the checked engine returns what the engine returns. -/
theorem mainChecked_eq_main (board : List (List Int)) (n C : Nat) (hC : 1 ≤ C)
    (hg : IsGrid board n C) : mainChecked C n board = main C n board := by
  obtain ⟨hbs, ht, hh, _⟩ := computeHorizontalBlockSum_eq board n C hC
  unfold mainChecked main
  rw [computeHorizontalBlockSumChecked_eq board n C hg, ht,
    generateMatchingHorizontalMasksChecked_eq]
  simp only [Option.some_bind, one_shiftLeft_eq]
  have hsweep := foldlM_eq_some
    (sweepStep board n C hbs (generateMatchingVerticalMasks n)
      (generateMatchingHorizontalMasks n))
    (sweepStepChecked board n C hbs (generateMatchingVerticalMasks n)
      (generateMatchingHorizontalMasks n))
    (fun s => Dims s (2 ^ n) C) (List.range C)
    (List.replicate (2 ^ n) (List.replicate C (0 : Int))) (dims_replicate _ _)
    (fun s col hcol hd => ⟨sweepStepChecked_eq board n C col hg (List.mem_range.1 hcol)
      hbs hh s hd, by
        rw [sweepStep_eq_relaxAll]; exact dims_relaxAll _ _ hd⟩)
  rw [hsweep.1, Option.some_bind]
  refine (foldlM_eq_some _ _ (fun _ => True) _ _ trivial ?_).1
  intro s mask hmask _
  rw [get2Checked_eq hsweep.2 (List.mem_range.1 hmask) (show C - 1 < C by omega),
    Option.some_bind]
  exact ⟨rfl, trivial⟩

theorem mainChecked_zero_columns (rows : Nat) (board : List (List Int)) :
    mainChecked 0 rows board = none := by
  unfold mainChecked computeHorizontalBlockSumChecked
  simp

theorem main_zero_columns (rows : Nat) (board : List (List Int)) :
    main 0 rows board = none := by
  unfold main computeHorizontalBlockSum
  simp

theorem main_zero_rows (cols : Nat) (hc : 1 ≤ cols) (board : List (List Int)) :
    main cols 0 board = some 0 := by
  obtain ⟨v, hv, _, _, P, hP, hw⟩ := main_optimal_board board 0 cols hc
  have hP0 : P = ∅ := by
    apply Finset.eq_empty_of_forall_not_mem
    intro d hd
    have := (hP.1 d hd _ (first_mem_cells d)).1
    omega
  rw [hP0, weight_empty] at hw
  rw [hv, hw]

/-- Counterexample to C12 as stated: with `cols = 0` (here one row, the board `[[]]`) the
engine does not yield 0: the rows of the weight table are requested with size `-1`. -/
theorem degenerate_columns_counterexample :
    main 0 1 [[]] ≠ some 0 ∧ mainChecked 0 1 [[]] ≠ some 0 ∧
    computeHorizontalBlockSum [[]] 1 0 = none := by
  refine ⟨?_, ?_, by decide⟩
  · rw [main_zero_columns]; exact fun h => Option.noConfusion h
  · rw [mainChecked_zero_columns]; exact fun h => Option.noConfusion h

/-- C12 (amended): when `rows = 0` and `cols ≥ 1` the engine yields 0, with every allocation
size non-negative and every vector index in range (the checked engine also yields 0); when
`cols = 0` the engine yields no value, whatever `rows` is. -/
theorem degenerate_rows (cols : Nat) (board : List (List Int)) (hc : 1 ≤ cols)
    (hg : IsGrid board 0 cols) :
    main cols 0 board = some 0 ∧ mainChecked cols 0 board = some 0 ∧
    (∀ rows (b : List (List Int)), main 0 rows b = none ∧ mainChecked 0 rows b = none) := by
  refine ⟨main_zero_rows cols hc board, ?_, fun rows b =>
    ⟨main_zero_columns rows b, mainChecked_zero_columns rows b⟩⟩
  rw [mainChecked_eq_main board 0 cols hc hg]
  exact main_zero_rows cols hc board

/-- A witness for `degenerate_rows`: no rows, three columns, the empty board. -/
theorem degenerate_rows_witness :
    (1 ≤ 3 ∧ IsGrid [] 0 3) ∧
    (main 3 0 [] = some 0 ∧ mainChecked 3 0 [] = some 0 ∧
      (∀ rows (b : List (List Int)), main 0 rows b = none ∧ mainChecked 0 rows b = none)) :=
  ⟨⟨by decide, by simp [IsGrid]⟩, degenerate_rows 3 [] (by decide) (by simp [IsGrid])⟩

/-! ## Claims that fail on the code through the overflow of an `int` sum -/

/-- C5 fails on the code: on the 1x2 board `[[2147483647, 2147483647]]` the `int` entry
`horizontalBlockSum[1][0]` holds `-2`, because the `int` sum `board[0][0] + board[0][1]` wraps,
while the sum of the two cell values over the bits of mask 1 is 4294967294, the entry of the
table computed with exact integers. -/
theorem computeHorizontalBlockSumW_overflow :
    computeHorizontalBlockSumW [[2147483647, 2147483647]] 1 2 = some [[0], [-2]] ∧
    (∑ b in (Finset.range 1).filter (fun b => (1 : Nat).testBit b = true),
      (cell [[2147483647, 2147483647]] (1 - 1 - b) 0
        + cell [[2147483647, 2147483647]] (1 - 1 - b) (0 + 1))) = 4294967294 ∧
    computeHorizontalBlockSum [[2147483647, 2147483647]] 1 2 = some [[0], [4294967294]] := by
  refine ⟨by decide, by decide, by decide⟩

/-- C6 fails on the code: on the one-row board `[[2147483647, 2147483647]]` the engine with
the machine widths returns 0, while the selection recurrence gives
`f(2) = max(f(1), f(0) + a[0] + a[1]) = 4294967294`, the output of the engine with exact
integers. -/
theorem mainW_single_row_overflow :
    mainW 2 1 [[2147483647, 2147483647]] = some 0 ∧
    pairRecurrence (fun k => cell [[2147483647, 2147483647]] 0 k) 2 = 4294967294 ∧
    main 2 1 [[2147483647, 2147483647]] = some 4294967294 := by
  refine ⟨?_, by decide, ?_⟩
  · unfold mainW
    rw [matchingVerticalMasks_one]
    decide
  · unfold main
    rw [matchingVerticalMasks_one]
    decide

/-- C8 fails on the code: the one-row boards `[[2147483647, 0]]` and
`[[2147483647, 2147483647]]` agree on every cell except cell (0, 1), where the second holds a
strictly larger value, and the engine with the machine widths returns 2147483647 on the first
and 0 on the second; with exact integers the outputs are 2147483647 and 4294967294. -/
theorem mainW_not_monotone :
    cell [[2147483647, 0]] 0 0 = cell [[2147483647, 2147483647]] 0 0 ∧
    cell [[2147483647, 0]] 0 1 < cell [[2147483647, 2147483647]] 0 1 ∧
    mainW 2 1 [[2147483647, 0]] = some 2147483647 ∧
    mainW 2 1 [[2147483647, 2147483647]] = some 0 ∧
    main 2 1 [[2147483647, 0]] = some 2147483647 ∧
    main 2 1 [[2147483647, 2147483647]] = some 4294967294 := by
  refine ⟨by decide, by decide, ?_, ?_, ?_, ?_⟩
  · unfold mainW
    rw [matchingVerticalMasks_one]
    decide
  · unfold mainW
    rw [matchingVerticalMasks_one]
    decide
  · unfold main
    rw [matchingVerticalMasks_one]
    decide
  · unfold main
    rw [matchingVerticalMasks_one]
    decide

/-- C18 fails on the code: on the 2x2 board `[[0, 2147483647], [0, 1]]`, column 1 and the
all-zero table, the in-place vertical phase with the machine widths leaves `dp[3][1] = 0`,
because the `int verticalBlockSum` of the mask 3 wraps to `-2147483648`; the pair
`(h, v) = (0, 3)` is a candidate of the two-buffer formula and has the value
`old[0] + verticalSum(3, 1) = 2147483648`, which is the entry with exact integers. -/
theorem verticalPhaseW_overflow :
    verticalBlockSumW [[0, 2147483647], [0, 1]] 2 1 3 = -2147483648 ∧
    get2 (verticalPhaseW [[0, 2147483647], [0, 1]] 2 (generateMatchingVerticalMasks 2) 1
      [[0, 0], [0, 0], [0, 0], [0, 0]]) 3 1 = 0 ∧
    3 ∈ (generateMatchingVerticalMasks 2).getD 0 [] ∧
    0 ||| 3 = 3 ∧
    get2 [[0, 0], [0, 0], [0, 0], [0, 0]] 0 1
      + (∑ b in (Finset.range 2).filter (fun b => (3 : Nat).testBit b = true),
          cell [[0, 2147483647], [0, 1]] (2 - 1 - b) 1) = 2147483648 ∧
    get2 (verticalPhase [[0, 2147483647], [0, 1]] 2 (generateMatchingVerticalMasks 2) 1
      [[0, 0], [0, 0], [0, 0], [0, 0]]) 3 1 = 2147483648 := by
  rw [matchingVerticalMasks_two]
  refine ⟨by decide, by decide, by decide, by decide, by decide, by decide⟩

/-! ## Arithmetic of the machine widths -/

theorem wrap32_range (x : Int) : -2147483648 ≤ wrap32 x ∧ wrap32 x < 2147483648 := by
  unfold wrap32; omega

theorem wrap32_eq_self {x : Int} (h1 : -2147483648 ≤ x) (h2 : x < 2147483648) :
    wrap32 x = x := by
  unfold wrap32; omega

theorem wrap32_zero : wrap32 0 = 0 := by
  unfold wrap32; omega

theorem wrap32_add_wrap32 (a b : Int) : wrap32 (a + wrap32 b) = wrap32 (a + b) := by
  unfold wrap32; omega

theorem wrap32_wrap32_add (a b : Int) : wrap32 (wrap32 a + b) = wrap32 (a + b) := by
  unfold wrap32; omega

theorem wrap32_le_self {x : Int} (h : -2147483648 ≤ x) : wrap32 x ≤ x := by
  unfold wrap32; omega

theorem wrap64_range (x : Int) :
    -9223372036854775808 ≤ wrap64 x ∧ wrap64 x < 9223372036854775808 := by
  unfold wrap64; omega

theorem wrap64_eq_self {x : Int} (h1 : -9223372036854775808 ≤ x)
    (h2 : x < 9223372036854775808) : wrap64 x = x := by
  unfold wrap64; omega

theorem wrap64_le_self {x : Int} (h : -9223372036854775808 ≤ x) : wrap64 x ≤ x := by
  unfold wrap64; omega

/-! ## The weight table and the vertical sum with 32-bit additions -/

theorem hbsW_inner (T : Nat) (maskBit_row col : Nat) (w : Int) (t : List (List Int)) (n : Nat)
    (ht : Dims t T n) (hcol : col < n) :
    Dims ((List.range T).foldl (fun hbs mask =>
        if mask &&& (1 <<< maskBit_row) ≠ 0 then
          set2 hbs mask col (wrap32 (get2 hbs mask col + w))
        else hbs) t) T n ∧
    ∀ a b, get2 ((List.range T).foldl (fun hbs mask =>
        if mask &&& (1 <<< maskBit_row) ≠ 0 then
          set2 hbs mask col (wrap32 (get2 hbs mask col + w))
        else hbs) t) a b
      = if b = col ∧ a < T ∧ a.testBit maskBit_row = true then wrap32 (get2 t a b + w)
        else get2 t a b := by
  apply foldl_range_induction _ t T (fun k s => Dims s T n ∧ ∀ a b, get2 s a b
      = if b = col ∧ a < k ∧ a.testBit maskBit_row = true then wrap32 (get2 t a b + w)
        else get2 t a b)
  · exact ⟨ht, fun a b => by simp⟩
  · rintro k s hk ⟨hd, hv⟩
    by_cases hbit : k &&& (1 <<< maskBit_row) ≠ 0
    · rw [if_pos hbit]
      have hbit1 := (and_one_shiftLeft_ne_zero _ _).1 hbit
      refine ⟨dims_set2 hd _ _ _, fun a b => ?_⟩
      rw [get2_set2 hd hk hcol, hv k col, hv a b]
      have hkk : ¬ (col = col ∧ k < k ∧ k.testBit maskBit_row = true) :=
        fun e => absurd e.2.1 (lt_irrefl _)
      rw [if_neg hkk]
      by_cases hak : a = k
      · subst hak
        by_cases hbc : b = col
        · subst hbc
          rw [if_pos ⟨rfl, rfl⟩, if_pos ⟨rfl, Nat.lt_succ_self _, hbit1⟩]
        · rw [if_neg (fun e => hbc e.2), if_neg (fun e => hbc e.1), if_neg (fun e => hbc e.1)]
      · rw [if_neg (fun e => hak e.1)]
        have : (a < k + 1) ↔ a < k := by omega
        simp only [this]
    · rw [if_neg hbit]
      have hbit1 : k.testBit maskBit_row = false := by
        rw [← and_one_shiftLeft_eq_zero]; exact not_not.1 hbit
      refine ⟨hd, fun a b => ?_⟩
      rw [hv a b]
      by_cases hak : a = k
      · subst hak
        rw [if_neg (fun e => absurd e.2.1 (lt_irrefl _)),
          if_neg (fun e => by rw [hbit1] at e; exact Bool.false_ne_true e.2.2)]
      · have : (a < k + 1) ↔ a < k := by omega
        simp only [this]

theorem hbsW_rows (board : List (List Int)) (numRows T col : Nat) (t : List (List Int))
    (n : Nat) (ht : Dims t T n) (hcol : col < n) (h0 : ∀ a, get2 t a col = 0) :
    Dims ((List.range numRows).foldl (fun hbs row =>
        (List.range T).foldl (fun hbs mask =>
          if mask &&& (1 <<< row) ≠ 0 then
            set2 hbs mask col (wrap32 (get2 hbs mask col
              + wrap32 (cell board (numRows - row - 1) col
                  + cell board (numRows - row - 1) (col + 1))))
          else hbs) hbs) t) T n ∧
    ∀ a b, get2 ((List.range numRows).foldl (fun hbs row =>
        (List.range T).foldl (fun hbs mask =>
          if mask &&& (1 <<< row) ≠ 0 then
            set2 hbs mask col (wrap32 (get2 hbs mask col
              + wrap32 (cell board (numRows - row - 1) col
                  + cell board (numRows - row - 1) (col + 1))))
          else hbs) hbs) t) a b
      = if b = col ∧ a < T then
          wrap32 (bitSum numRows a (fun r => bitValue board numRows r col
            + bitValue board numRows r (col + 1))) else get2 t a b := by
  apply foldl_range_induction _ t numRows (fun k s => Dims s T n ∧ ∀ a b, get2 s a b
      = if b = col ∧ a < T then
          wrap32 (bitSum k a (fun r => bitValue board numRows r col
            + bitValue board numRows r (col + 1))) else get2 t a b)
  · refine ⟨ht, fun a b => ?_⟩
    by_cases h1 : b = col ∧ a < T
    · rw [if_pos h1, bitSum_zero, wrap32_zero, h1.1, h0]
    · rw [if_neg h1]
  · rintro k s _ ⟨hd, hv⟩
    obtain ⟨hd2, hv2⟩ := hbsW_inner T k col
      (wrap32 (cell board (numRows - k - 1) col + cell board (numRows - k - 1) (col + 1)))
      s n hd hcol
    refine ⟨hd2, fun a b => ?_⟩
    rw [hv2 a b, hv a b, bitSum_succ]
    by_cases h1 : b = col ∧ a < T
    · by_cases h2 : a.testBit k = true
      · have h3 : b = col ∧ a < T ∧ a.testBit k = true := ⟨h1.1, h1.2, h2⟩
        simp only [if_pos h1, if_pos h2, if_pos h3, wrap32_add_wrap32, wrap32_wrap32_add]
        rfl
      · have h3 : ¬ (b = col ∧ a < T ∧ a.testBit k = true) := fun e => h2 e.2.2
        simp only [if_pos h1, if_neg h2, if_neg h3, add_zero]
    · have h3 : ¬ (b = col ∧ a < T ∧ a.testBit k = true) := fun e => h1 ⟨e.1, e.2.1⟩
      simp only [if_neg h1, if_neg h3]

/-- The weight table of the engine with the machine widths: every entry is the sum of the pair
values of the bits of its mask, reduced to 32 bits. -/
theorem computeHorizontalBlockSumW_eq (board : List (List Int)) (numRows numColumns : Nat)
    (hc : 1 ≤ numColumns) :
    ∃ t, computeHorizontalBlockSumW board numRows numColumns = some t ∧
      Dims t (2 ^ numRows) (numColumns - 1) ∧
      ∀ a b, get2 t a b = if b < numColumns - 1 ∧ a < 2 ^ numRows then
        wrap32 (bitSum numRows a (fun r => bitValue board numRows r b
          + bitValue board numRows r (b + 1))) else 0 := by
  unfold computeHorizontalBlockSumW
  have h : ¬ ((numColumns : Int) - 1 < 0) := by omega
  simp only [h, if_false]
  refine ⟨_, rfl, ?_⟩
  rw [one_shiftLeft_eq]
  apply foldl_range_induction _ _ (numColumns - 1)
    (fun k s => Dims s (2 ^ numRows) (numColumns - 1) ∧
      ∀ a b, get2 s a b = if b < k ∧ a < 2 ^ numRows then
        wrap32 (bitSum numRows a (fun r => bitValue board numRows r b
          + bitValue board numRows r (b + 1))) else 0)
  · exact ⟨dims_replicate _ _, fun a b => by simp [get2_replicate]⟩
  · rintro k s hk ⟨hd, hv⟩
    have h0 : ∀ a, get2 s a k = 0 := by
      intro a
      rw [hv a k, if_neg (fun e => absurd e.1 (lt_irrefl _))]
    obtain ⟨hd2, hv2⟩ := hbsW_rows board numRows (2 ^ numRows) k s _ hd hk h0
    refine ⟨hd2, fun a b => ?_⟩
    rw [hv2 a b, hv a b]
    by_cases hbk : b = k
    · subst hbk
      by_cases ha : a < 2 ^ numRows
      · rw [if_pos ⟨rfl, ha⟩, if_pos ⟨by omega, ha⟩]
      · rw [if_neg (fun e => ha e.2), if_neg (fun e => ha e.2), if_neg (fun e => ha e.2)]
    · have h1 : ¬ (b = k ∧ a < 2 ^ numRows) := fun e => hbk e.1
      rw [if_neg h1]
      have : b < k + 1 ↔ b < k := by omega
      simp only [this]

theorem verticalBlockSumW_eq (board : List (List Int)) (numRows col v : Nat) :
    verticalBlockSumW board numRows col v
      = wrap32 (bitSum numRows v (fun b => bitValue board numRows b col)) := by
  unfold verticalBlockSumW
  apply foldl_range_induction _ (0 : Int) numRows
    (fun k s => s = wrap32 (bitSum k v (fun b => bitValue board numRows b col)))
  · rw [bitSum_zero, wrap32_zero]
  · intro k s _ hs
    rw [bitSum_succ, hs]
    by_cases hbit : v &&& (1 <<< k) ≠ 0
    · rw [if_pos hbit, if_pos ((and_one_shiftLeft_ne_zero _ _).1 hbit), wrap32_wrap32_add]
      rfl
    · rw [if_neg hbit]
      have : ¬ v.testBit k = true := fun e => hbit ((and_one_shiftLeft_ne_zero _ _).2 e)
      rw [if_neg this, add_zero]

/-! ## Sequences of DP updates with the 64-bit addition -/

theorem dims_relaxW {t : List (List Int)} {m n : Nat} (h : Dims t m n) (s : Step) :
    Dims (relaxW t s) m n :=
  dims_set2 h _ _ _

theorem get2_relaxW {t : List (List Int)} {m n : Nat} (h : Dims t m n) (s : Step)
    (hi : s.tgt < m) (hj : s.ct < n) (a b : Nat) :
    get2 (relaxW t s) a b = if a = s.tgt ∧ b = s.ct then
      max (get2 t s.tgt s.ct) (wrap64 (get2 t s.src s.cs + s.w)) else get2 t a b :=
  get2_set2 h hi hj _ a b

theorem relaxAllW_nil (t : List (List Int)) : relaxAllW t [] = t := rfl

theorem relaxAllW_cons (t : List (List Int)) (s : Step) (l : List Step) :
    relaxAllW t (s :: l) = relaxAllW (relaxW t s) l := rfl

theorem relaxAllW_append (t : List (List Int)) (l1 l2 : List Step) :
    relaxAllW t (l1 ++ l2) = relaxAllW (relaxAllW t l1) l2 := by
  unfold relaxAllW
  rw [List.foldl_append]

theorem dims_relaxAllW {m n : Nat} (steps : List Step) :
    ∀ t : List (List Int), Dims t m n → Dims (relaxAllW t steps) m n := by
  induction steps with
  | nil => intro t h; exact h
  | cons s l ih => intro t h; exact ih _ (dims_relaxW h s)

theorem relaxW_mono {t : List (List Int)} {m n : Nat} (h : Dims t m n) (s : Step)
    (hi : s.tgt < m) (hj : s.ct < n) (a b : Nat) : get2 t a b ≤ get2 (relaxW t s) a b := by
  rw [get2_relaxW h s hi hj]
  by_cases hab : a = s.tgt ∧ b = s.ct
  · rw [if_pos hab, hab.1, hab.2]; exact le_max_left _ _
  · rw [if_neg hab]

theorem relaxAllW_mono {m n : Nat} (steps : List Step) :
    ∀ t : List (List Int), Dims t m n → (∀ s ∈ steps, s.tgt < m ∧ s.ct < n) →
      ∀ a b, get2 t a b ≤ get2 (relaxAllW t steps) a b := by
  induction steps with
  | nil => intro t _ _ a b; exact le_refl _
  | cons s l ih =>
    intro t h hr a b
    have hs := hr s (List.mem_cons_self _ _)
    exact le_trans (relaxW_mono h s hs.1 hs.2 a b)
      (ih _ (dims_relaxW h s) (fun x hx => hr x (List.mem_cons_of_mem _ hx)) a b)

/-- An invariant of the table entries that every update preserves holds after all of them. -/
theorem relaxAllW_inv {m n : Nat} (Φ : Nat → Nat → Int → Prop) (steps : List Step) :
    ∀ t : List (List Int), Dims t m n → (∀ s ∈ steps, s.tgt < m ∧ s.ct < n) →
      (∀ s ∈ steps, ∀ v old, Φ s.src s.cs v → Φ s.tgt s.ct old →
        Φ s.tgt s.ct (max old (wrap64 (v + s.w)))) →
      (∀ a b, Φ a b (get2 t a b)) → ∀ a b, Φ a b (get2 (relaxAllW t steps) a b) := by
  induction steps with
  | nil => intro t _ _ _ h0; exact h0
  | cons x l ih =>
    intro t h hr hΦ h0
    have hx := hr x (List.mem_cons_self _ _)
    apply ih _ (dims_relaxW h x) (fun y hy => hr y (List.mem_cons_of_mem _ hy))
      (fun y hy => hΦ y (List.mem_cons_of_mem _ hy))
    intro a b
    rw [get2_relaxW h x hx.1 hx.2]
    by_cases hab : a = x.tgt ∧ b = x.ct
    · rw [if_pos hab, hab.1, hab.2]
      exact hΦ x (List.mem_cons_self _ _) _ _ (h0 _ _) (h0 _ _)
    · rw [if_neg hab]; exact h0 a b

theorem relaxAllW_frame {m n : Nat} (steps : List Step) (a b : Nat) :
    ∀ t : List (List Int), Dims t m n → (∀ s ∈ steps, s.tgt < m ∧ s.ct < n) →
      (∀ s ∈ steps, ¬ (a = s.tgt ∧ b = s.ct)) →
      get2 (relaxAllW t steps) a b = get2 t a b := by
  induction steps with
  | nil => intro t _ _ _; rfl
  | cons x l ih =>
    intro t h hr hne
    have hx := hr x (List.mem_cons_self _ _)
    rw [relaxAllW_cons, ih _ (dims_relaxW h x) (fun y hy => hr y (List.mem_cons_of_mem _ hy))
      (fun y hy => hne y (List.mem_cons_of_mem _ hy)), get2_relaxW h x hx.1 hx.2,
      if_neg (hne x (List.mem_cons_self _ _))]

/-- If every candidate of the exact updates stays within 64 bits, the updates with the 64-bit
addition produce the same table as the exact ones. -/
theorem relaxAllW_eq_relaxAll {m n : Nat} (Φ : Nat → Nat → Int → Prop) (steps : List Step)
    (hfit : ∀ s ∈ steps, ∀ v, Φ s.tgt s.ct v → wrap64 v = v) :
    ∀ t : List (List Int), Dims t m n → (∀ s ∈ steps, s.tgt < m ∧ s.ct < n) →
      (∀ s ∈ steps, ∀ v, Φ s.src s.cs v → Φ s.tgt s.ct (v + s.w)) →
      (∀ a b, Φ a b (get2 t a b)) → relaxAllW t steps = relaxAll t steps := by
  induction steps with
  | nil => intro t _ _ _ _; rfl
  | cons x l ih =>
    intro t h hr hΦ h0
    have hx := hr x (List.mem_cons_self _ _)
    have hstep : relaxW t x = relax t x := by
      unfold relaxW relax
      rw [hfit x (List.mem_cons_self _ _) _ (hΦ x (List.mem_cons_self _ _) _ (h0 _ _))]
    rw [relaxAllW_cons, relaxAll_cons, hstep]
    apply ih (fun y hy => hfit y (List.mem_cons_of_mem _ hy)) _ (dims_relax h x)
      (fun y hy => hr y (List.mem_cons_of_mem _ hy))
      (fun y hy => hΦ y (List.mem_cons_of_mem _ hy))
    have h1 := relaxAll_inv Φ [x] t h (fun y hy => by
        rw [List.mem_singleton.1 hy]; exact hx)
      (fun y hy => by rw [List.mem_singleton.1 hy]; exact hΦ x (List.mem_cons_self _ _)) h0
    exact h1

theorem verticalPhaseW_eq (board : List (List Int)) (numRows : Nat) (VM : List (List Nat))
    (col : Nat) (dp : List (List Int)) :
    verticalPhaseW board numRows VM col dp
      = relaxAllW dp (verticalStepsW board numRows VM col) := by
  unfold verticalPhaseW verticalStepsW relaxAllW
  rw [foldl_flatMap_eq]
  simp only [List.foldl_map]
  rfl

theorem horizontalPhaseW_eq (numRows : Nat) (hbs : List (List Int)) (HM : List (List Nat))
    (col : Nat) (dp : List (List Int)) :
    horizontalPhaseW numRows hbs HM col dp
      = relaxAllW dp (horizontalSteps numRows hbs HM col) := by
  unfold horizontalPhaseW horizontalSteps relaxAllW
  rw [foldl_flatMap_eq]
  simp only [List.foldl_map]
  rfl

theorem mem_verticalStepsW (board : List (List Int)) (n col : Nat) (s : Step) :
    s ∈ verticalStepsW board n (generateMatchingVerticalMasks n) col ↔
      ∃ h v, h < 2 ^ n ∧ (col = 0 → h = 0) ∧ v ∈ generateVerticalBlocks h 0 [] 0 n ∧
        s = ⟨h ||| v, col, h, col,
          wrap32 (bitSum n v (fun b => bitValue board n b col))⟩ := by
  unfold verticalStepsW
  rw [one_shiftLeft_eq, List.mem_flatMap]
  constructor
  · rintro ⟨h, hh, hs⟩
    have hlt : h < 2 ^ n := by
      by_cases hc : col = 0
      · rw [if_pos hc, take_one_range _ (two_pow_pos_nat n)] at hh
        rw [List.mem_singleton.1 hh]; exact two_pow_pos_nat n
      · rw [if_neg hc] at hh; exact List.mem_range.1 hh
    rw [matchingVerticalMasks_getD n h hlt, List.mem_map] at hs
    obtain ⟨v, hv, rfl⟩ := hs
    refine ⟨h, v, hlt, ?_, hv, by rw [verticalBlockSumW_eq]⟩
    intro hc
    rw [if_pos hc, take_one_range _ (two_pow_pos_nat n)] at hh
    exact List.mem_singleton.1 hh
  · rintro ⟨h, v, hlt, hc0, hv, rfl⟩
    refine ⟨h, ?_, ?_⟩
    · by_cases hc : col = 0
      · rw [if_pos hc, take_one_range _ (two_pow_pos_nat n), hc0 hc]
        exact List.mem_singleton.2 rfl
      · rw [if_neg hc]; exact List.mem_range.2 hlt
    · rw [matchingVerticalMasks_getD n h hlt, List.mem_map]
      exact ⟨v, hv, by rw [verticalBlockSumW_eq]⟩

theorem verticalBlocks_lt (n h v : Nat) (hv : v ∈ generateVerticalBlocks h 0 [] 0 n) :
    v < 2 ^ n := by
  obtain ⟨S, hS, hbits⟩ := (mem_verticalBlocks_iff n h v).1 hv
  rw [lt_two_pow_iff_testBit]
  intro i hi
  by_contra hne
  obtain ⟨b, hb, hib⟩ := (hbits i).1 (by simpa using hne)
  have := (hS.1 b hb).1
  omega

theorem verticalStepsW_range (board : List (List Int)) (n C col : Nat) (hcol : col < C) :
    ∀ s ∈ verticalStepsW board n (generateMatchingVerticalMasks n) col,
      s.tgt < 2 ^ n ∧ s.ct < C := by
  intro s hs
  obtain ⟨h, v, hlt, _, hv, rfl⟩ := (mem_verticalStepsW board n col s).1 hs
  exact ⟨Nat.or_lt_two_pow hlt (verticalBlocks_lt n h v hv), hcol⟩

theorem dims_verticalPhaseW (board : List (List Int)) (n C col : Nat)
    (dp : List (List Int)) (hd : Dims dp (2 ^ n) C) :
    Dims (verticalPhaseW board n (generateMatchingVerticalMasks n) col dp) (2 ^ n) C := by
  rw [verticalPhaseW_eq]
  exact dims_relaxAllW _ _ hd

theorem dims_horizontalPhaseW (n C col : Nat) (hbs dp : List (List Int))
    (hd : Dims dp (2 ^ n) C) :
    Dims (horizontalPhaseW n hbs (generateMatchingHorizontalMasks n) col dp) (2 ^ n) C := by
  rw [horizontalPhaseW_eq]
  exact dims_relaxAllW _ _ hd

theorem sweepStepW_eq_relaxAllW (board : List (List Int)) (n C : Nat) (hbs : List (List Int))
    (dp : List (List Int)) (col : Nat) :
    sweepStepW board n C hbs (generateMatchingVerticalMasks n)
        (generateMatchingHorizontalMasks n) dp col
      = relaxAllW (relaxAllW dp (verticalStepsW board n (generateMatchingVerticalMasks n) col))
          (if col < C - 1 then
            horizontalSteps n hbs (generateMatchingHorizontalMasks n) col else []) := by
  unfold sweepStepW
  simp only [verticalPhaseW_eq, horizontalPhaseW_eq]
  by_cases h : col < C - 1
  · rw [if_pos h, if_pos h]
  · rw [if_neg h, if_neg h]; rfl

theorem sweepTableW_succ (board : List (List Int)) (n C : Nat) (hbs : List (List Int))
    (k : Nat) :
    sweepTableW board n C hbs (k + 1)
      = sweepStepW board n C hbs (generateMatchingVerticalMasks n)
          (generateMatchingHorizontalMasks n) (sweepTableW board n C hbs k) k := by
  unfold sweepTableW
  rw [foldl_range_succ]

theorem sweepTableW_zero (board : List (List Int)) (n C : Nat) (hbs : List (List Int)) :
    sweepTableW board n C hbs 0 = List.replicate (2 ^ n) (List.replicate C (0 : Int)) := by
  unfold sweepTableW
  rw [one_shiftLeft_eq]
  rfl

theorem dims_sweepTableW (board : List (List Int)) (n C : Nat) (hbs : List (List Int)) :
    ∀ k, Dims (sweepTableW board n C hbs k) (2 ^ n) C := by
  intro k
  induction k with
  | zero =>
    rw [sweepTableW_zero]
    exact dims_replicate _ _
  | succ k ih =>
    rw [sweepTableW_succ, sweepStepW_eq_relaxAllW]
    exact dims_relaxAllW _ _ (dims_relaxAllW _ _ ih)

theorem mainW_eq_sweepTableW (board : List (List Int)) (numRows numColumns : Nat) :
    mainW numColumns numRows board
      = (computeHorizontalBlockSumW board numRows numColumns).map fun hbs =>
          (List.range (1 <<< numRows)).foldl (fun overallMax mask =>
            max overallMax
              (get2 (sweepTableW board numRows numColumns hbs numColumns) mask
                (numColumns - 1))) 0 := by
  unfold mainW sweepTableW
  cases computeHorizontalBlockSumW board numRows numColumns <;> rfl

/-! ## Bounds of the output of the engine with the machine widths -/

theorem bitSum_nonneg (n mask : Nat) (f : Nat → Int) (h : ∀ b, b < n → 0 ≤ f b) :
    0 ≤ bitSum n mask f := by
  unfold bitSum
  apply Finset.sum_nonneg
  intro b hb
  exact h b (Finset.mem_range.1 (Finset.mem_filter.1 hb).1)

/-- On a board without negative values every update of the vertical phase keeps an entry
non-negative and below the weight of a placement that is `Good` for its mask. -/
theorem dominated_verticalW (board : List (List Int)) (n C col : Nat) (hcol : col < C)
    (hnn : ∀ b c, b < n → c < C → 0 ≤ bitValue board n b c) :
    ∀ s ∈ verticalStepsW board n (generateMatchingVerticalMasks n) col, ∀ v old,
      (0 ≤ v ∧ (s.src < 2 ^ n → s.cs < C →
        ∃ P, Good n C P s.src s.cs ∧ v ≤ weight (bitValue board n) P)) →
      (0 ≤ old ∧ (s.tgt < 2 ^ n → s.ct < C →
        ∃ P, Good n C P s.tgt s.ct ∧ old ≤ weight (bitValue board n) P)) →
      (0 ≤ max old (wrap64 (v + s.w)) ∧ (s.tgt < 2 ^ n → s.ct < C →
        ∃ P, Good n C P s.tgt s.ct ∧
          max old (wrap64 (v + s.w)) ≤ weight (bitValue board n) P)) := by
  intro s hs v old hv hold
  rcases max_cases old (wrap64 (v + s.w)) with ⟨e, _⟩ | ⟨e, hle⟩
  · rw [e]; exact hold
  · rw [e]
    refine ⟨le_trans hold.1 (le_of_lt hle), fun ha hb => ?_⟩
    obtain ⟨h, v1, hlt, hc0, hv1, rfl⟩ := (mem_verticalStepsW board n col s).1 hs
    obtain ⟨P, hP, hPle⟩ := hv.2 hlt hcol
    have hmem : (⟨h ||| v1, col, h, col,
        bitSum n v1 (fun b => bitValue board n b col)⟩ : Step)
        ∈ verticalSteps board n (generateMatchingVerticalMasks n) col :=
      (mem_verticalSteps board n col _).2 ⟨h, v1, hlt, hc0, hv1, rfl⟩
    obtain ⟨Q, hQ, hw⟩ := reach_vertical board n C col hcol _ hmem
      (weight (bitValue board n) P) (fun _ _ => ⟨P, hP, rfl⟩) ha hb
    refine ⟨Q, hQ, ?_⟩
    have hV : 0 ≤ bitSum n v1 (fun b => bitValue board n b col) :=
      bitSum_nonneg n v1 _ (fun b hb => hnn b col hb hcol)
    have h32 := wrap32_range (bitSum n v1 (fun b => bitValue board n b col))
    have h32le := wrap32_le_self (x := bitSum n v1 (fun b => bitValue board n b col))
      (by omega)
    have h64 := wrap64_le_self
      (x := v + wrap32 (bitSum n v1 (fun b => bitValue board n b col))) (by omega)
    have hv0 := hv.1
    show wrap64 (v + wrap32 (bitSum n v1 (fun b => bitValue board n b col)))
      ≤ weight (bitValue board n) Q
    have hw2 : weight (bitValue board n) Q = weight (bitValue board n) P
        + bitSum n v1 (fun b => bitValue board n b col) := hw
    omega

/-- On a board without negative values every update of the horizontal phase keeps an entry
non-negative and below the weight of a placement that is `Good` for its mask. -/
theorem dominated_horizontalW (board : List (List Int)) (n C col : Nat) (hcol : col + 1 < C)
    (hnn : ∀ b c, b < n → c < C → 0 ≤ bitValue board n b c) (hbs : List (List Int))
    (hv : ∀ a b, get2 hbs a b = if b < C - 1 ∧ a < 2 ^ n then
        wrap32 (bitSum n a (fun r => bitValue board n r b + bitValue board n r (b + 1)))
        else 0) :
    ∀ s ∈ horizontalSteps n hbs (generateMatchingHorizontalMasks n) col, ∀ v old,
      (0 ≤ v ∧ (s.src < 2 ^ n → s.cs < C →
        ∃ P, Good n C P s.src s.cs ∧ v ≤ weight (bitValue board n) P)) →
      (0 ≤ old ∧ (s.tgt < 2 ^ n → s.ct < C →
        ∃ P, Good n C P s.tgt s.ct ∧ old ≤ weight (bitValue board n) P)) →
      (0 ≤ max old (wrap64 (v + s.w)) ∧ (s.tgt < 2 ^ n → s.ct < C →
        ∃ P, Good n C P s.tgt s.ct ∧
          max old (wrap64 (v + s.w)) ≤ weight (bitValue board n) P)) := by
  intro s hs v old hv0 hold
  rcases max_cases old (wrap64 (v + s.w)) with ⟨e, _⟩ | ⟨e, hle⟩
  · rw [e]; exact hold
  · rw [e]
    refine ⟨le_trans hold.1 (le_of_lt hle), fun _ _ => ?_⟩
    obtain ⟨h, m, hlt, hm, hdisj, rfl⟩ := (mem_horizontalSteps n hbs col s).1 hs
    obtain ⟨P, hP, hPle⟩ := hv0.2 hlt (show col < C by omega)
    obtain ⟨hg, hwt⟩ := good_add_horizontal n C col hcol (bitValue board n) P h m hP hdisj
    refine ⟨_, hg, ?_⟩
    have hcond : col < C - 1 ∧ m < 2 ^ n := ⟨by omega, hm⟩
    have hS : 0 ≤ bitSum n m (fun b => bitValue board n b col + bitValue board n b (col + 1)) :=
      bitSum_nonneg n m _ (fun b hb =>
        add_nonneg (hnn b col hb (by omega)) (hnn b (col + 1) hb hcol))
    have h32le := wrap32_le_self
      (x := bitSum n m (fun b => bitValue board n b col + bitValue board n b (col + 1)))
      (by omega)
    have hval : get2 hbs m col = wrap32 (bitSum n m
        (fun b => bitValue board n b col + bitValue board n b (col + 1))) := by
      rw [hv, if_pos hcond]
    have hv1 := hv0.1
    show wrap64 (v + (if get2 hbs m col ≥ 0 then get2 hbs m col else 0)) ≤ _
    rw [hwt, hval]
    split
    · rename_i hge
      have h64 := wrap64_le_self (x := v + wrap32 (bitSum n m
        (fun b => bitValue board n b col + bitValue board n b (col + 1)))) (by omega)
      omega
    · have h64 := wrap64_le_self (x := v + 0) (by omega)
      omega

/-- On a board without negative values every entry of the table of the engine with the
machine widths is non-negative and at most the weight of a placement. -/
theorem sweepTableW_dominated (board : List (List Int)) (n C : Nat) (hbs : List (List Int))
    (hnn : ∀ b c, b < n → c < C → 0 ≤ bitValue board n b c)
    (hv : ∀ a b, get2 hbs a b = if b < C - 1 ∧ a < 2 ^ n then
        wrap32 (bitSum n a (fun r => bitValue board n r b + bitValue board n r (b + 1)))
        else 0) :
    ∀ k, k ≤ C → ∀ a b, 0 ≤ get2 (sweepTableW board n C hbs k) a b ∧
      (a < 2 ^ n → b < C → ∃ P, Good n C P a b ∧
        get2 (sweepTableW board n C hbs k) a b ≤ weight (bitValue board n) P) := by
  intro k
  induction k with
  | zero =>
    intro _ a b
    rw [sweepTableW_zero, get2_replicate]
    exact ⟨le_refl _, fun _ _ => ⟨∅, good_empty n C a b, by rw [weight_empty]⟩⟩
  | succ k ih =>
    intro hk
    rw [sweepTableW_succ, sweepStepW_eq_relaxAllW]
    have hd := dims_sweepTableW board n C hbs k
    have hd1 := dims_relaxAllW (verticalStepsW board n (generateMatchingVerticalMasks n) k) _ hd
    have h1 := relaxAllW_inv
      (fun a b x => 0 ≤ x ∧ (a < 2 ^ n → b < C →
        ∃ P, Good n C P a b ∧ x ≤ weight (bitValue board n) P)) _ _ hd
      (verticalStepsW_range board n C k (by omega))
      (dominated_verticalW board n C k (by omega) hnn) (ih (by omega))
    by_cases hlast : k < C - 1
    · rw [if_pos hlast]
      exact relaxAllW_inv
        (fun a b x => 0 ≤ x ∧ (a < 2 ^ n → b < C →
          ∃ P, Good n C P a b ∧ x ≤ weight (bitValue board n) P)) _ _ hd1
        (horizontalSteps_range n hbs C k (by omega))
        (dominated_horizontalW board n C k (by omega) hnn hbs hv) h1
    · rw [if_neg hlast]
      exact h1

theorem sum_bitValue_eq (board : List (List Int)) (rows cols : Nat) :
    (∑ b in Finset.range rows, ∑ c in Finset.range cols, bitValue board rows b c)
      = ∑ r in Finset.range rows, ∑ c in Finset.range cols, cell board r c := by
  rw [← Finset.sum_range_reflect (fun r => ∑ c in Finset.range cols, cell board r c) rows]
  apply Finset.sum_congr rfl
  intro b _
  apply Finset.sum_congr rfl
  intro c _
  unfold bitValue
  rw [Nat.sub_right_comm]

/-- C7: if every cell of a grid with `rows ≥ 1` and `cols ≥ 1` is non-negative, the output of
the engine with the machine widths of the code (`int` sums in 32 bits, `dp` and `overallMax`
in 64 bits) is at least 0 and at most the sum of all cell values; this holds whether or not a
sum overflows its width. -/
theorem mainW_bounds (board : List (List Int)) (rows cols : Nat)
    (_hr : 1 ≤ rows) (hc : 1 ≤ cols) (_hg : IsGrid board rows cols)
    (hnn : ∀ r c, r < rows → c < cols → 0 ≤ cell board r c) :
    ∃ v, mainW cols rows board = some v ∧ 0 ≤ v ∧
      v ≤ ∑ r in Finset.range rows, ∑ c in Finset.range cols, cell board r c := by
  obtain ⟨hbs, ht, _, hv⟩ := computeHorizontalBlockSumW_eq board rows cols hc
  have hnn2 : ∀ b c, b < rows → c < cols → 0 ≤ bitValue board rows b c :=
    fun b c hb hcc => hnn (rows - b - 1) c (by omega) hcc
  have hdom := sweepTableW_dominated board rows cols hbs hnn2 hv cols (le_refl _)
  rw [mainW_eq_sweepTableW, ht, Option.map_some', one_shiftLeft_eq]
  obtain ⟨h1, _, h3⟩ := foldl_max_spec
    (fun mask => get2 (sweepTableW board rows cols hbs cols) mask (cols - 1)) (2 ^ rows) 0
  refine ⟨_, rfl, h1, ?_⟩
  rcases h3 with h3 | ⟨mask, hm, h3⟩
  · rw [h3]
    exact Finset.sum_nonneg fun r hr => Finset.sum_nonneg fun c hcc =>
      hnn r c (Finset.mem_range.1 hr) (Finset.mem_range.1 hcc)
  · rw [h3]
    obtain ⟨P, hP, hle⟩ := (hdom mask (cols - 1)).2 hm (by omega)
    refine le_trans hle ?_
    rw [← sum_bitValue_eq]
    exact weight_le_total (bitValue board rows) hP.1 hnn2

/-- A witness for `mainW_bounds` on the 2x2 board `[[1,2],[3,4]]`. -/
theorem mainW_bounds_witness :
    (1 ≤ 2 ∧ IsGrid [[1, 2], [3, 4]] 2 2 ∧
      ∀ r c, r < 2 → c < 2 → 0 ≤ cell [[1, 2], [3, 4]] r c) ∧
    ∃ v, mainW 2 2 [[1, 2], [3, 4]] = some v ∧ 0 ≤ v ∧
      v ≤ ∑ r in Finset.range 2, ∑ c in Finset.range 2, cell [[1, 2], [3, 4]] r c :=
  ⟨⟨by decide, by simp [IsGrid], board22_nonneg⟩,
    mainW_bounds [[1, 2], [3, 4]] 2 2 (by decide) (by decide) (by simp [IsGrid])
      board22_nonneg⟩

/-! ## Boards on which no sum overflows -/

theorem abs_bitSum_le (n mask : Nat) (f : Nat → Int) :
    |bitSum n mask f| ≤ ∑ b in Finset.range n, |f b| := by
  unfold bitSum
  refine le_trans (Finset.abs_sum_le_sum_abs _ _) ?_
  exact Finset.sum_le_sum_of_subset_of_nonneg (Finset.filter_subset _ _)
    (fun _ _ _ => abs_nonneg _)

theorem absTotal_bits (board : List (List Int)) (rows cols : Nat) :
    (∑ b in Finset.range rows, ∑ c in Finset.range cols, |bitValue board rows b c|)
      = absTotal board rows cols := by
  unfold absTotal
  rw [← Finset.sum_range_reflect (fun r => ∑ c in Finset.range cols, |cell board r c|) rows]
  apply Finset.sum_congr rfl
  intro b _
  apply Finset.sum_congr rfl
  intro c _
  unfold bitValue
  rw [Nat.sub_right_comm]

theorem abs_weight_le (val : Nat → Nat → Int) {n C : Nat} {P : Finset Domino}
    (hP : Valid n C P) :
    |weight val P| ≤ ∑ r in Finset.range n, ∑ c in Finset.range C, |val r c| := by
  have h1 : |weight val P| ≤ weight (fun r c => |val r c|) P := by
    unfold weight
    refine le_trans (Finset.abs_sum_le_sum_abs _ _) (Finset.sum_le_sum fun d _ => ?_)
    rw [dominoValue_eq, dominoValue_eq]
    split <;> exact abs_add _ _
  exact le_trans h1 (weight_le_total _ hP (fun _ _ _ _ => abs_nonneg _))

theorem abs_column_le (val : Nat → Nat → Int) (n C c : Nat) (hc : c < C) :
    (∑ b in Finset.range n, |val b c|)
      ≤ ∑ r in Finset.range n, ∑ c in Finset.range C, |val r c| := by
  apply Finset.sum_le_sum
  intro b _
  exact Finset.single_le_sum (f := fun c => |val b c|) (fun _ _ => abs_nonneg _)
    (Finset.mem_range.2 hc)

theorem abs_column_pair_le (val : Nat → Nat → Int) (n C c : Nat) (hc : c + 1 < C) :
    (∑ b in Finset.range n, |val b c + val b (c + 1)|)
      ≤ ∑ r in Finset.range n, ∑ c in Finset.range C, |val r c| := by
  apply Finset.sum_le_sum
  intro b _
  refine le_trans (abs_add _ _) ?_
  have hne : c ≠ c + 1 := by omega
  rw [← Finset.sum_pair (f := fun c => |val b c|) hne]
  apply Finset.sum_le_sum_of_subset_of_nonneg
  · intro x hx
    rw [Finset.mem_insert, Finset.mem_singleton] at hx
    rw [Finset.mem_range]
    omega
  · exact fun _ _ _ => abs_nonneg _

/-- If the absolute values of all cells add up to less than `2^31`, the 32-bit vertical sum is
the exact one. -/
theorem verticalBlockSumW_exact (board : List (List Int)) (n C col v : Nat) (hcol : col < C)
    (hsmall : absTotal board n C < 2147483648) :
    verticalBlockSumW board n col v = verticalBlockSum board n col v := by
  rw [verticalBlockSumW_eq, verticalBlockSum_eq]
  have h1 := abs_bitSum_le n v (fun b => bitValue board n b col)
  have h2 := abs_column_le (bitValue board n) n C col hcol
  rw [absTotal_bits] at h2
  obtain ⟨h3, h4⟩ := abs_le.1 (le_trans h1 h2)
  exact wrap32_eq_self (by omega) (by omega)

/-- If the absolute values of all cells add up to less than `2^31`, the entries of the 32-bit
weight table are the exact sums. -/
theorem computeHorizontalBlockSumW_exact (board : List (List Int)) (n C : Nat)
    (hsmall : absTotal board n C < 2147483648) (hbs : List (List Int))
    (hv : ∀ a b, get2 hbs a b = if b < C - 1 ∧ a < 2 ^ n then
        wrap32 (bitSum n a (fun r => bitValue board n r b + bitValue board n r (b + 1)))
        else 0) :
    ∀ a b, get2 hbs a b = if b < C - 1 ∧ a < 2 ^ n then
        bitSum n a (fun r => bitValue board n r b + bitValue board n r (b + 1)) else 0 := by
  intro a b
  rw [hv a b]
  by_cases hcond : b < C - 1 ∧ a < 2 ^ n
  · rw [if_pos hcond, if_pos hcond]
    have h1 := abs_bitSum_le n a (fun r => bitValue board n r b + bitValue board n r (b + 1))
    have h2 := abs_column_pair_le (bitValue board n) n C b (by omega)
    rw [absTotal_bits] at h2
    obtain ⟨h3, h4⟩ := abs_le.1 (le_trans h1 h2)
    exact wrap32_eq_self (by omega) (by omega)
  · rw [if_neg hcond, if_neg hcond]

theorem verticalStepsW_exact (board : List (List Int)) (n C col : Nat) (hcol : col < C)
    (hsmall : absTotal board n C < 2147483648) (VM : List (List Nat)) :
    verticalStepsW board n VM col = verticalSteps board n VM col := by
  unfold verticalStepsW verticalSteps
  simp only [verticalBlockSumW_exact board n C col _ hcol hsmall]

theorem reach_fits (board : List (List Int)) (n C : Nat)
    (hsmall : absTotal board n C < 2147483648) (a b : Nat) (v : Int)
    (ha : a < 2 ^ n) (hb : b < C) (h : Reach n C (bitValue board n) a b v) :
    wrap64 v = v := by
  obtain ⟨P, hP, hw⟩ := h ha hb
  have h1 := abs_weight_le (bitValue board n) hP.1
  rw [absTotal_bits, hw] at h1
  obtain ⟨h3, h4⟩ := abs_le.1 h1
  exact wrap64_eq_self (by omega) (by omega)

/-- If the absolute values of all cells add up to less than `2^31`, the vertical phase with
the machine widths is the exact one on every table whose entries are weights of placements. -/
theorem verticalPhaseW_exact (board : List (List Int)) (n C col : Nat) (hcol : col < C)
    (hsmall : absTotal board n C < 2147483648) (dp : List (List Int))
    (hd : Dims dp (2 ^ n) C) (hr : ∀ a b, Reach n C (bitValue board n) a b (get2 dp a b)) :
    verticalPhaseW board n (generateMatchingVerticalMasks n) col dp
      = verticalPhase board n (generateMatchingVerticalMasks n) col dp := by
  rw [verticalPhaseW_eq, verticalPhase_eq, verticalStepsW_exact board n C col hcol hsmall]
  exact relaxAllW_eq_relaxAll (Reach n C (bitValue board n)) _
    (fun s hs v hv => reach_fits board n C hsmall _ _ v
      (verticalSteps_range board n C col hcol s hs).1
      (verticalSteps_range board n C col hcol s hs).2 hv)
    dp hd (verticalSteps_range board n C col hcol) (reach_vertical board n C col hcol) hr

theorem horizontalPhaseW_exact (board : List (List Int)) (n C col : Nat) (hcol : col + 1 < C)
    (hsmall : absTotal board n C < 2147483648) (hbs : List (List Int))
    (hv : ∀ a b, get2 hbs a b = if b < C - 1 ∧ a < 2 ^ n then
        bitSum n a (fun r => bitValue board n r b + bitValue board n r (b + 1)) else 0)
    (dp : List (List Int))
    (hd : Dims dp (2 ^ n) C) (hr : ∀ a b, Reach n C (bitValue board n) a b (get2 dp a b)) :
    horizontalPhaseW n hbs (generateMatchingHorizontalMasks n) col dp
      = horizontalPhase n hbs (generateMatchingHorizontalMasks n) col dp := by
  rw [horizontalPhaseW_eq, horizontalPhase_eq]
  exact relaxAllW_eq_relaxAll (Reach n C (bitValue board n)) _
    (fun s hs v hv => reach_fits board n C hsmall _ _ v
      (horizontalSteps_range n hbs C col hcol s hs).1
      (horizontalSteps_range n hbs C col hcol s hs).2 hv)
    dp hd (horizontalSteps_range n hbs C col hcol)
    (reach_horizontal board n C col hcol hbs hv) hr

theorem sweepStepW_exact (board : List (List Int)) (n C col : Nat) (hcol : col < C)
    (hsmall : absTotal board n C < 2147483648) (hbs : List (List Int))
    (hv : ∀ a b, get2 hbs a b = if b < C - 1 ∧ a < 2 ^ n then
        bitSum n a (fun r => bitValue board n r b + bitValue board n r (b + 1)) else 0)
    (dp : List (List Int))
    (hd : Dims dp (2 ^ n) C) (hr : ∀ a b, Reach n C (bitValue board n) a b (get2 dp a b)) :
    sweepStepW board n C hbs (generateMatchingVerticalMasks n)
        (generateMatchingHorizontalMasks n) dp col
      = sweepStep board n C hbs (generateMatchingVerticalMasks n)
        (generateMatchingHorizontalMasks n) dp col := by
  unfold sweepStepW sweepStep
  simp only [verticalPhaseW_exact board n C col hcol hsmall dp hd hr]
  by_cases hlast : col < C - 1
  · simp only [if_pos hlast]
    apply horizontalPhaseW_exact board n C col (by omega) hsmall hbs hv _
      (dims_verticalPhase board n C col dp hd)
    rw [verticalPhase_eq]
    exact relaxAll_inv (Reach n C (bitValue board n)) _ dp hd
      (verticalSteps_range board n C col hcol) (reach_vertical board n C col hcol) hr
  · simp only [if_neg hlast]

/-- If the absolute values of all cells add up to less than `2^31`, the table of the engine
with the machine widths is the table of the engine with exact integers after every number of
iterations of the column loop. -/
theorem sweepTableW_exact (board : List (List Int)) (n C : Nat)
    (hsmall : absTotal board n C < 2147483648) (hbs : List (List Int))
    (hv : ∀ a b, get2 hbs a b = if b < C - 1 ∧ a < 2 ^ n then
        bitSum n a (fun r => bitValue board n r b + bitValue board n r (b + 1)) else 0) :
    ∀ k, k ≤ C → sweepTableW board n C hbs k = sweepTable board n C hbs k := by
  intro k
  induction k with
  | zero => intro _; rfl
  | succ k ih =>
    intro hk
    rw [sweepTableW_succ, sweepTable_succ, ih (by omega)]
    exact sweepStepW_exact board n C k (by omega) hsmall hbs hv _
      (dims_sweepTable board n C hbs k) (sweepTable_reach board n C hbs hv k (by omega))

/-- If the absolute values of all cells add up to less than `2^31`, the engine with the
machine widths returns the output of the engine with exact integers. -/
theorem mainW_exact (board : List (List Int)) (n C : Nat) (hC : 1 ≤ C)
    (hsmall : absTotal board n C < 2147483648) : mainW C n board = main C n board := by
  obtain ⟨hbsW, htW, hdW, hvW⟩ := computeHorizontalBlockSumW_eq board n C hC
  obtain ⟨hbs, ht, hd, hv⟩ := computeHorizontalBlockSum_eq board n C hC
  have hvW2 := computeHorizontalBlockSumW_exact board n C hsmall hbsW hvW
  rw [mainW_eq_sweepTableW, main_eq_sweepTable, htW, ht, Option.map_some', Option.map_some',
    sweepTableW_exact board n C hsmall hbsW hvW2 C (le_refl _)]
  congr 1
  have htab : sweepTable board n C hbsW C = sweepTable board n C hbs C := by
    unfold sweepTable sweepStep
    have hstep : ∀ col, horizontalPhase n hbsW (generateMatchingHorizontalMasks n) col
        = horizontalPhase n hbs (generateMatchingHorizontalMasks n) col := by
      intro col
      funext dp
      unfold horizontalPhase
      simp only [hvW2, hv]
    simp only [hstep]
  rw [htab]

/-! ## The meaning of a table entry of the engine with the machine widths -/

theorem wrap64_wrap64 (x : Int) : wrap64 (wrap64 x) = wrap64 x := by
  unfold wrap64; omega

/-- A list of updates none of which changes the entry another one reads: every target entry
ends as the greatest of its old value and the candidates computed from the old table. -/
theorem relaxAllW_two_buffer {m n : Nat} (t : List (List Int)) (hd : Dims t m n) :
    ∀ steps : List Step, (∀ s ∈ steps, s.tgt < m ∧ s.ct < n) →
      (∀ s ∈ steps, ∀ s' ∈ steps, s.tgt = s'.src → s.ct = s'.cs →
        wrap64 (get2 t s.src s.cs + s.w) ≤ get2 t s.tgt s.ct) →
      ∀ a b, IsGreatest {x | x = get2 t a b ∨ ∃ s ∈ steps, s.tgt = a ∧ s.ct = b ∧
        x = wrap64 (get2 t s.src s.cs + s.w)} (get2 (relaxAllW t steps) a b) := by
  intro steps
  induction steps using List.reverseRecOn with
  | nil =>
    intro _ _ a b
    refine ⟨Or.inl rfl, ?_⟩
    rintro x (rfl | ⟨s, hs, _⟩)
    · exact le_refl _
    · exact absurd hs (List.not_mem_nil _)
  | append_singleton l s ih =>
    intro hr hsep a b
    have hmem : ∀ y ∈ l, y ∈ l ++ [s] := fun y hy => List.mem_append_left _ hy
    have hsmem : s ∈ l ++ [s] := List.mem_append_right _ (List.mem_singleton.2 rfl)
    have ih2 := ih (fun y hy => hr y (hmem y hy))
      (fun y hy y' hy' => hsep y (hmem y hy) y' (hmem y' hy'))
    have hs := hr s hsmem
    have hsrc : get2 (relaxAllW t l) s.src s.cs = get2 t s.src s.cs := by
      apply le_antisymm
      · rcases (ih2 s.src s.cs).1 with e | ⟨y, hy, h1, h2, e⟩
        · rw [e]
        · rw [e]
          have := hsep y (hmem y hy) s hsmem h1 h2
          rw [h1, h2] at this
          exact this
      · exact (ih2 s.src s.cs).2 (Or.inl rfl)
    rw [relaxAllW_append, relaxAllW_cons, relaxAllW_nil,
      get2_relaxW (dims_relaxAllW l t hd) s hs.1 hs.2, hsrc]
    by_cases hab : a = s.tgt ∧ b = s.ct
    · rw [if_pos hab]
      obtain ⟨rfl, rfl⟩ := hab
      constructor
      · rcases max_cases (get2 (relaxAllW t l) s.tgt s.ct) (wrap64 (get2 t s.src s.cs + s.w))
          with ⟨e, _⟩ | ⟨e, _⟩
        · rw [e]
          rcases (ih2 s.tgt s.ct).1 with e2 | ⟨y, hy, h1, h2, e2⟩
          · exact Or.inl e2
          · exact Or.inr ⟨y, hmem y hy, h1, h2, e2⟩
        · rw [e]
          exact Or.inr ⟨s, hsmem, rfl, rfl, rfl⟩
      · rintro x (rfl | ⟨y, hy, h1, h2, rfl⟩)
        · exact le_trans ((ih2 s.tgt s.ct).2 (Or.inl rfl)) (le_max_left _ _)
        · rcases List.mem_append.1 hy with hy | hy
          · exact le_trans ((ih2 s.tgt s.ct).2 (Or.inr ⟨y, hy, h1, h2, rfl⟩))
              (le_max_left _ _)
          · rw [List.mem_singleton.1 hy]
            exact le_max_right _ _
    · rw [if_neg hab]
      constructor
      · rcases (ih2 a b).1 with e2 | ⟨y, hy, h1, h2, e2⟩
        · exact Or.inl e2
        · exact Or.inr ⟨y, hmem y hy, h1, h2, e2⟩
      · rintro x (rfl | ⟨y, hy, h1, h2, rfl⟩)
        · exact (ih2 a b).2 (Or.inl rfl)
        · rcases List.mem_append.1 hy with hy | hy
          · exact (ih2 a b).2 (Or.inr ⟨y, hy, h1, h2, rfl⟩)
          · rw [List.mem_singleton.1 hy] at h1 h2
            exact absurd ⟨h1.symm, h2.symm⟩ hab

theorem le_or_self (a b : Nat) : a ≤ a ||| b :=
  Nat.le_of_testBit fun i hi => by rw [Nat.testBit_or, hi, Bool.true_or]

/-- A vertical mask for `h` has no bit in common with `h`. -/
theorem verticalBlocks_disjoint (n h v : Nat) (hv : v ∈ generateVerticalBlocks h 0 [] 0 n)
    (i : Nat) (hi : v.testBit i = true) : h.testBit i = false := by
  obtain ⟨S, hS, hbits⟩ := (mem_verticalBlocks_iff n h v).1 hv
  obtain ⟨b, hb, hib⟩ := (hbits i).1 hi
  rcases hib with rfl | rfl
  · exact (hS.1 _ hb).2.1
  · exact (hS.1 _ hb).2.2

theorem verticalBlocks_or_eq (n h v : Nat) (hv : v ∈ generateVerticalBlocks h 0 [] 0 n)
    (he : h ||| v = h) : v = 0 := by
  apply Nat.eq_of_testBit_eq
  intro i
  rw [Nat.zero_testBit]
  by_contra hne
  have hi : v.testBit i = true := by simpa using hne
  have h1 := verticalBlocks_disjoint n h v hv i hi
  have h2 : (h ||| v).testBit i = true := by rw [Nat.testBit_or, hi, Bool.or_true]
  rw [he, h1] at h2
  exact Bool.false_ne_true h2

theorem mem_verticalStepsAt (w : Nat → Int) (n col h : Nat) (hlt : h < 2 ^ n) (s : Step) :
    s ∈ verticalStepsAt w (generateMatchingVerticalMasks n) col h ↔
      ∃ v, v ∈ generateVerticalBlocks h 0 [] 0 n ∧ s = ⟨h ||| v, col, h, col, w v⟩ := by
  unfold verticalStepsAt
  rw [matchingVerticalMasks_getD n h hlt, List.mem_map]
  constructor
  · rintro ⟨v, hv, rfl⟩; exact ⟨v, hv, rfl⟩
  · rintro ⟨v, hv, rfl⟩; exact ⟨v, hv, rfl⟩

theorem verticalUpTo_zero (w : Nat → Int) (VM : List (List Nat)) (col : Nat)
    (t : List (List Int)) : verticalUpTo w VM col t 0 = t := rfl

theorem verticalUpTo_succ (w : Nat → Int) (VM : List (List Nat)) (col : Nat)
    (t : List (List Int)) (k : Nat) :
    verticalUpTo w VM col t (k + 1)
      = relaxAllW (verticalUpTo w VM col t k) (verticalStepsAt w VM col k) := by
  unfold verticalUpTo
  rw [List.range_succ, List.flatMap_append, relaxAllW_append]
  simp [List.flatMap]

theorem verticalStepsAt_range (w : Nat → Int) (n C col h : Nat) (hlt : h < 2 ^ n)
    (hcol : col < C) :
    ∀ s ∈ verticalStepsAt w (generateMatchingVerticalMasks n) col h,
      s.tgt < 2 ^ n ∧ s.ct < C := by
  intro s hs
  obtain ⟨v, hv, rfl⟩ := (mem_verticalStepsAt w n col h hlt s).1 hs
  exact ⟨Nat.or_lt_two_pow hlt (verticalBlocks_lt n h v hv), hcol⟩

theorem dims_verticalUpTo (w : Nat → Int) (n C col : Nat) (t : List (List Int))
    (hd : Dims t (2 ^ n) C) (k : Nat) :
    Dims (verticalUpTo w (generateMatchingVerticalMasks n) col t k) (2 ^ n) C :=
  dims_relaxAllW _ _ hd

/-- One source mask of the vertical phase: the entries up to `k` keep their value, and every
entry ends as the greatest of its old value and the candidates read from the old entry `k`. -/
theorem verticalStepsAt_spec (w : Nat → Int) (hw0 : w 0 = 0) (n C col k : Nat)
    (hk : k < 2 ^ n) (hcol : col < C) (t : List (List Int)) (hd : Dims t (2 ^ n) C)
    (hfit : wrap64 (get2 t k col) = get2 t k col) :
    (∀ a b, get2 t a b
      ≤ get2 (relaxAllW t (verticalStepsAt w (generateMatchingVerticalMasks n) col k)) a b) ∧
    (∀ a b, (b ≠ col ∨ a ≤ k) →
      get2 (relaxAllW t (verticalStepsAt w (generateMatchingVerticalMasks n) col k)) a b
        = get2 t a b) ∧
    (∀ v, v ∈ generateVerticalBlocks k 0 [] 0 n → wrap64 (get2 t k col + w v)
      ≤ get2 (relaxAllW t (verticalStepsAt w (generateMatchingVerticalMasks n) col k))
          (k ||| v) col) ∧
    (∀ a, get2 (relaxAllW t (verticalStepsAt w (generateMatchingVerticalMasks n) col k)) a col
        = get2 t a col ∨
      ∃ v, v ∈ generateVerticalBlocks k 0 [] 0 n ∧ v ≠ 0 ∧ k ||| v = a ∧
        get2 (relaxAllW t (verticalStepsAt w (generateMatchingVerticalMasks n) col k)) a col
          = wrap64 (get2 t k col + w v)) := by
  have hr := verticalStepsAt_range w n C col k hk hcol
  have hzero : ∀ v, v ∈ generateVerticalBlocks k 0 [] 0 n → k ||| v = k →
      wrap64 (get2 t k col + w v) = get2 t k col := by
    intro v hv he
    rw [verticalBlocks_or_eq n k v hv he, hw0, add_zero, hfit]
  have hsep : ∀ s ∈ verticalStepsAt w (generateMatchingVerticalMasks n) col k,
      ∀ s' ∈ verticalStepsAt w (generateMatchingVerticalMasks n) col k,
      s.tgt = s'.src → s.ct = s'.cs →
        wrap64 (get2 t s.src s.cs + s.w) ≤ get2 t s.tgt s.ct := by
    intro s hs s' hs' h1 _
    obtain ⟨v, hv, rfl⟩ := (mem_verticalStepsAt w n col k hk s).1 hs
    obtain ⟨v', _, rfl⟩ := (mem_verticalStepsAt w n col k hk s').1 hs'
    have he : k ||| v = k := h1
    show wrap64 (get2 t k col + w v) ≤ get2 t (k ||| v) col
    rw [hzero v hv he, he]
  have key := relaxAllW_two_buffer t hd _ hr hsep
  refine ⟨fun a b => (key a b).2 (Or.inl rfl), ?_, ?_, ?_⟩
  · intro a b hab
    rcases (key a b).1 with e | ⟨s, hs, h1, h2, e⟩
    · exact e
    · obtain ⟨v, hv, rfl⟩ := (mem_verticalStepsAt w n col k hk s).1 hs
      have h1 : k ||| v = a := h1
      have h2 : col = b := h2
      rcases hab with hb | ha
      · exact absurd h2.symm hb
      · have hle : k ≤ k ||| v := le_or_self k v
        have hak : a = k := by omega
        have he : k ||| v = k := by rw [h1, hak]
        rw [e]
        show wrap64 (get2 t k col + w v) = get2 t a b
        rw [hzero v hv he, hak, ← h2]
  · intro v hv
    exact (key (k ||| v) col).2 (Or.inr ⟨⟨k ||| v, col, k, col, w v⟩,
      (mem_verticalStepsAt w n col k hk _).2 ⟨v, hv, rfl⟩, rfl, rfl, rfl⟩)
  · intro a
    rcases (key a col).1 with e | ⟨s, hs, h1, _, e⟩
    · exact Or.inl e
    · obtain ⟨v, hv, rfl⟩ := (mem_verticalStepsAt w n col k hk s).1 hs
      have h1 : k ||| v = a := h1
      by_cases hv0 : v = 0
      · left
        have he : k ||| v = k := by rw [hv0, Nat.or_zero]
        rw [e]
        show wrap64 (get2 t k col + w v) = get2 t a col
        rw [hzero v hv he, ← h1, he]
      · exact Or.inr ⟨v, hv, hv0, h1, e⟩

/-- The in-place vertical phase in canonical form: after the source masks below `k` the entries
of column `col` satisfy the recursion `B[m] = max(A[m], max over h | v = m, v ≠ 0 of
B[h] + w(v))`, in which the candidates read the final entries. -/
theorem verticalUpTo_fixpoint (w : Nat → Int) (hw0 : w 0 = 0) (n C col : Nat)
    (hcol : col < C) (t : List (List Int)) (hd : Dims t (2 ^ n) C)
    (hfit : ∀ a, wrap64 (get2 t a col) = get2 t a col) :
    ∀ k, k ≤ 2 ^ n →
      (∀ a, wrap64 (get2 (verticalUpTo w (generateMatchingVerticalMasks n) col t k) a col)
        = get2 (verticalUpTo w (generateMatchingVerticalMasks n) col t k) a col) ∧
      (∀ a b, get2 t a b
        ≤ get2 (verticalUpTo w (generateMatchingVerticalMasks n) col t k) a b) ∧
      (∀ a b, b ≠ col →
        get2 (verticalUpTo w (generateMatchingVerticalMasks n) col t k) a b = get2 t a b) ∧
      (∀ m, get2 (verticalUpTo w (generateMatchingVerticalMasks n) col t k) m col
          = get2 t m col ∨
        ∃ h v, h < k ∧ v ∈ generateVerticalBlocks h 0 [] 0 n ∧ v ≠ 0 ∧ h ||| v = m ∧
          get2 (verticalUpTo w (generateMatchingVerticalMasks n) col t k) m col
            = wrap64 (get2 (verticalUpTo w (generateMatchingVerticalMasks n) col t k) h col
                + w v)) ∧
      (∀ h v, h < k → v ∈ generateVerticalBlocks h 0 [] 0 n → v ≠ 0 →
        wrap64 (get2 (verticalUpTo w (generateMatchingVerticalMasks n) col t k) h col + w v)
          ≤ get2 (verticalUpTo w (generateMatchingVerticalMasks n) col t k) (h ||| v) col) := by
  intro k
  induction k with
  | zero =>
    intro _
    rw [verticalUpTo_zero]
    exact ⟨hfit, fun _ _ => le_refl _, fun _ _ _ => rfl, fun _ => Or.inl rfl,
      fun h v hh => absurd hh (Nat.not_lt_zero _)⟩
  | succ k ih =>
    intro hk
    obtain ⟨i1, i2, i3, i4, i5⟩ := ih (by omega)
    have hklt : k < 2 ^ n := by omega
    have hdV := dims_verticalUpTo w n C col t hd k
    obtain ⟨f1, f2, f3, f4⟩ := verticalStepsAt_spec w hw0 n C col k hklt hcol _ hdV (i1 k)
    rw [verticalUpTo_succ]
    generalize verticalUpTo w (generateMatchingVerticalMasks n) col t k = V at *
    generalize relaxAllW V (verticalStepsAt w (generateMatchingVerticalMasks n) col k)
      = V2 at *
    refine ⟨?_, fun a b => le_trans (i2 a b) (f1 a b), ?_, ?_, ?_⟩
    · intro a
      rcases f4 a with e | ⟨v, _, _, _, e⟩
      · rw [e]; exact i1 a
      · rw [e]; exact wrap64_wrap64 _
    · intro a b hb
      rw [f2 a b (Or.inl hb)]
      exact i3 a b hb
    · intro m
      rcases f4 m with e | ⟨v, hv, hv0, hor, e⟩
      · rcases i4 m with e2 | ⟨h, v, hh, hv, hv0, hor, e2⟩
        · exact Or.inl (by rw [e, e2])
        · refine Or.inr ⟨h, v, by omega, hv, hv0, hor, ?_⟩
          rw [e, e2, f2 h col (Or.inr (by omega))]
      · refine Or.inr ⟨k, v, by omega, hv, hv0, hor, ?_⟩
        rw [e, f2 k col (Or.inr (le_refl _))]
    · intro h v hh hv hv0
      by_cases hhk : h < k
      · rw [f2 h col (Or.inr (by omega))]
        exact le_trans (i5 h v hhk hv hv0) (f1 _ _)
      · have hek : h = k := by omega
        subst hek
        rw [f2 h col (Or.inr (le_refl _))]
        exact f3 v hv

/-! ## Reversing the order of the rows in a mask -/

theorem testBit_revMask (n m i : Nat) :
    (revMask n m).testBit i = (decide (i < n) && m.testBit (n - 1 - i)) := by
  unfold revMask
  rw [testBit_maskOf]

theorem revMask_lt (n m : Nat) : revMask n m < 2 ^ n :=
  maskOf_lt _ n

theorem revMask_revMask (n m : Nat) (hm : m < 2 ^ n) : revMask n (revMask n m) = m := by
  apply Nat.eq_of_testBit_eq
  intro i
  rw [testBit_revMask, testBit_revMask]
  by_cases hi : i < n
  · have h1 : n - 1 - i < n := by omega
    have h2 : n - 1 - (n - 1 - i) = i := by omega
    simp [hi, h1, h2]
  · rw [(lt_two_pow_iff_testBit m n).1 hm i (by omega)]
    simp [hi]

theorem revMask_or (n a b : Nat) : revMask n (a ||| b) = revMask n a ||| revMask n b := by
  apply Nat.eq_of_testBit_eq
  intro i
  rw [Nat.testBit_or, testBit_revMask, testBit_revMask, testBit_revMask, Nat.testBit_or,
    Bool.and_or_distrib_left]

theorem revMask_and (n a b : Nat) : revMask n (a &&& b) = revMask n a &&& revMask n b := by
  apply Nat.eq_of_testBit_eq
  intro i
  rw [Nat.testBit_and, testBit_revMask, testBit_revMask, testBit_revMask, Nat.testBit_and]
  cases decide (i < n) <;> simp

theorem revMask_zero (n : Nat) : revMask n 0 = 0 := by
  apply Nat.eq_of_testBit_eq
  intro i
  rw [testBit_revMask]
  simp

theorem revMask_eq_zero (n m : Nat) (hm : m < 2 ^ n) : revMask n m = 0 ↔ m = 0 := by
  constructor
  · intro h
    rw [← revMask_revMask n m hm, h, revMask_zero]
  · intro h
    rw [h, revMask_zero]

theorem revMask_and_eq_zero (n a b : Nat) (ha : a < 2 ^ n) :
    revMask n a &&& revMask n b = 0 ↔ a &&& b = 0 := by
  rw [← revMask_and]
  have hlt : a &&& b < 2 ^ n := lt_of_le_of_lt Nat.and_le_left ha
  exact revMask_eq_zero n _ hlt

/-- The vertical masks of the reversed base mask are the reversed vertical masks. -/
theorem mem_verticalBlocks_rev (n h v : Nat) (hv : v ∈ generateVerticalBlocks h 0 [] 0 n) :
    revMask n v ∈ generateVerticalBlocks (revMask n h) 0 [] 0 n := by
  obtain ⟨S, hS, hbits⟩ := (mem_verticalBlocks_iff n h v).1 hv
  rw [mem_verticalBlocks_iff]
  refine ⟨S.image (fun b => n - 2 - b), ⟨?_, ?_⟩, ?_⟩
  · intro b2 hb2
    obtain ⟨b, hb, rfl⟩ := Finset.mem_image.1 hb2
    obtain ⟨h1, h2, h3⟩ := hS.1 b hb
    have e1 : n - 1 - (n - 2 - b) = b + 1 := by omega
    have e2 : n - 1 - (n - 2 - b + 1) = b := by omega
    refine ⟨by omega, ?_, ?_⟩
    · rw [testBit_revMask, e1, h3, Bool.and_false]
    · rw [testBit_revMask, e2, h2, Bool.and_false]
  · intro b2 hb2 hb3
    obtain ⟨b, hb, rfl⟩ := Finset.mem_image.1 hb2
    obtain ⟨c, hc, hce⟩ := Finset.mem_image.1 hb3
    have h1 := (hS.1 b hb).1
    have h2 := (hS.1 c hc).1
    have hcb : c + 1 = b := by omega
    exact hS.2 c hc (hcb ▸ hb)
  · intro i
    rw [testBit_revMask, Bool.and_eq_true, decide_eq_true_eq, hbits]
    constructor
    · rintro ⟨hi, b, hb, hib⟩
      have h1 := (hS.1 b hb).1
      refine ⟨n - 2 - b, Finset.mem_image.2 ⟨b, hb, rfl⟩, ?_⟩
      omega
    · rintro ⟨b2, hb2, hib⟩
      obtain ⟨b, hb, rfl⟩ := Finset.mem_image.1 hb2
      have h1 := (hS.1 b hb).1
      refine ⟨by omega, b, hb, ?_⟩
      omega

/-- A sum over the bits of the reversed mask is the sum over the bits of the mask. -/
theorem bitSum_revMask (n v : Nat) (f : Nat → Int) :
    bitSum n (revMask n v) (fun b => f (n - 1 - b)) = bitSum n v f := by
  unfold bitSum
  apply Finset.sum_nbij' (fun b => n - 1 - b) (fun b => n - 1 - b)
  · intro b hb
    rw [Finset.mem_filter, Finset.mem_range] at hb ⊢
    obtain ⟨h1, h2⟩ := hb
    rw [testBit_revMask] at h2
    refine ⟨by omega, ?_⟩
    simpa [h1] using h2
  · intro b hb
    rw [Finset.mem_filter, Finset.mem_range] at hb ⊢
    obtain ⟨h1, h2⟩ := hb
    refine ⟨by omega, ?_⟩
    rw [testBit_revMask]
    have e : n - 1 - (n - 1 - b) = b := by omega
    have h3 : n - 1 - b < n := by omega
    simp [h3, e, h2]
  · intro b hb
    have h1 := Finset.mem_range.1 (Finset.mem_filter.1 hb).1
    show n - 1 - (n - 1 - b) = b
    omega
  · intro b hb
    have h1 := Finset.mem_range.1 (Finset.mem_filter.1 hb).1
    show n - 1 - (n - 1 - b) = b
    omega
  · intro b _
    rfl

theorem bitValue_reverse (board : List (List Int)) (n b c : Nat) (hn : board.length = n)
    (hb : b < n) : bitValue board.reverse n b c = bitValue board n (n - 1 - b) c := by
  unfold bitValue
  rw [cell_reverse board n b c hn hb]
  congr 1
  omega

/-- The 32-bit vertical sum of the reversed mask on the board with its rows reversed. -/
theorem verticalBlockSumW_reverse (board : List (List Int)) (n col v : Nat)
    (hn : board.length = n) :
    verticalBlockSumW board.reverse n col (revMask n v) = verticalBlockSumW board n col v := by
  rw [verticalBlockSumW_eq, verticalBlockSumW_eq]
  congr 1
  rw [← bitSum_revMask n v (fun b => bitValue board n b col)]
  apply bitSum_congr
  intro b hb
  exact bitValue_reverse board n b col hn hb

/-- The entries of the 32-bit weight table of the board with its rows reversed. -/
theorem hbsW_reverse (board : List (List Int)) (n C : Nat) (hn : board.length = n)
    (hbs hbs2 : List (List Int))
    (hv : ∀ a b, get2 hbs a b = if b < C - 1 ∧ a < 2 ^ n then
        wrap32 (bitSum n a (fun r => bitValue board n r b + bitValue board n r (b + 1)))
        else 0)
    (hv2 : ∀ a b, get2 hbs2 a b = if b < C - 1 ∧ a < 2 ^ n then
        wrap32 (bitSum n a (fun r => bitValue board.reverse n r b
          + bitValue board.reverse n r (b + 1))) else 0)
    (m c : Nat) (hm : m < 2 ^ n) : get2 hbs2 (revMask n m) c = get2 hbs m c := by
  rw [hv2, hv]
  by_cases hc : c < C - 1
  · rw [if_pos ⟨hc, revMask_lt n m⟩, if_pos ⟨hc, hm⟩]
    congr 1
    rw [← bitSum_revMask n m (fun r => bitValue board n r c + bitValue board n r (c + 1))]
    apply bitSum_congr
    intro b hb
    rw [bitValue_reverse board n b c hn hb, bitValue_reverse board n b (c + 1) hn hb]
  · rw [if_neg (fun e => hc e.1), if_neg (fun e => hc e.1)]

theorem lt_of_or_verticalBlocks (n h v : Nat) (hv : v ∈ generateVerticalBlocks h 0 [] 0 n)
    (hv0 : v ≠ 0) : h < h ||| v := by
  apply lt_of_le_of_ne (le_or_self h v)
  intro e
  exact hv0 (verticalBlocks_or_eq n h v hv e.symm)

/-! ## The engine with the machine widths on the board with its rows reversed -/

theorem verticalPhaseW_eq_upTo (board : List (List Int)) (n col : Nat)
    (dp : List (List Int)) :
    verticalPhaseW board n (generateMatchingVerticalMasks n) col dp
      = verticalUpTo (verticalBlockSumW board n col) (generateMatchingVerticalMasks n) col dp
          (if col = 0 then 1 else 2 ^ n) := by
  rw [verticalPhaseW_eq]
  unfold verticalStepsW verticalUpTo
  congr 1
  rw [one_shiftLeft_eq]
  by_cases hc : col = 0
  · rw [if_pos hc, if_pos hc, take_one_range _ (two_pow_pos_nat n)]
    rfl
  · rw [if_neg hc, if_neg hc]
    rfl

theorem verticalBlockSumW_zero (board : List (List Int)) (n col : Nat) :
    verticalBlockSumW board n col 0 = 0 := by
  rw [verticalBlockSumW_eq, bitSum_zero_mask, wrap32_zero]

/-- One half of the symmetry of the canonical form of the vertical phase. -/
theorem fixpoint_rev_le (n lim : Nat) (hlim : lim = 1 ∨ lim = 2 ^ n)
    (A B A2 B2 : Nat → Int) (w w2 : Nat → Int)
    (hA : ∀ m, m < 2 ^ n → A2 (revMask n m) = A m)
    (hw : ∀ v, v < 2 ^ n → w2 (revMask n v) = w v)
    (hup : ∀ m, B m = A m ∨ ∃ h v, h < lim ∧ v ∈ generateVerticalBlocks h 0 [] 0 n ∧ v ≠ 0 ∧
      h ||| v = m ∧ B m = wrap64 (B h + w v))
    (hmono2 : ∀ a, A2 a ≤ B2 a)
    (hlow2 : ∀ h v, h < lim → v ∈ generateVerticalBlocks h 0 [] 0 n → v ≠ 0 →
      wrap64 (B2 h + w2 v) ≤ B2 (h ||| v))
    (m : Nat) (hm : m < 2 ^ n)
    (ih : ∀ h v, h < 2 ^ n → v ∈ generateVerticalBlocks h 0 [] 0 n → v ≠ 0 → h ||| v = m →
      B2 (revMask n h) = B h) :
    B m ≤ B2 (revMask n m) := by
  have hpos : 0 < 2 ^ n := two_pow_pos_nat n
  rcases hup m with e | ⟨h, v, hh, hv, hv0, hor, e⟩
  · rw [e, ← hA m hm]
    exact hmono2 _
  · have hh2 : h < 2 ^ n := by rcases hlim with e1 | e1 <;> omega
    have hv2 := verticalBlocks_lt n h v hv
    have hrl : revMask n h < lim := by
      rcases hlim with e1 | e1
      · have h0 : h = 0 := by omega
        rw [h0, revMask_zero, e1]
        exact Nat.one_pos
      · rw [e1]; exact revMask_lt n h
    have hrv0 : revMask n v ≠ 0 := fun e0 => hv0 ((revMask_eq_zero n v hv2).1 e0)
    have key := hlow2 (revMask n h) (revMask n v) hrl (mem_verticalBlocks_rev n h v hv) hrv0
    rw [ih h v hh2 hv hv0 hor, hw v hv2, ← revMask_or, hor] at key
    rw [e]
    exact key

/-- The canonical form of the vertical phase is symmetric under the reversal of the rows. -/
theorem fixpoint_rev_eq (n lim : Nat) (hlim : lim = 1 ∨ lim = 2 ^ n)
    (A B A2 B2 : Nat → Int) (w w2 : Nat → Int)
    (hA : ∀ m, m < 2 ^ n → A2 (revMask n m) = A m)
    (hw : ∀ v, v < 2 ^ n → w2 (revMask n v) = w v)
    (hup : ∀ m, B m = A m ∨ ∃ h v, h < lim ∧ v ∈ generateVerticalBlocks h 0 [] 0 n ∧ v ≠ 0 ∧
      h ||| v = m ∧ B m = wrap64 (B h + w v))
    (hmono : ∀ a, A a ≤ B a)
    (hlow : ∀ h v, h < lim → v ∈ generateVerticalBlocks h 0 [] 0 n → v ≠ 0 →
      wrap64 (B h + w v) ≤ B (h ||| v))
    (hup2 : ∀ m, B2 m = A2 m ∨ ∃ h v, h < lim ∧ v ∈ generateVerticalBlocks h 0 [] 0 n ∧
      v ≠ 0 ∧ h ||| v = m ∧ B2 m = wrap64 (B2 h + w2 v))
    (hmono2 : ∀ a, A2 a ≤ B2 a)
    (hlow2 : ∀ h v, h < lim → v ∈ generateVerticalBlocks h 0 [] 0 n → v ≠ 0 →
      wrap64 (B2 h + w2 v) ≤ B2 (h ||| v)) :
    ∀ m, m < 2 ^ n → B2 (revMask n m) = B m := by
  intro m
  induction m using Nat.strong_induction_on with
  | _ m ih =>
    intro hm
    apply le_antisymm
    · have key := fixpoint_rev_le n lim hlim A2 B2 A B w2 w
        (fun m2 hm2 => by rw [← hA (revMask n m2) (revMask_lt n m2), revMask_revMask n m2 hm2])
        (fun v2 hv2 => by rw [← hw (revMask n v2) (revMask_lt n v2), revMask_revMask n v2 hv2])
        hup2 hmono hlow (revMask n m) (revMask_lt n m) ?_
      · rw [revMask_revMask n m hm] at key
        exact key
      · intro h2 v2 hh2 hv2 hv20 hor2
        have hv2lt := verticalBlocks_lt n h2 v2 hv2
        have hrv := mem_verticalBlocks_rev n h2 v2 hv2
        have hrv0 : revMask n v2 ≠ 0 := fun e0 => hv20 ((revMask_eq_zero n v2 hv2lt).1 e0)
        have hlt := lt_of_or_verticalBlocks n (revMask n h2) (revMask n v2) hrv hrv0
        rw [← revMask_or, hor2, revMask_revMask n m hm] at hlt
        have := ih (revMask n h2) hlt (revMask_lt n h2)
        rw [revMask_revMask n h2 hh2] at this
        exact this.symm
    · apply fixpoint_rev_le n lim hlim A B A2 B2 w w2 hA hw hup hmono2 hlow2 m hm
      intro h v hh hv hv0 hor
      have hlt := lt_of_or_verticalBlocks n h v hv hv0
      rw [hor] at hlt
      exact ih h hlt hh

theorem lim_cases (n col : Nat) :
    (if col = 0 then 1 else 2 ^ n) = 1 ∨ (if col = 0 then 1 else 2 ^ n) = 2 ^ n := by
  by_cases hc : col = 0
  · rw [if_pos hc]; exact Or.inl rfl
  · rw [if_neg hc]; exact Or.inr rfl

theorem lim_le (n col : Nat) : (if col = 0 then 1 else 2 ^ n) ≤ 2 ^ n := by
  by_cases hc : col = 0
  · rw [if_pos hc]; exact two_pow_pos_nat n
  · rw [if_neg hc]

/-- The vertical phase commutes with the reversal of the rows. -/
theorem verticalPhaseW_reverse (board : List (List Int)) (n C col : Nat)
    (hn : board.length = n) (hcol : col < C) (t t2 : List (List Int))
    (hd : Dims t (2 ^ n) C) (hd2 : Dims t2 (2 ^ n) C)
    (hfit : ∀ a b, wrap64 (get2 t a b) = get2 t a b)
    (hfit2 : ∀ a b, wrap64 (get2 t2 a b) = get2 t2 a b)
    (hsym : ∀ m, m < 2 ^ n → ∀ c, get2 t2 (revMask n m) c = get2 t m c) :
    ∀ m, m < 2 ^ n → ∀ c,
      get2 (verticalPhaseW board.reverse n (generateMatchingVerticalMasks n) col t2)
        (revMask n m) c
        = get2 (verticalPhaseW board n (generateMatchingVerticalMasks n) col t) m c := by
  intro m hm c
  rw [verticalPhaseW_eq_upTo, verticalPhaseW_eq_upTo]
  obtain ⟨_, i2, i3, i4, i5⟩ := verticalUpTo_fixpoint (verticalBlockSumW board n col)
    (verticalBlockSumW_zero board n col) n C col hcol t hd (fun a => hfit a col)
    (if col = 0 then 1 else 2 ^ n) (lim_le n col)
  obtain ⟨_, j2, j3, j4, j5⟩ := verticalUpTo_fixpoint (verticalBlockSumW board.reverse n col)
    (verticalBlockSumW_zero board.reverse n col) n C col hcol t2 hd2 (fun a => hfit2 a col)
    (if col = 0 then 1 else 2 ^ n) (lim_le n col)
  by_cases hc : c = col
  · subst hc
    exact fixpoint_rev_eq n _ (lim_cases n c)
      (fun a => get2 t a c) _ (fun a => get2 t2 a c) _
      (verticalBlockSumW board n c) (verticalBlockSumW board.reverse n c)
      (fun a ha => hsym a ha c)
      (fun v _ => verticalBlockSumW_reverse board n c v hn)
      i4 (fun a => i2 a c) i5 j4 (fun a => j2 a c) j5 m hm
  · rw [i3 m c hc, j3 (revMask n m) c hc]
    exact hsym m hm c

theorem mem_horizontalSteps_tgt (n : Nat) (hbs : List (List Int)) (col : Nat) (s : Step)
    (hs : s ∈ horizontalSteps n hbs (generateMatchingHorizontalMasks n) col) :
    s.ct = col + 1 ∧ s.cs = col := by
  obtain ⟨h, m, _, _, _, rfl⟩ := (mem_horizontalSteps n hbs col s).1 hs
  exact ⟨rfl, rfl⟩

/-- The horizontal phase in canonical form: every entry of column `col + 1` ends as the
greatest of its old value and the candidates read from column `col`. -/
theorem horizontalPhaseW_spec (n C col : Nat) (hcol : col + 1 < C) (hbs t : List (List Int))
    (hd : Dims t (2 ^ n) C) :
    (∀ a b, b ≠ col + 1 →
      get2 (horizontalPhaseW n hbs (generateMatchingHorizontalMasks n) col t) a b
        = get2 t a b) ∧
    (∀ a, get2 t a (col + 1)
      ≤ get2 (horizontalPhaseW n hbs (generateMatchingHorizontalMasks n) col t) a (col + 1)) ∧
    (∀ h m, h < 2 ^ n → m < 2 ^ n → m &&& h = 0 →
      wrap64 (get2 t h col + (if get2 hbs m col ≥ 0 then get2 hbs m col else 0))
        ≤ get2 (horizontalPhaseW n hbs (generateMatchingHorizontalMasks n) col t) m
            (col + 1)) ∧
    (∀ m, get2 (horizontalPhaseW n hbs (generateMatchingHorizontalMasks n) col t) m (col + 1)
        = get2 t m (col + 1) ∨
      ∃ h, h < 2 ^ n ∧ m < 2 ^ n ∧ m &&& h = 0 ∧
        get2 (horizontalPhaseW n hbs (generateMatchingHorizontalMasks n) col t) m (col + 1)
          = wrap64 (get2 t h col
              + (if get2 hbs m col ≥ 0 then get2 hbs m col else 0))) := by
  rw [horizontalPhaseW_eq]
  have hr := horizontalSteps_range n hbs C col hcol
  have key := relaxAllW_two_buffer t hd _ hr (by
    intro s hs s2 hs2 _ h2
    have e1 := (mem_horizontalSteps_tgt n hbs col s hs).1
    have e2 := (mem_horizontalSteps_tgt n hbs col s2 hs2).2
    omega)
  refine ⟨?_, fun a => (key a (col + 1)).2 (Or.inl rfl), ?_, ?_⟩
  · intro a b hb
    apply relaxAllW_frame _ a b t hd hr
    intro s hs e
    exact hb (by rw [e.2, (mem_horizontalSteps_tgt n hbs col s hs).1])
  · intro h m hh hm hdisj
    exact (key m (col + 1)).2 (Or.inr ⟨⟨m, col + 1, h, col,
        if get2 hbs m col ≥ 0 then get2 hbs m col else 0⟩,
      (mem_horizontalSteps n hbs col _).2 ⟨h, m, hh, hm, hdisj, rfl⟩, rfl, rfl, rfl⟩)
  · intro m
    rcases (key m (col + 1)).1 with e | ⟨s, hs, h1, _, e⟩
    · exact Or.inl e
    · obtain ⟨h, m2, hh, hm2, hdisj, rfl⟩ := (mem_horizontalSteps n hbs col s).1 hs
      have h1 : m2 = m := h1
      subst h1
      exact Or.inr ⟨h, hh, hm2, hdisj, e⟩

/-- One half of the symmetry of the horizontal phase. -/
theorem horizontalPhaseW_rev_le (n C col : Nat) (hcol : col + 1 < C)
    (hbs hbs2 t t2 : List (List Int)) (hd : Dims t (2 ^ n) C) (hd2 : Dims t2 (2 ^ n) C)
    (hsym : ∀ m, m < 2 ^ n → ∀ c, get2 t2 (revMask n m) c = get2 t m c)
    (hhbs : ∀ m, m < 2 ^ n → get2 hbs2 (revMask n m) col = get2 hbs m col)
    (m : Nat) (hm : m < 2 ^ n) :
    get2 (horizontalPhaseW n hbs (generateMatchingHorizontalMasks n) col t) m (col + 1)
      ≤ get2 (horizontalPhaseW n hbs2 (generateMatchingHorizontalMasks n) col t2)
          (revMask n m) (col + 1) := by
  obtain ⟨_, _, _, i4⟩ := horizontalPhaseW_spec n C col hcol hbs t hd
  obtain ⟨_, j2, j3, _⟩ := horizontalPhaseW_spec n C col hcol hbs2 t2 hd2
  rcases i4 m with e | ⟨h, hh, _, hdisj, e⟩
  · rw [e, ← hsym m hm (col + 1)]
    exact j2 _
  · rw [e, ← hsym h hh col, ← hhbs m hm]
    exact j3 (revMask n h) (revMask n m) (revMask_lt n h) (revMask_lt n m)
      ((revMask_and_eq_zero n m h hm).2 hdisj)

/-- The horizontal phase commutes with the reversal of the rows. -/
theorem horizontalPhaseW_reverse (n C col : Nat) (hcol : col + 1 < C)
    (hbs hbs2 t t2 : List (List Int)) (hd : Dims t (2 ^ n) C) (hd2 : Dims t2 (2 ^ n) C)
    (hsym : ∀ m, m < 2 ^ n → ∀ c, get2 t2 (revMask n m) c = get2 t m c)
    (hhbs : ∀ m, m < 2 ^ n → get2 hbs2 (revMask n m) col = get2 hbs m col) :
    ∀ m, m < 2 ^ n → ∀ c,
      get2 (horizontalPhaseW n hbs2 (generateMatchingHorizontalMasks n) col t2)
        (revMask n m) c
        = get2 (horizontalPhaseW n hbs (generateMatchingHorizontalMasks n) col t) m c := by
  intro m hm c
  by_cases hc : c = col + 1
  · subst hc
    apply le_antisymm
    · have key := horizontalPhaseW_rev_le n C col hcol hbs2 hbs t2 t hd2 hd
        (fun a ha c => by
          rw [← hsym (revMask n a) (revMask_lt n a) c, revMask_revMask n a ha])
        (fun a ha => by
          rw [← hhbs (revMask n a) (revMask_lt n a), revMask_revMask n a ha])
        (revMask n m) (revMask_lt n m)
      rw [revMask_revMask n m hm] at key
      exact key
    · exact horizontalPhaseW_rev_le n C col hcol hbs hbs2 t t2 hd hd2 hsym hhbs m hm
  · rw [(horizontalPhaseW_spec n C col hcol hbs t hd).1 m c hc,
      (horizontalPhaseW_spec n C col hcol hbs2 t2 hd2).1 (revMask n m) c hc]
    exact hsym m hm c

/-- Every entry of a table built by updates with the 64-bit addition fits in 64 bits. -/
theorem relaxAllW_fit {m n : Nat} (steps : List Step) (t : List (List Int))
    (hd : Dims t m n) (hr : ∀ s ∈ steps, s.tgt < m ∧ s.ct < n)
    (hfit : ∀ a b, wrap64 (get2 t a b) = get2 t a b) :
    ∀ a b, wrap64 (get2 (relaxAllW t steps) a b) = get2 (relaxAllW t steps) a b := by
  apply relaxAllW_inv (fun _ _ x => wrap64 x = x) steps t hd hr _ hfit
  intro s _ v old _ hold
  rcases max_cases old (wrap64 (v + s.w)) with ⟨e, _⟩ | ⟨e, _⟩
  · rw [e]; exact hold
  · rw [e]; exact wrap64_wrap64 _

theorem sweepTableW_fit (board : List (List Int)) (n C : Nat) (hbs : List (List Int)) :
    ∀ k, k ≤ C → ∀ a b, wrap64 (get2 (sweepTableW board n C hbs k) a b)
      = get2 (sweepTableW board n C hbs k) a b := by
  intro k
  induction k with
  | zero =>
    intro _ a b
    rw [sweepTableW_zero, get2_replicate]
    unfold wrap64; omega
  | succ k ih =>
    intro hk
    rw [sweepTableW_succ, sweepStepW_eq_relaxAllW]
    have hd := dims_sweepTableW board n C hbs k
    have h1 := relaxAllW_fit _ _ hd (verticalStepsW_range board n C k (by omega))
      (ih (by omega))
    by_cases hlast : k < C - 1
    · rw [if_pos hlast]
      exact relaxAllW_fit _ _ (dims_relaxAllW _ _ hd)
        (horizontalSteps_range n hbs C k (by omega)) h1
    · rw [if_neg hlast]
      exact h1

/-- The table of the engine on the board with its rows reversed is the table of the engine
with the rows of every mask reversed. -/
theorem sweepTableW_reverse (board : List (List Int)) (n C : Nat) (hn : board.length = n)
    (hbs hbs2 : List (List Int))
    (hhbs : ∀ m c, m < 2 ^ n → get2 hbs2 (revMask n m) c = get2 hbs m c) :
    ∀ k, k ≤ C → ∀ m, m < 2 ^ n → ∀ c,
      get2 (sweepTableW board.reverse n C hbs2 k) (revMask n m) c
        = get2 (sweepTableW board n C hbs k) m c := by
  intro k
  induction k with
  | zero =>
    intro _ m _ c
    rw [sweepTableW_zero, sweepTableW_zero, get2_replicate, get2_replicate]
  | succ k ih =>
    intro hk
    have hsym := ih (by omega)
    have hd := dims_sweepTableW board n C hbs k
    have hd2 := dims_sweepTableW board.reverse n C hbs2 k
    have hv := verticalPhaseW_reverse board n C k hn (by omega) _ _ hd hd2
      (sweepTableW_fit board n C hbs k (by omega))
      (sweepTableW_fit board.reverse n C hbs2 k (by omega)) hsym
    rw [sweepTableW_succ, sweepTableW_succ]
    unfold sweepStepW
    by_cases hlast : k < C - 1
    · simp only [if_pos hlast]
      exact horizontalPhaseW_reverse n C k (by omega) hbs hbs2 _ _
        (dims_verticalPhaseW board n C k _ hd) (dims_verticalPhaseW board.reverse n C k _ hd2)
        hv (fun m hm => hhbs m k hm)
    · simp only [if_neg hlast]
      exact hv

/-- The maximum over all masks does not change when the masks are enumerated in reversed
row order. -/
theorem foldl_max_rev (n : Nat) (f g : Nat → Int)
    (hfg : ∀ m, m < 2 ^ n → g (revMask n m) = f m) :
    (List.range (2 ^ n)).foldl (fun acc mask => max acc (g mask)) 0
      = (List.range (2 ^ n)).foldl (fun acc mask => max acc (f mask)) 0 := by
  obtain ⟨f1, f2, f3⟩ := foldl_max_spec f (2 ^ n) 0
  obtain ⟨g1, g2, g3⟩ := foldl_max_spec g (2 ^ n) 0
  apply le_antisymm
  · rcases g3 with e | ⟨m, hm, e⟩
    · rw [e]; exact f1
    · rw [e, ← revMask_revMask n m hm, hfg _ (revMask_lt n m)]
      exact f2 _ (revMask_lt n m)
  · rcases f3 with e | ⟨m, hm, e⟩
    · rw [e]; exact g1
    · rw [e, ← hfg m hm]
      exact g2 _ (revMask_lt n m)

/-- The engine with the machine widths returns the same output on the board with its rows
reversed. -/
theorem mainW_reverse (board : List (List Int)) (n C : Nat) (hC : 1 ≤ C)
    (hn : board.length = n) : mainW C n board.reverse = mainW C n board := by
  obtain ⟨hbs, ht, _, hv⟩ := computeHorizontalBlockSumW_eq board n C hC
  obtain ⟨hbs2, ht2, _, hv2⟩ := computeHorizontalBlockSumW_eq board.reverse n C hC
  rw [mainW_eq_sweepTableW, mainW_eq_sweepTableW, ht, ht2, Option.map_some',
    Option.map_some', one_shiftLeft_eq]
  congr 1
  apply foldl_max_rev n
  intro m hm
  exact sweepTableW_reverse board n C hn hbs hbs2
    (fun m c hm => hbsW_reverse board n C hn hbs hbs2 hv hv2 m c hm) C (le_refl _) m hm (C - 1)

theorem computeHorizontalBlockSumNaturalW_eq (board : List (List Int)) (n C : Nat)
    (hn : board.length = n) :
    computeHorizontalBlockSumNaturalW board n C
      = computeHorizontalBlockSumW board.reverse n C := by
  unfold computeHorizontalBlockSumNaturalW computeHorizontalBlockSumW
  dsimp only
  split
  · rfl
  · congr 1
    apply List.foldl_ext
    intro t col _
    apply List.foldl_ext
    intro t row hrow
    apply List.foldl_ext
    intro t mask _
    rw [cell_reverse board n row col hn (List.mem_range.1 hrow),
      cell_reverse board n row (col + 1) hn (List.mem_range.1 hrow)]

theorem verticalBlockSumNaturalW_eq (board : List (List Int)) (n col v : Nat)
    (hn : board.length = n) :
    verticalBlockSumNaturalW board n col v = verticalBlockSumW board.reverse n col v := by
  unfold verticalBlockSumNaturalW verticalBlockSumW
  apply List.foldl_ext
  intro s row hrow
  rw [cell_reverse board n row col hn (List.mem_range.1 hrow)]

theorem verticalPhaseNaturalW_eq (board : List (List Int)) (n : Nat) (VM : List (List Nat))
    (col : Nat) (dp : List (List Int)) (hn : board.length = n) :
    verticalPhaseNaturalW board n VM col dp = verticalPhaseW board.reverse n VM col dp := by
  unfold verticalPhaseNaturalW verticalPhaseW
  simp only [verticalBlockSumNaturalW_eq board n col _ hn]

theorem sweepStepNaturalW_eq (board : List (List Int)) (n C : Nat) (hbs : List (List Int))
    (VM HM : List (List Nat)) (hn : board.length = n) :
    sweepStepNaturalW board n C hbs VM HM = sweepStepW board.reverse n C hbs VM HM := by
  funext dp col
  unfold sweepStepNaturalW sweepStepW
  simp only [verticalPhaseNaturalW_eq board n VM col _ hn]

theorem mainNaturalW_eq (board : List (List Int)) (n C : Nat) (hn : board.length = n) :
    mainNaturalW C n board = mainW C n board.reverse := by
  unfold mainNaturalW mainW
  rw [computeHorizontalBlockSumNaturalW_eq board n C hn]
  cases computeHorizontalBlockSumW board.reverse n C with
  | none => rfl
  | some hbs =>
    simp only [sweepStepNaturalW_eq board n C hbs _ _ hn]

/-- C16: for every grid with `rows ≥ 1` and `cols ≥ 1`, the engine with the machine widths of
the code that uses the mapping bit = row (reading `board[row][..]` in the weight table and in
the vertical sum) returns the same output as the engine with the machine widths, and the
engine returns the same output on the grid with the order of its rows reversed; this holds
whether or not a sum overflows its width. -/
theorem mainW_row_mapping_irrelevant (board : List (List Int)) (rows cols : Nat)
    (_hr : 1 ≤ rows) (hc : 1 ≤ cols) (hg : IsGrid board rows cols) :
    mainNaturalW cols rows board = mainW cols rows board ∧
    mainW cols rows board.reverse = mainW cols rows board := by
  have h := mainW_reverse board rows cols hc hg.1
  exact ⟨by rw [mainNaturalW_eq board rows cols hg.1, h], h⟩

/-- A witness for `mainW_row_mapping_irrelevant` on the 2x2 board `[[1,2],[3,4]]`. -/
theorem mainW_row_mapping_irrelevant_witness :
    (1 ≤ 2 ∧ IsGrid [[1, 2], [3, 4]] 2 2) ∧
    (mainNaturalW 2 2 [[1, 2], [3, 4]] = mainW 2 2 [[1, 2], [3, 4]] ∧
      mainW 2 2 [[1, 2], [3, 4]].reverse = mainW 2 2 [[1, 2], [3, 4]]) :=
  ⟨⟨by decide, by simp [IsGrid]⟩,
    mainW_row_mapping_irrelevant [[1, 2], [3, 4]] 2 2 (by decide) (by decide)
      (by simp [IsGrid])⟩

/-! ## The size of the entries of the table of the engine with the machine widths -/

theorem verticalPhaseW_fit (board : List (List Int)) (n C col : Nat) (hcol : col < C)
    (t : List (List Int)) (hd : Dims t (2 ^ n) C)
    (hfit : ∀ a b, wrap64 (get2 t a b) = get2 t a b) :
    ∀ a b, wrap64 (get2 (verticalPhaseW board n (generateMatchingVerticalMasks n) col t) a b)
      = get2 (verticalPhaseW board n (generateMatchingVerticalMasks n) col t) a b := by
  rw [verticalPhaseW_eq]
  exact relaxAllW_fit _ _ hd (verticalStepsW_range board n C col hcol) hfit

end DominoDP
